import Mathlib

/-!
Intrusive circular doubly linked list and hlist (`src/list.h`).

Shallow embedding of the pointer code of `list.h`: first the definitions (the
doubly linked list, the scenario of `list_test.c`, the hlist), then the lemmas
and the theorems about them.

* A pointer is a natural number (an address); `NULL` is `0`.
* Memory is a total map from addresses to `struct list_head` values; a C
  statement `p->next = v` is the pointwise update `Mem.setNext m p v`, and a
  function body is the composition of its assignments in source order, every
  right-hand side being read from the memory reached so far (so aliasing
  between the pointers involved is accounted for).
* A function returning `void` becomes a function from memory to memory.
-/

namespace CBase

/-! ## Data model -/

/-- The two link fields of `struct list_head`. -/
structure list_head where
  next : Nat
  prev : Nat
deriving DecidableEq

/-- Memory: the `struct list_head` stored at every address. -/
abbrev Mem := Nat → list_head

/-- The assignment `p->next = v`. -/
def Mem.setNext (m : Mem) (p v : Nat) : Mem :=
  fun x => if x = p then ⟨v, (m x).prev⟩ else m x

/-- The assignment `p->prev = v`. -/
def Mem.setPrev (m : Mem) (p v : Nat) : Mem :=
  fun x => if x = p then ⟨(m x).next, v⟩ else m x

/-- The null pointer. -/
def NULL : Nat := 0

/-- `#define LIST_POISON1 ((void *)0x00100100)` -/
def LIST_POISON1 : Nat := 0x00100100

/-- `#define LIST_POISON2 ((void *)0x00200200)` -/
def LIST_POISON2 : Nat := 0x00200200

/-! ## Operations of `list.h` -/

/-- `INIT_LIST_HEAD(list)`. -/
def INIT_LIST_HEAD (m : Mem) (list : Nat) : Mem :=
  let m := m.setNext list list
  m.setPrev list list

/-- `__list_add(new_node, prev, next)`. -/
def __list_add (m : Mem) (new_node prev next : Nat) : Mem :=
  let m := m.setPrev next new_node
  let m := m.setNext new_node next
  let m := m.setPrev new_node prev
  m.setNext prev new_node

/-- `list_add(new_node, head)`. -/
def list_add (m : Mem) (new_node head : Nat) : Mem :=
  __list_add m new_node head (m head).next

/-- `list_add_tail(new_node, head)`. -/
def list_add_tail (m : Mem) (new_node head : Nat) : Mem :=
  __list_add m new_node (m head).prev head

/-- `__list_del(prev, next)`. -/
def __list_del (m : Mem) (prev next : Nat) : Mem :=
  let m := m.setPrev next prev
  m.setNext prev next

/-- `__list_del_entry(entry)`. -/
def __list_del_entry (m : Mem) (entry : Nat) : Mem :=
  __list_del m (m entry).prev (m entry).next

/-- `list_del(entry)`. -/
def list_del (m : Mem) (entry : Nat) : Mem :=
  let m := __list_del_entry m entry
  let m := m.setNext entry LIST_POISON1
  m.setPrev entry LIST_POISON2

/-- `list_replace(old, new_node)`. -/
def list_replace (m : Mem) (old new_node : Nat) : Mem :=
  let m := m.setNext new_node (m old).next
  let m := m.setPrev (m new_node).next new_node
  let m := m.setPrev new_node (m old).prev
  m.setNext (m new_node).prev new_node

/-- `list_replace_init(old, new_node)`. -/
def list_replace_init (m : Mem) (old new_node : Nat) : Mem :=
  let m := list_replace m old new_node
  INIT_LIST_HEAD m old

/-- `list_swap(entry1, entry2)`. -/
def list_swap (m : Mem) (entry1 entry2 : Nat) : Mem :=
  let pos := (m entry2).prev
  let m := list_del m entry2
  let m := list_replace m entry1 entry2
  let pos := if pos = entry1 then entry2 else pos
  list_add m entry1 pos

/-- `list_del_init(entry)`. -/
def list_del_init (m : Mem) (entry : Nat) : Mem :=
  let m := __list_del_entry m entry
  INIT_LIST_HEAD m entry

/-- `list_move(list, head)`. -/
def list_move (m : Mem) (list head : Nat) : Mem :=
  let m := __list_del_entry m list
  list_add m list head

/-- `list_move_tail(list, head)`. -/
def list_move_tail (m : Mem) (list head : Nat) : Mem :=
  let m := __list_del_entry m list
  list_add_tail m list head

/-- `list_bulk_move_tail(head, first, last)`. -/
def list_bulk_move_tail (m : Mem) (head first last : Nat) : Mem :=
  let m := m.setNext (m first).prev (m last).next
  let m := m.setPrev (m last).next (m first).prev
  let m := m.setNext (m head).prev first
  let m := m.setPrev first (m head).prev
  let m := m.setNext last head
  m.setPrev head last

/-- `list_empty(head)`. -/
def list_empty (m : Mem) (head : Nat) : Bool :=
  (m head).next == head

/-- `list_is_singular(head)`. -/
def list_is_singular (m : Mem) (head : Nat) : Bool :=
  !list_empty m head && ((m head).next == (m head).prev)

/-- `list_rotate_left(head)`. -/
def list_rotate_left (m : Mem) (head : Nat) : Mem :=
  if !list_empty m head then
    let first := (m head).next
    list_move_tail m first head
  else m

/-- `__list_cut_position(list, head, entry)`. -/
def __list_cut_position (m : Mem) (list head entry : Nat) : Mem :=
  let new_first := (m entry).next
  let m := m.setNext list (m head).next
  let m := m.setPrev (m list).next list
  let m := m.setPrev list entry
  let m := m.setNext entry list
  let m := m.setNext head new_first
  m.setPrev new_first head

/-- `list_cut_position(list, head, entry)`. -/
def list_cut_position (m : Mem) (list head entry : Nat) : Mem :=
  if list_empty m head then m
  else if list_is_singular m head && ((m head).next != entry && head != entry) then m
  else if entry = head then INIT_LIST_HEAD m list
  else __list_cut_position m list head entry

/-- `list_cut_before(list, head, entry)`. -/
def list_cut_before (m : Mem) (list head entry : Nat) : Mem :=
  if (m head).next = entry then INIT_LIST_HEAD m list
  else
    let m := m.setNext list (m head).next
    let m := m.setPrev (m list).next list
    let m := m.setPrev list (m entry).prev
    let m := m.setNext (m list).prev list
    let m := m.setNext head entry
    m.setPrev entry head

/-- `__list_splice(list, prev, next)`. -/
def __list_splice (m : Mem) (list prev next : Nat) : Mem :=
  let first := (m list).next
  let last := (m list).prev
  let m := m.setPrev first prev
  let m := m.setNext prev first
  let m := m.setNext last next
  m.setPrev next last

/-- `list_splice(list, head)`. -/
def list_splice (m : Mem) (list head : Nat) : Mem :=
  if !list_empty m list then __list_splice m list head (m head).next else m

/-- `list_splice_tail(list, head)`. -/
def list_splice_tail (m : Mem) (list head : Nat) : Mem :=
  if !list_empty m list then __list_splice m list (m head).prev head else m

/-- `list_splice_init(list, head)`. -/
def list_splice_init (m : Mem) (list head : Nat) : Mem :=
  if !list_empty m list then
    let m := __list_splice m list head (m head).next
    INIT_LIST_HEAD m list
  else m

/-- `list_splice_tail_init(list, head)`. -/
def list_splice_tail_init (m : Mem) (list head : Nat) : Mem :=
  if !list_empty m list then
    let m := __list_splice m list (m head).prev head
    INIT_LIST_HEAD m list
  else m

/-- The loop `list_for_each(pos, head)` started at cursor `pos`, collecting the
nodes on which the body runs.  `fuel` bounds the number of iterations; the
result is `none` when the loop has not reached `head` within that bound. -/
def list_for_each_from (m : Mem) (head : Nat) : Nat → Nat → Option (List Nat)
  | 0, pos => if pos = head then some [] else none
  | fuel + 1, pos =>
    if pos = head then some []
    else (list_for_each_from m head fuel (m pos).next).map (fun l => pos :: l)

/-- `list_for_each(pos, head)`: `for (pos = head->next; pos != head; pos = pos->next)`. -/
def list_for_each (m : Mem) (head fuel : Nat) : Option (List Nat) :=
  list_for_each_from m head fuel (m head).next

/-! ## Specification vocabulary -/

/-- The forward traversal of the list headed by `H` visits exactly the nodes `L`,
in that order, and then comes back to `H`. -/
def Traversal (m : Mem) (H : Nat) (L : List Nat) : Prop :=
  list_for_each m H L.length = some L

/-- The doubly linked invariant at node `N`:
`N.next.prev == N` and `N.prev.next == N`. -/
def Linked (m : Mem) (N : Nat) : Prop :=
  (m (m N).next).prev = N ∧ (m (m N).prev).next = N

/-- Well-formed list with head `H` and forward traversal `L`: the traversal
from `H` is `L` and every node of the ring (the head included) satisfies the
doubly linked invariant. -/
def WellFormed (m : Mem) (H : Nat) (L : List Nat) : Prop :=
  Traversal m H L ∧ ∀ N ∈ H :: L, Linked m N

/-- Node `N` is reachable from `H` by following `next` and `prev` pointers. -/
inductive Reachable (m : Mem) (H : Nat) : Nat → Prop
  | base : Reachable m H H
  | next {N : Nat} : Reachable m H N → Reachable m H (m N).next
  | prev {N : Nat} : Reachable m H N → Reachable m H (m N).prev

/-- A forward link `a → b` together with its back link. -/
def Link (m : Mem) (a b : Nat) : Prop :=
  (m a).next = b ∧ (m b).prev = a

/-- The nodes of `c`, in this cyclic order, form a closed doubly linked ring. -/
def Cyc (m : Mem) (c : List Nat) : Prop :=
  c.Nodup ∧ List.Chain' (Link m) c ∧ ∀ p ∈ c.getLast?, ∀ q ∈ c.head?, Link m p q

instance (m : Mem) (H : Nat) (L : List Nat) : Decidable (Traversal m H L) := by
  unfold Traversal; infer_instance

instance (m : Mem) (N : Nat) : Decidable (Linked m N) := by
  unfold Linked; infer_instance

instance (m : Mem) (H : Nat) (L : List Nat) : Decidable (WellFormed m H L) := by
  unfold WellFormed; infer_instance

/-- The forward link alone. -/
def NextLink (m : Mem) (a b : Nat) : Prop := (m a).next = b

/-- The invariant of the list headed by `H`: every node reachable from `H`
satisfies `N.next.prev == N` and `N.prev.next == N`. -/
def Invariant (m : Mem) (H : Nat) : Prop :=
  ∀ N, Reachable m H N → Linked m N

/-- The list headed by `H` is a well-formed ring, and every node reachable
from `H` satisfies the doubly linked invariant. -/
def Preserved (m : Mem) (H : Nat) : Prop :=
  (∃ L, WellFormed m H L) ∧ Invariant m H

/-- The list `l` with the two nodes `a` and `b` exchanged. -/
def exchange (a b : Nat) (l : List Nat) : List Nat :=
  l.map (fun x => if x = a then b else if x = b then a else x)

/-! ## The scenario of `list_test.c` -/

/-- `LIST_HEAD_INIT(head)` followed by the loop of `main` that calls
`list_add_tail(&p->list, &head)` for each new record in turn. -/
def tail_insert_all (m : Mem) (head : Nat) (nodes : List Nat) : Mem :=
  nodes.foldl (fun m n => list_add_tail m n head) (INIT_LIST_HEAD m head)

/-- The loop `list_for_each_entry(p, &head, struct mystruct, list)` of `main`,
collecting the payload `p->a` of every record; `a` gives the payload of the
record that embeds a node. -/
def payloads (a : Nat → Int) (m : Mem) (head fuel : Nat) : Option (List Int) :=
  (list_for_each m head fuel).map (List.map a)

/-- A memory image in which every node has both pointers null. -/
def Mem.zero : Mem := fun _ => ⟨NULL, NULL⟩

/-- Payloads 3, 1, 4, 1, 5 for the records whose nodes are at 11, ..., 15. -/
def pi_payload : Nat → Int := fun n =>
  if n = 11 then 3 else if n = 12 then 1 else if n = 13 then 4
  else if n = 14 then 1 else if n = 15 then 5 else 0

/-- The head at address 1 after tail-inserting the nodes 11, ..., 15. -/
def pi_mem : Mem := tail_insert_all Mem.zero 1 [11, 12, 13, 14, 15]

/-- A second list: the head at address 2 with the nodes 21, 22 tail-inserted
into `pi_mem`. -/
def two_mem : Mem := tail_insert_all pi_mem 2 [21, 22]

/-- `list_rotate_to_front(list, head)`. -/
def list_rotate_to_front (m : Mem) (list head : Nat) : Mem :=
  list_move_tail m head list

/-- The loop `list_for_each_safe(pos, n, head)` in the state reached with cursor
`pos` and cached successor `n`: while `pos != head`, run `body` on `pos`, then
`pos = n, n = pos->next`.  The result is the final memory and the nodes on
which the body ran, or `none` when `fuel` iterations did not reach `head`. -/
def list_for_each_safe_from (body : Mem → Nat → Mem) (head : Nat) :
    Nat → Mem → Nat → Nat → Option (Mem × List Nat)
  | 0, m, pos, _ => if pos = head then some (m, []) else none
  | fuel + 1, m, pos, n =>
    if pos = head then some (m, [])
    else
      let m := body m pos
      (list_for_each_safe_from body head fuel m n (m n).next).map
        (fun r => (r.1, pos :: r.2))

/-- `list_for_each_safe(pos, n, head)`:
`for (pos = head->next, n = pos->next; pos != head; pos = n, n = pos->next)`. -/
def list_for_each_safe (body : Mem → Nat → Mem) (m : Mem) (head fuel : Nat) :
    Option (Mem × List Nat) :=
  list_for_each_safe_from body head fuel m (m head).next (m (m head).next).next

/-! ## The hlist part of `list.h`

A value of type `struct hlist_node **` is the address of a pointer variable,
either `&h->first` or `&n->next`.  Both `first` and `next` are the first member
of their struct, so such a slot is identified with the address of the object it
starts: `&h->first` is `h` and `&n->next` is `n`.  Every address holds one cell
with the pointer stored at the address itself (`h->first` for a head, `n->next`
for a node) and, for a node, its `pprev`; distinct objects have distinct
addresses. -/

/-- The cell of `struct hlist_node`: `next` and `pprev`; for a
`struct hlist_head` the component `next` is the member `first`. -/
structure hlist_node where
  next : Nat
  pprev : Nat
deriving DecidableEq

/-- Memory of hlist cells. -/
abbrev HMem := Nat → hlist_node

/-- The assignment `*slot = v`, which is also `n->next = v` for `slot = &n->next`
and `h->first = v` for `slot = &h->first`. -/
def HMem.store (m : HMem) (slot v : Nat) : HMem :=
  fun x => if x = slot then ⟨v, (m x).pprev⟩ else m x

/-- The assignment `n->pprev = v`. -/
def HMem.setPprev (m : HMem) (n v : Nat) : HMem :=
  fun x => if x = n then ⟨(m x).next, v⟩ else m x

/-- The address `&n->next`. -/
def addr_next (n : Nat) : Nat := n

/-- The address `&h->first`. -/
def addr_first (h : Nat) : Nat := h

/-- `INIT_HLIST_HEAD(ptr)`. -/
def INIT_HLIST_HEAD (m : HMem) (ptr : Nat) : HMem :=
  m.store (addr_first ptr) NULL

/-- `INIT_HLIST_NODE(h)`. -/
def INIT_HLIST_NODE (m : HMem) (h : Nat) : HMem :=
  let m := m.store (addr_next h) NULL
  m.setPprev h NULL

/-- `hlist_unhashed(h)`: `!h->pprev`. -/
def hlist_unhashed (m : HMem) (h : Nat) : Bool :=
  (m h).pprev == NULL

/-- `hlist_empty(h)`: `!h->first`. -/
def hlist_empty (m : HMem) (h : Nat) : Bool :=
  (m (addr_first h)).next == NULL

/-- `__hlist_del(n)`. -/
def __hlist_del (m : HMem) (n : Nat) : HMem :=
  let next := (m n).next
  let pprev := (m n).pprev
  let m := m.store pprev next
  if next ≠ NULL then m.setPprev next pprev else m

/-- `hlist_del(n)`. -/
def hlist_del (m : HMem) (n : Nat) : HMem :=
  let m := __hlist_del m n
  let m := m.store (addr_next n) LIST_POISON1
  m.setPprev n LIST_POISON2

/-- `hlist_del_init(n)`. -/
def hlist_del_init (m : HMem) (n : Nat) : HMem :=
  if !hlist_unhashed m n then
    let m := __hlist_del m n
    INIT_HLIST_NODE m n
  else m

/-- `hlist_add_head(n, h)`. -/
def hlist_add_head (m : HMem) (n h : Nat) : HMem :=
  let first := (m (addr_first h)).next
  let m := m.store (addr_next n) first
  let m := if first ≠ NULL then m.setPprev first (addr_next n) else m
  let m := m.store (addr_first h) n
  m.setPprev n (addr_first h)

/-- `hlist_add_before(n, next)`. -/
def hlist_add_before (m : HMem) (n next : Nat) : HMem :=
  let m := m.setPprev n (m next).pprev
  let m := m.store (addr_next n) next
  let m := m.setPprev next (addr_next n)
  m.store (m n).pprev n

/-- `hlist_add_behind(n, prev)`. -/
def hlist_add_behind (m : HMem) (n prev : Nat) : HMem :=
  let m := m.store (addr_next n) (m prev).next
  let m := m.store (addr_next prev) n
  let m := m.setPprev n (addr_next prev)
  if (m n).next ≠ NULL then m.setPprev (m n).next (addr_next n) else m

/-- `hlist_add_fake(n)`. -/
def hlist_add_fake (m : HMem) (n : Nat) : HMem :=
  m.setPprev n (addr_next n)

/-- `hlist_fake(h)`. -/
def hlist_fake (m : HMem) (h : Nat) : Bool :=
  (m h).pprev == addr_next h

/-- `hlist_is_singular_node(n, h)`. -/
def hlist_is_singular_node (m : HMem) (n h : Nat) : Bool :=
  ((m n).next == NULL) && ((m n).pprev == addr_first h)

/-- `hlist_move_list(old, new_node)`. -/
def hlist_move_list (m : HMem) (old new_node : Nat) : HMem :=
  let m := m.store (addr_first new_node) (m (addr_first old)).next
  let m := if (m (addr_first new_node)).next ≠ NULL then
      m.setPprev (m (addr_first new_node)).next (addr_first new_node) else m
  m.store (addr_first old) NULL

/-- The loop `hlist_for_each(pos, head)` from cursor `pos`:
`for (...; pos; pos = pos->next)`, with a bound on the iterations. -/
def hlist_for_each_from (m : HMem) : Nat → Nat → Option (List Nat)
  | 0, pos => if pos = NULL then some [] else none
  | fuel + 1, pos =>
    if pos = NULL then some []
    else (hlist_for_each_from m fuel (m pos).next).map (fun l => pos :: l)

/-- `hlist_for_each(pos, head)`: `for (pos = head->first; pos; pos = pos->next)`. -/
def hlist_for_each (m : HMem) (head fuel : Nat) : Option (List Nat) :=
  hlist_for_each_from m fuel (m (addr_first head)).next

/-- The forward sequence of the chain at head `h` is `L`. -/
def HTraversal (m : HMem) (h : Nat) (L : List Nat) : Prop :=
  hlist_for_each m h L.length = some L

/-- The two conditions of the hlist invariant at a node `N`: the slot `N.pprev`
points at holds `N`, and if `N.next` is non-null then `N.next.pprev` is the
address of `N.next`. -/
def HLinked (m : HMem) (N : Nat) : Prop :=
  (m (m N).pprev).next = N ∧ ((m N).next ≠ NULL → (m (m N).next).pprev = addr_next N)

/-- The chain at `h` has forward sequence `L` and every node on it satisfies
the two conditions of the invariant. -/
def HNodesLinked (m : HMem) (h : Nat) (L : List Nat) : Prop :=
  HTraversal m h L ∧ ∀ N ∈ L, HLinked m N

/-- Well-formed chain at head `h` with forward sequence `L`: in addition, the
`pprev` of the first node is the address of `h.first`. -/
def HWellFormed (m : HMem) (h : Nat) (L : List Nat) : Prop :=
  HTraversal m h L ∧ (∀ n ∈ L.head?, (m n).pprev = addr_first h) ∧ ∀ N ∈ L, HLinked m N

/-- The same cells read as a doubly linked memory, `pprev` in the place of
`prev`. -/
def HMem.toMem (m : HMem) : Mem := fun x => ⟨(m x).next, (m x).pprev⟩

/-- The chain `h, L` is linked forward and back and ends in a null `next`. -/
def HChain (m : HMem) (h : Nat) (L : List Nat) : Prop :=
  (h :: L).Nodup ∧ NULL ∉ L ∧ List.Chain' (Link m.toMem) (h :: L) ∧
    ∀ p ∈ (h :: L).getLast?, (m p).next = NULL

instance (m : HMem) (h : Nat) (L : List Nat) : Decidable (HTraversal m h L) := by
  unfold HTraversal; infer_instance

instance (m : HMem) (N : Nat) : Decidable (HLinked m N) := by
  unfold HLinked; infer_instance

instance (m : HMem) (h : Nat) (L : List Nat) : Decidable (HNodesLinked m h L) := by
  unfold HNodesLinked; infer_instance

instance (m : HMem) (h : Nat) (L : List Nat) : Decidable (HWellFormed m h L) := by
  unfold HWellFormed; infer_instance

/-- An hlist memory in which every cell is null. -/
def HMem.zero : HMem := fun _ => ⟨NULL, NULL⟩

/-- The head at address 1 with the nodes 11, 12, 13 on its chain. -/
def h_mem : HMem :=
  hlist_add_head (hlist_add_head (hlist_add_head (INIT_HLIST_HEAD HMem.zero 1) 13 1) 12 1) 11 1

/-- A chain `11, 12` reached from the two heads 1 and 2, the first node
pointing back at head 2. -/
def shared_mem : HMem := fun x =>
  if x = 1 then ⟨11, 0⟩ else if x = 2 then ⟨11, 0⟩
  else if x = 11 then ⟨12, 2⟩ else if x = 12 then ⟨0, 11⟩ else ⟨0, 0⟩

/-! ## Memory updates -/

@[simp] theorem setNext_next (m : Mem) (p v x : Nat) :
    (m.setNext p v x).next = if x = p then v else (m x).next := by
  unfold Mem.setNext; split <;> rfl

@[simp] theorem setNext_prev (m : Mem) (p v x : Nat) :
    (m.setNext p v x).prev = (m x).prev := by
  unfold Mem.setNext; split <;> rfl

@[simp] theorem setPrev_next (m : Mem) (p v x : Nat) :
    (m.setPrev p v x).next = (m x).next := by
  unfold Mem.setPrev; split <;> rfl

@[simp] theorem setPrev_prev (m : Mem) (p v x : Nat) :
    (m.setPrev p v x).prev = if x = p then v else (m x).prev := by
  unfold Mem.setPrev; split <;> rfl

/-! ## Segments and rings -/

/-- Frame rule for an open segment: its links survive every update that
leaves `next` alone on all nodes but the last and `prev` alone on all nodes
but the first. -/
theorem chain'_frame {m m' : Mem} : ∀ {l : List Nat}, List.Chain' (Link m) l →
    (∀ x ∈ l.dropLast, (m' x).next = (m x).next) →
    (∀ y ∈ l.tail, (m' y).prev = (m y).prev) → List.Chain' (Link m') l
  | [], _, _, _ => List.chain'_nil
  | [a], _, _, _ => List.chain'_singleton a
  | a :: b :: l, h, hn, hp => by
    rw [List.chain'_cons] at h ⊢
    refine ⟨⟨?_, ?_⟩, chain'_frame h.2 ?_ ?_⟩
    · rw [hn a (by simp)]; exact h.1.1
    · rw [hp b (by simp)]; exact h.1.2
    · intro x hx
      exact hn x (by simp [List.dropLast]; right; simpa using hx)
    · intro y hy
      exact hp y (by simp at hy ⊢; right; exact hy)

theorem getLast?_cons_append_cons (x : Nat) (X : List Nat) (y : Nat) (Y : List Nat) :
    (x :: (X ++ y :: Y)).getLast? = (y :: Y).getLast? := by
  rw [← List.cons_append, List.getLast?_append_cons]

theorem cyc_rotate {m : Mem} {X Y : List Nat} (h : Cyc m (X ++ Y)) : Cyc m (Y ++ X) := by
  rcases X with _ | ⟨x, X⟩
  · simpa using h
  rcases Y with _ | ⟨y, Y⟩
  · simpa using h
  obtain ⟨hnd, hch, hcl⟩ := h
  rw [List.chain'_append] at hch
  refine ⟨List.nodup_append_comm.mp hnd, ?_, ?_⟩
  · rw [List.chain'_append]
    refine ⟨hch.2.1, hch.1, ?_⟩
    intro p hp q hq
    exact hcl p (by simpa [getLast?_cons_append_cons] using hp) q (by simpa using hq)
  · intro p hp q hq
    exact hch.2.2 p (by simpa [getLast?_cons_append_cons] using hp) q (by simpa using hq)

/-- In a ring that starts at `a`, the successor of `a` is the next node of the
ring (or `a` itself when it is alone). -/
theorem cyc_next_head {m : Mem} {a : Nat} {l : List Nat} (h : Cyc m (a :: l)) :
    (l ++ [a]).head? = some (m a).next := by
  obtain ⟨_, hch, hcl⟩ := h
  rcases l with _ | ⟨b, l⟩
  · have := hcl a (by simp) a (by simp)
    simp [this.1]
  · rw [List.chain'_cons] at hch
    simp [hch.1.1]

/-- In a ring that starts at `a`, the predecessor of `a` is the last node of
the ring. -/
theorem cyc_prev_head {m : Mem} {a : Nat} {l : List Nat} (h : Cyc m (a :: l)) :
    (a :: l).getLast? = some (m a).prev := by
  obtain ⟨_, _, hcl⟩ := h
  obtain ⟨p, hp⟩ : ∃ p, (a :: l).getLast? = some p := by
    rw [List.getLast?_eq_getLast _ (List.cons_ne_nil a l)]; exact ⟨_, rfl⟩
  have := hcl p hp a (by simp)
  rw [hp, this.2]

theorem cyc_linked_head {m : Mem} {a : Nat} {l : List Nat} (h : Cyc m (a :: l)) :
    Linked m a := by
  have h1 := cyc_next_head h
  have h2 := cyc_prev_head h
  obtain ⟨_, hch, hcl⟩ := h
  have hp := hcl _ h2 a (by simp)
  refine ⟨?_, hp.1⟩
  rcases l with _ | ⟨b, l⟩
  · simp at h2
    rw [← h2] at hp
    rw [hp.1]; exact h2.symm
  · rw [List.chain'_cons] at hch
    rw [hch.1.1]; exact hch.1.2

theorem cyc_linked {m : Mem} {c : List Nat} (h : Cyc m c) {N : Nat} (hN : N ∈ c) :
    Linked m N := by
  obtain ⟨X, Y, rfl⟩ := List.append_of_mem hN
  exact cyc_linked_head (cyc_rotate h)

theorem nextLink_overrun {m : Mem} : ∀ (l₁ l₂ : List Nat) (a b : Nat),
    List.Chain (NextLink m) a (l₁ ++ [b]) → List.Chain (NextLink m) a l₂ →
    l₁.length < l₂.length → b ∈ l₂
  | [], [], _, _, _, _, hlt => by simp at hlt
  | [], y :: l₂, a, b, h1, h2, _ => by
    simp only [List.nil_append, List.chain_cons, NextLink] at h1 h2
    simp [← h1.1, h2.1]
  | x :: l₁, [], _, _, _, _, hlt => by simp at hlt
  | x :: l₁, y :: l₂, a, b, h1, h2, hlt => by
    simp only [List.cons_append, List.chain_cons, NextLink] at h1 h2
    have hxy : x = y := by rw [← h1.1, h2.1]
    subst hxy
    have := nextLink_overrun l₁ l₂ x b h1.2 h2.2 (by simpa using hlt)
    simp [this]

theorem chain_left {R : Nat → Nat → Prop} : ∀ {l₁ l₂ : List Nat} {a : Nat},
    List.Chain R a (l₁ ++ l₂) → List.Chain R a l₁
  | [], _, _, _ => List.Chain.nil
  | x :: l₁, l₂, a, h => by
    simp only [List.cons_append, List.chain_cons] at h ⊢
    exact ⟨h.1, chain_left h.2⟩

/-- A forward path that reaches `H` only at its end never repeats a node. -/
theorem nextLink_nodup {m : Mem} {H : Nat} : ∀ (l : List Nat) (a : Nat),
    List.Chain (NextLink m) a (l ++ [H]) → H ∉ l → l.Nodup
  | [], _, _, _ => List.nodup_nil
  | x :: l, a, h, hH => by
    simp only [List.cons_append, List.chain_cons] at h
    simp only [List.mem_cons, not_or] at hH
    refine List.nodup_cons.mpr ⟨?_, nextLink_nodup l x h.2 hH.2⟩
    intro hx
    obtain ⟨p, q, rfl⟩ := List.append_of_mem hx
    have hq : List.Chain (NextLink m) x (q ++ [H]) := by
      have := h.2
      rw [List.append_assoc, List.cons_append, List.chain_split] at this
      exact this.2
    have hl : List.Chain (NextLink m) x (p ++ x :: q) := chain_left h.2
    exact hH.2 (nextLink_overrun q (p ++ x :: q) x H hq hl (by simp; omega))

/-! ## The traversal loop and the ring predicate -/

theorem list_for_each_from_iff (m : Mem) (head : Nat) : ∀ (L : List Nat) (pos : Nat),
    list_for_each_from m head L.length pos = some L ↔
      head ∉ L ∧ (L ++ [head]).head? = some pos ∧ List.Chain' (NextLink m) (L ++ [head])
  | [], pos => by
    simp [list_for_each_from, eq_comm]
  | x :: xs, pos => by
    have ih := list_for_each_from_iff m head xs (m pos).next
    simp only [List.length_cons, list_for_each_from]
    by_cases hp : pos = head
    · subst hp
      simp only [if_true, List.mem_cons, not_or, List.cons_append, List.head?_cons]
      constructor
      · intro h; simp at h
      · rintro ⟨⟨h1, _⟩, h2, _⟩
        simp at h2
        exact absurd h2.symm h1
    · simp only [hp, if_false, Option.map_eq_some', List.cons.injEq]
      constructor
      · rintro ⟨l, hl, rfl, rfl⟩
        rw [ih] at hl
        refine ⟨?_, by simp, ?_⟩
        · simp only [List.mem_cons, not_or]; exact ⟨fun h => hp h.symm, hl.1⟩
        · rw [List.cons_append, List.chain'_cons']
          exact ⟨fun y hy => by rw [hl.2.1] at hy; simpa [NextLink, eq_comm] using hy, hl.2.2⟩
      · rintro ⟨h1, h2, h3⟩
        simp only [List.mem_cons, not_or] at h1
        simp only [List.cons_append, List.head?_cons, Option.some.injEq] at h2
        subst h2
        rw [List.cons_append, List.chain'_cons'] at h3
        refine ⟨xs, ?_, rfl, rfl⟩
        rw [ih]
        refine ⟨h1.2, ?_, h3.2⟩
        rcases xs with _ | ⟨y, ys⟩
        · have := h3.1 head (by simp)
          simp [NextLink] at this
          simp [this]
        · have := h3.1 y (by simp)
          simp [NextLink] at this
          simp [this]

/-- More fuel does not change the result of the traversal loop. -/
theorem list_for_each_from_fuel (m : Mem) (head : Nat) : ∀ (L : List Nat) (fuel pos : Nat),
    list_for_each_from m head L.length pos = some L → L.length ≤ fuel →
    list_for_each_from m head fuel pos = some L
  | [], fuel, pos, h, _ => by
    have hp : pos = head := by
      by_contra hne
      simp [list_for_each_from, hne] at h
    cases fuel <;> simp [list_for_each_from, hp]
  | x :: xs, 0, pos, _, hle => by simp at hle
  | x :: xs, fuel + 1, pos, h, hle => by
    simp only [List.length_cons, list_for_each_from] at h ⊢
    by_cases hp : pos = head
    · simp [hp] at h
    · simp only [hp, if_false, Option.map_eq_some', List.cons.injEq] at h ⊢
      obtain ⟨l, hl, rfl, rfl⟩ := h
      exact ⟨l, list_for_each_from_fuel m head l fuel _ hl (by simpa using hle), rfl, rfl⟩

/-- A result of the traversal loop is reached within as many iterations as it
has nodes. -/
theorem list_for_each_from_length (m : Mem) (head : Nat) : ∀ (fuel : Nat) (L : List Nat)
    (pos : Nat), list_for_each_from m head fuel pos = some L →
    L.length ≤ fuel ∧ list_for_each_from m head L.length pos = some L
  | 0, L, pos, h => by
    by_cases hp : pos = head
    · simp [list_for_each_from, hp] at h
      subst h
      simp [list_for_each_from, hp]
    · simp [list_for_each_from, hp] at h
  | fuel + 1, L, pos, h => by
    by_cases hp : pos = head
    · simp [list_for_each_from, hp] at h
      subst h
      simp [list_for_each_from, hp]
    · simp only [list_for_each_from, hp, if_false, Option.map_eq_some'] at h
      obtain ⟨l, hl, rfl⟩ := h
      have ih := list_for_each_from_length m head fuel l _ hl
      refine ⟨by simpa using ih.1, ?_⟩
      simp only [List.length_cons, list_for_each_from, hp, if_false, Option.map_eq_some']
      exact ⟨l, ih.2, rfl⟩

/-- The traversal of `H` is `L` exactly when the loop `list_for_each`, given
enough iterations, terminates having visited `L`; any larger bound gives the
same result. -/
theorem traversal_iff_fuel (m : Mem) (H : Nat) (L : List Nat) :
    Traversal m H L ↔
      (∃ fuel, list_for_each m H fuel = some L) ∧
      ∀ fuel, L.length ≤ fuel → list_for_each m H fuel = some L := by
  unfold Traversal list_for_each
  constructor
  · intro h
    exact ⟨⟨L.length, h⟩, fun fuel hf => list_for_each_from_fuel m H L fuel _ h hf⟩
  · rintro ⟨⟨fuel, h⟩, _⟩
    exact (list_for_each_from_length m H fuel L _ h).2

theorem traversal_iff (m : Mem) (H : Nat) (L : List Nat) :
    Traversal m H L ↔ H ∉ L ∧ List.Chain (NextLink m) H (L ++ [H]) := by
  unfold Traversal list_for_each
  rw [list_for_each_from_iff]
  have : List.Chain (NextLink m) H (L ++ [H]) ↔ List.Chain' (NextLink m) (H :: (L ++ [H])) :=
    Iff.rfl
  rw [this, List.chain'_cons']
  constructor
  · rintro ⟨h1, h2, h3⟩
    exact ⟨h1, fun y hy => by rw [h2] at hy; simpa [NextLink, eq_comm] using hy, h3⟩
  · rintro ⟨h1, h2, h3⟩
    refine ⟨h1, ?_, h3⟩
    rcases L with _ | ⟨y, ys⟩
    · have := h2 H (by simp)
      simp [NextLink] at this
      simp [this]
    · have := h2 y (by simp)
      simp [NextLink] at this
      simp [this]

theorem chain'_nextLink_link {m : Mem} : ∀ {l : List Nat}, List.Chain' (NextLink m) l →
    (∀ x ∈ l.dropLast, (m (m x).next).prev = x) → List.Chain' (Link m) l
  | [], _, _ => List.chain'_nil
  | [a], _, _ => List.chain'_singleton a
  | a :: b :: l, h, hb => by
    rw [List.chain'_cons] at h ⊢
    have ha := hb a (by simp)
    have hab : (m a).next = b := h.1
    refine ⟨⟨hab, by rw [hab] at ha; exact ha⟩, chain'_nextLink_link h.2 ?_⟩
    intro x hx
    exact hb x (by simp [List.dropLast]; right; simpa using hx)

/-- Closed form of a ring that starts at `a`. -/
theorem cyc_cons_iff (m : Mem) (a : Nat) (l : List Nat) :
    Cyc m (a :: l) ↔ (a :: l).Nodup ∧ List.Chain (Link m) a (l ++ [a]) := by
  have : List.Chain (Link m) a (l ++ [a]) ↔ List.Chain' (Link m) ((a :: l) ++ [a]) := Iff.rfl
  rw [this, List.chain'_append]
  unfold Cyc
  simp

/-- The executable notion of a well-formed list and the ring predicate agree. -/
theorem wellFormed_iff_cyc (m : Mem) (H : Nat) (L : List Nat) :
    WellFormed m H L ↔ Cyc m (H :: L) := by
  rw [cyc_cons_iff]
  unfold WellFormed
  rw [traversal_iff]
  constructor
  · rintro ⟨⟨hH, hch⟩, hl⟩
    refine ⟨List.nodup_cons.mpr ⟨hH, nextLink_nodup L H hch hH⟩, ?_⟩
    have h1 : List.Chain' (NextLink m) (H :: (L ++ [H])) := hch
    refine chain'_nextLink_link h1 ?_
    intro x hx
    rw [← List.cons_append, List.dropLast_concat] at hx
    exact (hl x hx).1
  · rintro ⟨hnd, hch⟩
    refine ⟨⟨(List.nodup_cons.mp hnd).1, hch.imp (fun _ _ h => h.1)⟩, ?_⟩
    intro N hN
    exact cyc_linked ((cyc_cons_iff m H L).mpr ⟨hnd, hch⟩) hN

/-! ## Ring surgery -/

theorem ne_last_of_mem_dropLast {l : List Nat} {p x : Nat} (hnd : l.Nodup)
    (hp : l.getLast? = some p) (hx : x ∈ l.dropLast) : x ≠ p := by
  have h := List.dropLast_append_getLast? p hp
  rw [← h] at hnd
  rintro rfl
  exact (List.disjoint_of_nodup_append hnd) hx (by simp)

theorem ne_head_of_mem_tail {l : List Nat} {q y : Nat} (hnd : l.Nodup)
    (hq : l.head? = some q) (hy : y ∈ l.tail) : y ≠ q := by
  rcases l with _ | ⟨a, l⟩
  · simp at hq
  · simp at hq hy
    subst hq
    rintro rfl
    exact (List.nodup_cons.mp hnd).1 hy

/-- Closing an open segment `S` onto itself gives a ring. -/
theorem cyc_close {m m' : Mem} {S : List Nat} {f l : Nat}
    (hS : List.Chain' (Link m) S) (hnd : S.Nodup)
    (hf : S.head? = some f) (hl : S.getLast? = some l)
    (h1 : (m' l).next = f) (h2 : (m' f).prev = l)
    (hn : ∀ x ∈ S, x ≠ l → (m' x).next = (m x).next)
    (hp : ∀ x ∈ S, x ≠ f → (m' x).prev = (m x).prev) : Cyc m' S := by
  refine ⟨hnd, chain'_frame hS ?_ ?_, ?_⟩
  · intro x hx
    exact hn x (List.mem_of_mem_dropLast hx) (ne_last_of_mem_dropLast hnd hl hx)
  · intro y hy
    exact hp y (List.mem_of_mem_tail hy) (ne_head_of_mem_tail hnd hf hy)
  · intro p' hp' q' hq'
    rw [hl] at hp'; rw [hf] at hq'
    simp at hp' hq'
    subst hp' hq'
    exact ⟨h1, h2⟩

/-- Joining two disjoint open segments `M` and `R` end to end, both ways,
gives a ring. -/
theorem cyc_join {m m' : Mem} {M R : List Nat} {p q f l : Nat}
    (hM : List.Chain' (Link m) M) (hR : List.Chain' (Link m) R) (hnd : (M ++ R).Nodup)
    (hp : M.getLast? = some p) (hq : M.head? = some q)
    (hf : R.head? = some f) (hl : R.getLast? = some l)
    (h1 : (m' p).next = f) (h2 : (m' f).prev = p)
    (h3 : (m' l).next = q) (h4 : (m' q).prev = l)
    (hn : ∀ x ∈ M ++ R, x ≠ p → x ≠ l → (m' x).next = (m x).next)
    (hpv : ∀ x ∈ M ++ R, x ≠ f → x ≠ q → (m' x).prev = (m x).prev) : Cyc m' (M ++ R) := by
  have hMnd := (List.nodup_append.mp hnd).1
  have hRnd := (List.nodup_append.mp hnd).2.1
  have hdj := (List.nodup_append.mp hnd).2.2
  have hpM : p ∈ M := List.mem_of_mem_getLast? hp
  have hqM : q ∈ M := List.mem_of_mem_head? hq
  have hfR : f ∈ R := List.mem_of_mem_head? hf
  have hlR : l ∈ R := List.mem_of_mem_getLast? hl
  refine ⟨hnd, ?_, ?_⟩
  · rw [List.chain'_append]
    refine ⟨chain'_frame hM ?_ ?_, chain'_frame hR ?_ ?_, ?_⟩
    · intro x hx
      have hxM := List.mem_of_mem_dropLast hx
      exact hn x (by simp [hxM]) (ne_last_of_mem_dropLast hMnd hp hx)
        (fun h => hdj hxM (h ▸ hlR))
    · intro y hy
      have hyM := List.mem_of_mem_tail hy
      exact hpv y (by simp [hyM]) (fun h => hdj hyM (h ▸ hfR))
        (ne_head_of_mem_tail hMnd hq hy)
    · intro x hx
      have hxR := List.mem_of_mem_dropLast hx
      exact hn x (by simp [hxR]) (fun h => hdj (h ▸ hpM) hxR)
        (ne_last_of_mem_dropLast hRnd hl hx)
    · intro y hy
      have hyR := List.mem_of_mem_tail hy
      exact hpv y (by simp [hyR]) (ne_head_of_mem_tail hRnd hf hy)
        (fun h => hdj (h ▸ hqM) hyR)
    · intro x hx y hy
      rw [hp] at hx; rw [hf] at hy
      simp at hx hy
      subst hx hy
      exact ⟨h1, h2⟩
  · intro x hx y hy
    rw [List.getLast?_append, hl] at hx
    rw [List.head?_append, hq] at hy
    simp at hx hy
    subst hx hy
    exact ⟨h3, h4⟩

/-- Frame rule for a ring: updates outside the ring do not affect it. -/
theorem cyc_frame {m m' : Mem} {c : List Nat} (h : Cyc m c)
    (hm : ∀ x ∈ c, m' x = m x) : Cyc m' c := by
  refine ⟨h.1, chain'_frame h.2.1 ?_ ?_, ?_⟩
  · intro x hx; rw [hm x (List.mem_of_mem_dropLast hx)]
  · intro y hy; rw [hm y (List.mem_of_mem_tail hy)]
  · intro p hp q hq
    have := h.2.2 p hp q hq
    rw [Link, hm p (List.mem_of_mem_getLast? hp), hm q (List.mem_of_mem_head? hq)]
    exact this

/-- The predecessor of the first node of a run `R` is the last node of the
rest `M` of the ring. -/
theorem cyc_prev_of_head {m : Mem} {R M : List Nat} {f : Nat} (h : Cyc m (R ++ M))
    (hM : M ≠ []) (hf : R.head? = some f) : M.getLast? = some (m f).prev := by
  rcases R with _ | ⟨f', R⟩
  · simp at hf
  simp at hf; subst hf
  have := cyc_prev_head (l := R ++ M) h
  rw [← this, ← List.cons_append, List.getLast?_append_of_ne_nil _ hM]

/-- The successor of the last node of a run `R` is the first node of the rest
`M` of the ring. -/
theorem cyc_next_of_last {m : Mem} {R M : List Nat} {l : Nat} (h : Cyc m (R ++ M))
    (hM : M ≠ []) (hl : R.getLast? = some l) : M.head? = some (m l).next := by
  obtain ⟨R', rfl⟩ := List.getLast?_eq_some_iff.mp hl
  rw [List.append_assoc] at h
  have h' := cyc_rotate h
  rw [List.append_assoc, List.singleton_append] at h'
  have := cyc_next_head h'
  rw [← this]
  rcases M with _ | ⟨b, M⟩
  · exact absurd rfl hM
  · simp

/-- Unlinking a run `R` from a ring leaves the rest `M` a ring. -/
theorem cyc_unlink {m : Mem} {R M : List Nat} {a b : Nat} (h : Cyc m (R ++ M))
    (ha : M.getLast? = some a) (hb : M.head? = some b) : Cyc (__list_del m a b) M := by
  have hnd := (List.nodup_append.mp h.1).2.1
  have hch := (List.chain'_append.mp h.2.1).2.1
  refine cyc_close hch hnd hb ha ?_ ?_ ?_ ?_
  · simp [__list_del]
  · simp [__list_del]
  · intro x _ h1; simp [__list_del, h1]
  · intro x _ h1; simp [__list_del, h1]

/-- Linking a node `n` from outside between the last node `p` and the first
node `q` of a ring. -/
theorem cyc_add {m : Mem} {M : List Nat} {n p q : Nat} (h : Cyc m M) (hn : n ∉ M)
    (hp : M.getLast? = some p) (hq : M.head? = some q) :
    Cyc (__list_add m n p q) (M ++ [n]) := by
  have hpM : p ∈ M := List.mem_of_mem_getLast? hp
  have hqM : q ∈ M := List.mem_of_mem_head? hq
  have hnp : n ≠ p := fun e => hn (e ▸ hpM)
  have hnq : n ≠ q := fun e => hn (e ▸ hqM)
  have hnd : (M ++ [n]).Nodup := by
    rw [List.nodup_append]; simpa using ⟨h.1, hn⟩
  refine cyc_join h.2.1 (List.chain'_singleton n) hnd hp hq
    (show [n].head? = some n from rfl) (show [n].getLast? = some n from rfl) ?_ ?_ ?_ ?_ ?_ ?_
  · simp [__list_add]
  · simp [__list_add]
  · simp [__list_add, hnp]
  · simp [__list_add, hnq.symm]
  · intro x _ h1 h2; simp [__list_add, h1, h2]
  · intro x _ h1 h2; simp [__list_add, h1, h2]

theorem cyc_next_mem {m : Mem} {c : List Nat} (h : Cyc m c) {N : Nat} (hN : N ∈ c) :
    (m N).next ∈ c := by
  obtain ⟨X, Y, rfl⟩ := List.append_of_mem hN
  have h1 := cyc_next_head (l := Y ++ X) (cyc_rotate h)
  have := List.mem_of_mem_head? h1
  simp at this ⊢
  tauto

theorem cyc_prev_mem {m : Mem} {c : List Nat} (h : Cyc m c) {N : Nat} (hN : N ∈ c) :
    (m N).prev ∈ c := by
  obtain ⟨X, Y, rfl⟩ := List.append_of_mem hN
  have h1 := cyc_prev_head (l := Y ++ X) (cyc_rotate h)
  have := List.mem_of_mem_getLast? h1
  simp at this ⊢
  tauto

/-- Every node reachable from a member of a ring is a member of the ring. -/
theorem cyc_reachable {m : Mem} {H : Nat} {L : List Nat} (h : Cyc m (H :: L)) {N : Nat}
    (hN : Reachable m H N) : N ∈ H :: L := by
  induction hN with
  | base => simp
  | next _ ih => exact cyc_next_mem h ih
  | prev _ ih => exact cyc_prev_mem h ih

theorem reachable_of_chain {m : Mem} {H : Nat} : ∀ {l : List Nat} {a : Nat},
    List.Chain (NextLink m) a l → Reachable m H a → ∀ x ∈ l, Reachable m H x
  | [], _, _, _, x, hx => by simp at hx
  | y :: l, a, h, ha, x, hx => by
    simp only [List.chain_cons, NextLink] at h
    have hy : Reachable m H y := h.1 ▸ Reachable.next ha
    rcases List.mem_cons.mp hx with rfl | hx
    · exact hy
    · exact reachable_of_chain h.2 hy x hx

/-- Every node of the traversal is reachable from the head. -/
theorem traversal_reachable {m : Mem} {H : Nat} {L : List Nat} (h : Traversal m H L)
    {N : Nat} (hN : N ∈ H :: L) : Reachable m H N := by
  rcases List.mem_cons.mp hN with hN | hN
  · exact hN ▸ Reachable.base
  · exact reachable_of_chain ((traversal_iff m H L).mp h).2 Reachable.base N (by simp [hN])

theorem wellFormed_reachable_linked {m : Mem} {H : Nat} {L : List Nat}
    (h : WellFormed m H L) {N : Nat} (hN : Reachable m H N) : Linked m N :=
  h.2 N (cyc_reachable ((wellFormed_iff_cyc m H L).mp h) hN)

/-- A list is well-formed with traversal `L` exactly when its traversal is `L`
and every node reachable from the head satisfies the doubly linked invariant. -/
theorem wellFormed_iff_invariant (m : Mem) (H : Nat) (L : List Nat) :
    WellFormed m H L ↔ Traversal m H L ∧ Invariant m H :=
  ⟨fun h => ⟨h.1, fun _ hN => wellFormed_reachable_linked h hN⟩,
    fun h => ⟨h.1, fun _ hN => h.2 _ (traversal_reachable h.1 hN)⟩⟩

/-! ## The operations on rings -/

theorem setNext_of_ne {m : Mem} {p v x : Nat} (h : x ≠ p) : m.setNext p v x = m x := by
  simp [Mem.setNext, h]

theorem setPrev_of_ne {m : Mem} {p v x : Nat} (h : x ≠ p) : m.setPrev p v x = m x := by
  simp [Mem.setPrev, h]

theorem cyc_list_add_tail {m : Mem} {H n : Nat} {L : List Nat} (h : Cyc m (H :: L))
    (hn : n ∉ H :: L) : Cyc (list_add_tail m n H) (H :: (L ++ [n])) :=
  cyc_add h hn (cyc_prev_head h) rfl

theorem cyc_list_add {m : Mem} {H n : Nat} {L : List Nat} (h : Cyc m (H :: L))
    (hn : n ∉ H :: L) : Cyc (list_add m n H) (H :: n :: L) := by
  have h1 : Cyc m (L ++ [H]) := cyc_rotate (X := [H]) h
  have h2 := cyc_add h1 (by simpa [or_comm] using hn) (List.getLast?_concat L)
    (cyc_next_head h)
  rw [List.append_assoc] at h2
  exact cyc_rotate h2

theorem cyc_del_entry {m : Mem} {n : Nat} {M : List Nat} (h : Cyc m (n :: M)) (hM : M ≠ []) :
    Cyc (__list_del_entry m n) M :=
  cyc_unlink (R := [n]) h
    (cyc_prev_of_head (R := [n]) h hM (show [n].head? = some n from rfl))
    (cyc_next_of_last (R := [n]) h hM (show [n].getLast? = some n from rfl))

/-- Unlinking a member `n` of a ring. -/
theorem cyc_del_entry_mid {m : Mem} {n : Nat} {X Y : List Nat} (h : Cyc m (X ++ n :: Y))
    (hX : X ≠ []) : Cyc (__list_del_entry m n) (X ++ Y) := by
  have h1 : Cyc m (n :: (Y ++ X)) := cyc_rotate h
  exact cyc_rotate (cyc_del_entry h1 (by simp [hX]))

theorem not_mem_of_nodup_mid {n : Nat} {X Y : List Nat} (h : (X ++ n :: Y).Nodup) :
    n ∉ X ++ Y := by
  rw [List.nodup_append] at h
  simp at h ⊢
  exact ⟨h.2.2.1, h.2.1.1⟩

theorem cyc_list_del {m : Mem} {n : Nat} {X Y : List Nat} (h : Cyc m (X ++ n :: Y))
    (hX : X ≠ []) : Cyc (list_del m n) (X ++ Y) := by
  refine cyc_frame (cyc_del_entry_mid h hX) ?_
  intro x hx
  have hxn : x ≠ n := fun e => not_mem_of_nodup_mid h.1 (e ▸ hx)
  simp [list_del, setNext_of_ne hxn, setPrev_of_ne hxn]

theorem cyc_list_del_init {m : Mem} {n : Nat} {X Y : List Nat} (h : Cyc m (X ++ n :: Y))
    (hX : X ≠ []) : Cyc (list_del_init m n) (X ++ Y) := by
  refine cyc_frame (cyc_del_entry_mid h hX) ?_
  intro x hx
  have hxn : x ≠ n := fun e => not_mem_of_nodup_mid h.1 (e ▸ hx)
  simp [list_del_init, INIT_LIST_HEAD, setNext_of_ne hxn, setPrev_of_ne hxn]

theorem cyc_list_move {m : Mem} {H n : Nat} {A B : List Nat} (h : Cyc m (H :: (A ++ n :: B))) :
    Cyc (list_move m n H) (H :: n :: (A ++ B)) := by
  have h1 : Cyc (__list_del_entry m n) (H :: (A ++ B)) :=
    cyc_del_entry_mid (X := H :: A) h (by simp)
  exact cyc_list_add h1 (not_mem_of_nodup_mid (X := H :: A) h.1)

theorem cyc_list_move_tail {m : Mem} {H n : Nat} {A B : List Nat}
    (h : Cyc m (H :: (A ++ n :: B))) :
    Cyc (list_move_tail m n H) (H :: (A ++ B ++ [n])) := by
  have h1 : Cyc (__list_del_entry m n) (H :: (A ++ B)) :=
    cyc_del_entry_mid (X := H :: A) h (by simp)
  exact cyc_list_add_tail h1 (not_mem_of_nodup_mid (X := H :: A) h.1)

theorem cyc_list_empty {m : Mem} {H : Nat} {L : List Nat} (h : Cyc m (H :: L)) :
    list_empty m H = true ↔ L = [] := by
  have h1 := cyc_next_head h
  have hnd := h.1
  rcases L with _ | ⟨x, L⟩
  · simp at h1; simp [list_empty, ← h1]
  · simp at h1 hnd
    simp [list_empty, ← h1]
    exact fun e => hnd.1.1 e.symm

theorem cyc_list_rotate_left {m : Mem} {H x : Nat} {L : List Nat} (h : Cyc m (H :: x :: L)) :
    Cyc (list_rotate_left m H) (H :: (L ++ [x])) := by
  have h1 : list_empty m H = false := by
    rw [← Bool.not_eq_true, cyc_list_empty h]; simp
  have h2 : (m H).next = x := by simpa using (cyc_next_head h).symm
  simp only [list_rotate_left, h1, h2]
  exact cyc_list_move_tail (A := []) h

/-- Linking a node `n` from outside right after a member `pos` of a ring. -/
theorem cyc_list_add_mid {m : Mem} {pos n : Nat} {X Y : List Nat}
    (h : Cyc m (X ++ pos :: Y)) (hn : n ∉ X ++ pos :: Y) :
    Cyc (list_add m n pos) (X ++ pos :: n :: Y) := by
  have h1 : Cyc m (pos :: (Y ++ X)) := cyc_rotate h
  have h2 := cyc_list_add h1 (by simp at hn ⊢; tauto)
  exact cyc_rotate (X := pos :: n :: Y) h2

theorem cyc_list_replace {m : Mem} {old new_node : Nat} {M : List Nat}
    (h : Cyc m (old :: M)) (hM : M ≠ []) (hn : new_node ∉ old :: M) :
    Cyc (list_replace m old new_node) (new_node :: M) := by
  have hp := cyc_prev_of_head (R := [old]) h hM (show [old].head? = some old from rfl)
  have hq := cyc_next_of_last (R := [old]) h hM (show [old].getLast? = some old from rfl)
  have hpM := List.mem_of_mem_getLast? hp
  have hqM := List.mem_of_mem_head? hq
  simp only [List.mem_cons, not_or] at hn
  have hnp : (m old).prev ≠ new_node := fun e => hn.2 (e ▸ hpM)
  have hnq : (m old).next ≠ new_node := fun e => hn.2 (e ▸ hqM)
  have hoq : old ≠ (m old).next := fun e => (List.nodup_cons.mp h.1).1 (e ▸ hqM)
  have hnd : (M ++ [new_node]).Nodup := by
    rw [List.nodup_append]; simpa using ⟨(List.nodup_cons.mp h.1).2, hn.2⟩
  have hch : List.Chain' (Link m) M := List.Chain'.tail h.2.1
  refine cyc_rotate (Y := [new_node]) (cyc_join hch (List.chain'_singleton new_node) hnd hp hq
    (show [new_node].head? = some new_node from rfl)
    (show [new_node].getLast? = some new_node from rfl) ?_ ?_ ?_ ?_ ?_ ?_)
  · simp [list_replace, hoq]
  · simp [list_replace, hoq, hnp]
  · simp [list_replace, hoq, hnp.symm]
  · simp [list_replace, hoq, hnq]
  · intro x _ h1 h2; simp [list_replace, hoq, h1, h2]
  · intro x _ h1 h2; simp [list_replace, hoq, h1, h2]

/-- Substituting a node from outside for a member `old` of a ring. -/
theorem cyc_list_replace_mid {m : Mem} {old new_node : Nat} {X Y : List Nat}
    (h : Cyc m (X ++ old :: Y)) (hX : X ≠ []) (hn : new_node ∉ X ++ old :: Y) :
    Cyc (list_replace m old new_node) (X ++ new_node :: Y) := by
  have h1 : Cyc m (old :: (Y ++ X)) := cyc_rotate h
  have h2 := cyc_list_replace h1 (by simp [hX]) (by simp at hn ⊢; tauto)
  exact cyc_rotate (X := new_node :: Y) h2

theorem eq_nil_or_snoc (l : List Nat) : l = [] ∨ ∃ l' p, l = l' ++ [p] := by
  rcases List.eq_nil_or_concat l with h | ⟨l', p, h⟩
  · exact Or.inl h
  · exact Or.inr ⟨l', p, by rw [h, List.concat_eq_append]⟩

/-- The call `list_swap(a, b)` when `a` comes before `b` in the ring. -/
theorem cyc_list_swap_fwd {m : Mem} {H a b : Nat} {A B C : List Nat}
    (h : Cyc m (H :: (A ++ a :: (B ++ b :: C)))) :
    Cyc (list_swap m a b) (H :: (A ++ b :: (B ++ a :: C))) := by
  have e0 : H :: (A ++ a :: (B ++ b :: C)) = (H :: (A ++ a :: B)) ++ b :: C := by simp
  rw [e0] at h
  have hpos : (H :: (A ++ a :: B)).getLast? = some (m b).prev :=
    cyc_prev_of_head (R := b :: C) (cyc_rotate h) (by simp) rfl
  have h1 := cyc_list_del h (by simp)
  have e1 : (H :: (A ++ a :: B)) ++ C = (H :: A) ++ a :: (B ++ C) := by simp
  have hb : b ∉ (H :: A) ++ a :: (B ++ C) := by
    rw [← e1]; exact not_mem_of_nodup_mid h.1
  rw [e1] at h1
  have h2 := cyc_list_replace_mid h1 (by simp) hb
  have ha : a ∉ (H :: A) ++ b :: (B ++ C) := by
    have := not_mem_of_nodup_mid h1.1
    simp at this hb ⊢
    tauto
  unfold list_swap
  rcases eq_nil_or_snoc B with hB | ⟨B', p, hB⟩
  · subst hB
    have hp : (m b).prev = a := by
      rw [← List.cons_append, List.getLast?_concat] at hpos
      exact (Option.some.inj hpos).symm
    simp only [hp, if_true]
    exact cyc_list_add_mid (X := H :: A) h2 ha
  · subst hB
    have hp : (m b).prev = p := by
      have e : H :: (A ++ a :: (B' ++ [p])) = (H :: (A ++ a :: B')) ++ [p] := by simp
      rw [e, List.getLast?_concat] at hpos
      exact (Option.some.inj hpos).symm
    have hpa : p ≠ a := by
      rintro rfl
      simp at ha
    simp only [hp, hpa, if_false]
    have e2 : (H :: A) ++ b :: (B' ++ [p] ++ C) = (H :: (A ++ b :: B')) ++ p :: C := by simp
    rw [e2] at h2 ha
    have := cyc_list_add_mid h2 ha
    simpa using this

/-- The call `list_swap(a, b)` when `b` comes before `a` in the ring. -/
theorem cyc_list_swap_bwd {m : Mem} {H a b : Nat} {A B C : List Nat}
    (h : Cyc m (H :: (A ++ b :: (B ++ a :: C)))) :
    Cyc (list_swap m a b) (H :: (A ++ a :: (B ++ b :: C))) := by
  obtain ⟨A', p, hA⟩ : ∃ A' p, H :: A = A' ++ [p] := by
    rcases eq_nil_or_snoc (H :: A) with h0 | h0
    · simp at h0
    · exact h0
  have e0 : H :: (A ++ b :: (B ++ a :: C)) = (H :: A) ++ b :: (B ++ a :: C) := by simp
  rw [e0] at h
  have hpos : (H :: A).getLast? = some (m b).prev :=
    cyc_prev_of_head (R := b :: (B ++ a :: C)) (M := H :: A) (f := b)
      (cyc_rotate h) (by simp) rfl
  have hp : (m b).prev = p := by
    rw [hA, List.getLast?_concat] at hpos
    exact (Option.some.inj hpos).symm
  have hb : b ∉ (H :: A) ++ (B ++ a :: C) := not_mem_of_nodup_mid h.1
  have h1 := cyc_list_del h (by simp)
  have e1 : (H :: A) ++ (B ++ a :: C) = (H :: (A ++ B)) ++ a :: C := by simp
  rw [e1] at h1 hb
  have h2 := cyc_list_replace_mid h1 (by simp) hb
  have ha : a ∉ (H :: (A ++ B)) ++ b :: C := by
    have := not_mem_of_nodup_mid h1.1
    simp at this hb ⊢
    tauto
  have hpa : p ≠ a := by
    rintro rfl
    have : p ∈ H :: A := by rw [hA]; simp
    simp at ha this
    tauto
  unfold list_swap
  simp only [hp, hpa, if_false]
  have e2 : (H :: (A ++ B)) ++ b :: C = A' ++ p :: (B ++ b :: C) := by
    rw [← List.cons_append, ← List.cons_append, hA]; simp
  rw [e2] at h2 ha
  have := cyc_list_add_mid h2 ha
  have e3 : A' ++ p :: a :: (B ++ b :: C) = H :: (A ++ a :: (B ++ b :: C)) := by
    have : A' ++ p :: a :: (B ++ b :: C) = (A' ++ [p]) ++ a :: (B ++ b :: C) := by simp
    rw [this, ← hA]; simp
  rw [e3] at this
  exact this

/-- The call `list_bulk_move_tail(H, first, last)` on the run `R` from `first` to `last`. -/
theorem cyc_list_bulk_move_tail {m : Mem} {H first last : Nat} {A R B : List Nat}
    (h : Cyc m (H :: (A ++ R ++ B))) (hf : R.head? = some first)
    (hl : R.getLast? = some last) :
    Cyc (list_bulk_move_tail m H first last) (H :: (A ++ B ++ R)) := by
  have e0 : H :: (A ++ R ++ B) = (H :: A) ++ (R ++ B) := by simp
  rw [e0] at h
  have h0 : Cyc m (R ++ (B ++ H :: A)) := by
    have := cyc_rotate h
    rwa [List.append_assoc] at this
  have hM0 : B ++ H :: A ≠ [] := by simp
  have ha := cyc_prev_of_head h0 hM0 hf
  have hb := cyc_next_of_last h0 hM0 hl
  have hfR : first ∈ R := List.mem_of_mem_head? hf
  have hlR : last ∈ R := List.mem_of_mem_getLast? hl
  have haM : (m first).prev ∈ B ++ H :: A := List.mem_of_mem_getLast? ha
  have hbM : (m last).next ∈ B ++ H :: A := List.mem_of_mem_head? hb
  have hdj := List.disjoint_of_nodup_append h0.1
  have hRM : ∀ x ∈ R, ∀ y ∈ B ++ H :: A, x ≠ y := fun x hx y hy e => hdj hx (e ▸ hy)
  have hla : last ≠ (m first).prev := hRM _ hlR _ haM
  -- the memory after the first two assignments
  have h2 : Cyc ((m.setNext (m first).prev (m last).next).setPrev (m last).next (m first).prev)
      (B ++ H :: A) := by
    refine cyc_close (List.chain'_append.mp h0.2.1).2.1 (List.nodup_append.mp h0.1).2.1
      hb ha ?_ ?_ ?_ ?_
    · simp
    · simp
    · intro x _ h1; simp [h1]
    · intro x _ h1; simp [h1]
  have hR2 : List.Chain' (Link ((m.setNext (m first).prev (m last).next).setPrev
      (m last).next (m first).prev)) R := by
    refine chain'_frame (List.chain'_append.mp h0.2.1).1 ?_ ?_
    · intro x hx
      simp [hRM x (List.mem_of_mem_dropLast hx) _ haM]
    · intro y hy
      simp [hRM y (List.mem_of_mem_tail hy) _ hbM]
  have h2' : Cyc ((m.setNext (m first).prev (m last).next).setPrev (m last).next (m first).prev)
      (H :: (A ++ B)) := by
    have := cyc_rotate h2
    simpa using this
  have ht := cyc_prev_head h2'
  have htM := List.mem_of_mem_getLast? ht
  simp only [setPrev_prev, setNext_prev] at ht htM
  have hnd : ((H :: (A ++ B)) ++ R).Nodup := by
    refine List.nodup_append.mpr ⟨h2'.1, (List.nodup_append.mp h0.1).1, ?_⟩
    intro x hx hxR
    exact hRM x hxR x (by simp at hx ⊢; tauto) rfl
  have hdj2 := List.disjoint_of_nodup_append hnd
  have hHR : H ∉ R := fun e => hdj2 (by simp) e
  have htl : (if H = (m last).next then (m first).prev else (m H).prev) ≠ last :=
    fun e => hdj2 htM (by rw [e]; exact hlR)
  have htf : (if H = (m last).next then (m first).prev else (m H).prev) ≠ first :=
    fun e => hdj2 htM (by rw [e]; exact hfR)
  have hHf : H ≠ first := fun e => hHR (e ▸ hfR)
  have hHl : H ≠ last := fun e => hHR (e ▸ hlR)
  refine cyc_join h2'.2.1 hR2 hnd ht rfl hf hl ?_ ?_ ?_ ?_ ?_ ?_
  · simp [list_bulk_move_tail, hla, htl]
  · simp [list_bulk_move_tail, hla, hHf.symm]
  · simp [list_bulk_move_tail, hla]
  · simp [list_bulk_move_tail, hla]
  · intro x _ h1 h2; simp [list_bulk_move_tail, hla, h1, h2]
  · intro x _ h1 h2; simp [list_bulk_move_tail, hla, h1, h2]

theorem cyc_init (m : Mem) (x : Nat) : Cyc (INIT_LIST_HEAD m x) [x] := by
  refine ⟨List.nodup_singleton x, List.chain'_singleton x, ?_⟩
  intro p hp q hq
  simp at hp hq
  subst hp hq
  simp [Link, INIT_LIST_HEAD]

theorem init_of_ne {m : Mem} {p x : Nat} (h : x ≠ p) : INIT_LIST_HEAD m p x = m x := by
  simp [INIT_LIST_HEAD, setNext_of_ne h, setPrev_of_ne h]

/-- Splicing the members `S` of the ring of `src` between the last node `p`
and the first node `q` of a disjoint ring `M`. -/
theorem cyc_splice {m : Mem} {src p q : Nat} {S M : List Nat} (hs : Cyc m (src :: S))
    (hS : S ≠ []) (hd : Cyc m M) (hdj : ∀ x ∈ M, x ∉ src :: S)
    (hp : M.getLast? = some p) (hq : M.head? = some q) :
    Cyc (__list_splice m src p q) (M ++ S) := by
  have hf := cyc_next_of_last (R := [src]) hs hS (show [src].getLast? = some src from rfl)
  have hl := cyc_prev_of_head (R := [src]) hs hS (show [src].head? = some src from rfl)
  have hfS := List.mem_of_mem_head? hf
  have hlS := List.mem_of_mem_getLast? hl
  have hpM := List.mem_of_mem_getLast? hp
  have hqM := List.mem_of_mem_head? hq
  have hpl : p ≠ (m src).prev := fun e => hdj p hpM (by rw [e]; simp [hlS])
  have hqf : q ≠ (m src).next := fun e => hdj q hqM (by rw [e]; simp [hfS])
  have hnd : (M ++ S).Nodup := by
    refine List.nodup_append.mpr ⟨hd.1, (List.nodup_cons.mp hs.1).2, ?_⟩
    intro x hx hxS
    exact hdj x hx (by simp [hxS])
  refine cyc_join hd.2.1 (List.Chain'.tail hs.2.1) hnd hp hq hf hl ?_ ?_ ?_ ?_ ?_ ?_
  · simp [__list_splice, hpl]
  · simp [__list_splice, hqf.symm]
  · simp [__list_splice]
  · simp [__list_splice]
  · intro x _ h1 h2; simp [__list_splice, h1, h2]
  · intro x _ h1 h2; simp [__list_splice, h1, h2]

theorem cyc_splice_head {m : Mem} {src H : Nat} {S D : List Nat} (hs : Cyc m (src :: S))
    (hS : S ≠ []) (hd : Cyc m (H :: D)) (hdj : ∀ x ∈ H :: D, x ∉ src :: S) :
    Cyc (__list_splice m src H (m H).next) (H :: (S ++ D)) := by
  have h1 : Cyc m (D ++ [H]) := cyc_rotate (X := [H]) hd
  have h2 := cyc_splice hs hS h1 (by intro x hx; exact hdj x (by simp at hx ⊢; tauto))
    (List.getLast?_concat D) (cyc_next_head hd)
  rw [List.append_assoc] at h2
  have := cyc_rotate h2
  simpa using this

theorem cyc_splice_tail {m : Mem} {src H : Nat} {S D : List Nat} (hs : Cyc m (src :: S))
    (hS : S ≠ []) (hd : Cyc m (H :: D)) (hdj : ∀ x ∈ H :: D, x ∉ src :: S) :
    Cyc (__list_splice m src (m H).prev H) (H :: (D ++ S)) :=
  cyc_splice hs hS hd hdj (cyc_prev_head hd) rfl

theorem head?_append_cons_eq (A : List Nat) (e : Nat) (B C : List Nat) :
    (A ++ e :: B).head? = (A ++ e :: C).head? := by
  cases A <;> simp

/-- The relinking done by `__list_cut_position(out, H, entry)`. -/
theorem cyc_cut_position_aux {m : Mem} {H out entry : Nat} {A B : List Nat}
    (h : Cyc m (H :: (A ++ entry :: B))) (ho : out ∉ H :: (A ++ entry :: B)) :
    Cyc (__list_cut_position m out H entry) (out :: (A ++ [entry])) ∧
      Cyc (__list_cut_position m out H entry) (H :: B) := by
  have hf : (A ++ [entry]).head? = some (m H).next := by
    rw [head?_append_cons_eq A entry [] (B ++ [H])]
    have := cyc_next_head h
    rwa [List.append_assoc, List.cons_append] at this
  have hr : Cyc m (entry :: (B ++ H :: A)) := by
    have e0 : H :: (A ++ entry :: B) = (H :: A) ++ entry :: B := by simp
    rw [e0] at h
    have := cyc_rotate h
    simpa using this
  have hnf : (B ++ [H]).head? = some (m entry).next := by
    rw [head?_append_cons_eq B H [] (A ++ [entry])]
    have := cyc_next_head hr
    rwa [List.append_assoc, List.cons_append] at this
  have hA : List.Chain' (Link m) (A ++ [entry]) := by
    have := List.Chain'.tail h.2.1
    have e1 : (H :: (A ++ entry :: B)).tail = (A ++ [entry]) ++ B := by simp
    rw [e1] at this
    exact (List.chain'_append.mp this).1
  have hB : List.Chain' (Link m) (B ++ [H]) := by
    have := List.Chain'.tail hr.2.1
    have e1 : (entry :: (B ++ H :: A)).tail = (B ++ [H]) ++ A := by simp
    rw [e1] at this
    exact (List.chain'_append.mp this).1
  have hndr : ((B ++ [H]) ++ (A ++ [entry])).Nodup := by
    refine hr.1.perm ?_
    have : entry :: (B ++ H :: A) = [entry] ++ ((B ++ [H]) ++ A) := by simp
    rw [this]
    exact List.perm_append_comm.trans (by rw [List.append_assoc])
  have hdj := List.disjoint_of_nodup_append hndr
  have hBA : ∀ x ∈ B ++ [H], ∀ y ∈ A ++ [entry], x ≠ y := fun x hx y hy e => hdj hx (e ▸ hy)
  have hfA := List.mem_of_mem_head? hf
  have hnfB := List.mem_of_mem_head? hnf
  have hoA : ∀ y ∈ A ++ [entry], out ≠ y := by
    intro y hy e; subst e; apply ho; simp at hy ⊢; tauto
  have hoB : ∀ y ∈ B ++ [H], out ≠ y := by
    intro y hy e; subst e; apply ho; simp at hy ⊢; tauto
  have hoH : out ≠ H := hoB H (by simp)
  have hoe : out ≠ entry := hoA entry (by simp)
  have heH : entry ≠ H := (hBA H (by simp) entry (by simp)).symm
  have hfnf : (m H).next ≠ (m entry).next := (hBA _ hnfB _ hfA).symm
  have hof : out ≠ (m H).next := hoA _ hfA
  have honf : out ≠ (m entry).next := hoB _ hnfB
  constructor
  · have hnd : ([out] ++ (A ++ [entry])).Nodup := by
      refine List.nodup_append.mpr ⟨List.nodup_singleton out, (List.nodup_append.mp hndr).2.1, ?_⟩
      intro x hx hxA
      simp at hx; subst hx
      exact hoA x hxA rfl
    refine cyc_join (List.chain'_singleton out) hA hnd
      (show [out].getLast? = some out from rfl) (show [out].head? = some out from rfl)
      hf (List.getLast?_concat A) ?_ ?_ ?_ ?_ ?_ ?_
    · simp [__list_cut_position, hoH, hoe]
    · simp [__list_cut_position, hfnf, hof.symm]
    · simp [__list_cut_position, heH]
    · simp [__list_cut_position, honf]
    · intro x hx h1 h2
      have hxA : x ∈ A ++ [entry] := by simp at hx ⊢; tauto
      have hxH : x ≠ H := (hBA H (by simp) x hxA).symm
      simp [__list_cut_position, h1, h2, hxH]
    · intro x hx h1 h2
      have hxA : x ∈ A ++ [entry] := by simp at hx ⊢; tauto
      have hxnf : x ≠ (m entry).next := (hBA _ hnfB x hxA).symm
      simp [__list_cut_position, h1, h2, hxnf]
  · have hc : Cyc (__list_cut_position m out H entry) (B ++ [H]) := by
      refine cyc_close hB (List.nodup_append.mp hndr).1 hnf (List.getLast?_concat B) ?_ ?_ ?_ ?_
      · simp [__list_cut_position]
      · simp [__list_cut_position]
      · intro x hx h1
        have hxe : x ≠ entry := hBA x hx entry (by simp)
        have hxo : x ≠ out := (hoB x hx).symm
        simp [__list_cut_position, h1, hxe, hxo]
      · intro x hx h1
        have hxf : x ≠ (m H).next := hBA x hx _ hfA
        have hxo : x ≠ out := (hoB x hx).symm
        simp [__list_cut_position, h1, hxf, hxo]
    exact cyc_rotate hc

/-- The guards of `list_cut_position` let a member `entry` through. -/
theorem list_cut_position_member {m : Mem} {H entry : Nat} {A B : List Nat} (out : Nat)
    (h : Cyc m (H :: (A ++ entry :: B))) :
    list_cut_position m out H entry = __list_cut_position m out H entry := by
  have hne : list_empty m H = false := by
    rw [← Bool.not_eq_true, cyc_list_empty h]; simp
  have hnd := h.1
  have heH : entry ≠ H := by
    rintro rfl
    simp at hnd
  have hsing : (list_is_singular m H && ((m H).next != entry && H != entry)) = false := by
    rcases A with _ | ⟨a, A⟩
    · have := cyc_next_head h
      simp at this
      simp [← this]
    · have h1 := cyc_next_head h
      have h2 := cyc_prev_head h
      rw [← List.cons_append, List.getLast?_append_cons] at h2
      have h3 := List.mem_of_mem_getLast? h2
      simp at h1
      have : (m H).next ≠ (m H).prev := by
        rw [← h1]
        rintro e
        rw [← e] at h3
        simp at hnd h3
        tauto
      simp [list_is_singular, this]
  simp only [list_cut_position, hne, hsing, heH]
  simp

/-- The relinking done by `list_cut_before(out, H, entry)` when `entry` is not
the first node: `Q` is the part of the ring from `entry` round to `H`, and `A`
the non-empty part after `H` and before `entry`. -/
theorem cyc_cut_before_aux {m : Mem} {H out entry : Nat} {Q A : List Nat}
    (h : Cyc m (Q ++ A)) (hA : A ≠ []) (he : Q.head? = some entry)
    (hH : Q.getLast? = some H) (ho : out ∉ Q ++ A) :
    Cyc (list_cut_before m out H entry) (out :: A) ∧
      Cyc (list_cut_before m out H entry) Q := by
  have hf := cyc_next_of_last h hA hH
  have hl := cyc_prev_of_head h hA he
  have hfA := List.mem_of_mem_head? hf
  have hlA := List.mem_of_mem_getLast? hl
  have heQ := List.mem_of_mem_head? he
  have hHQ := List.mem_of_mem_getLast? hH
  have hdj := List.disjoint_of_nodup_append h.1
  have hQA : ∀ x ∈ Q, ∀ y ∈ A, x ≠ y := fun x hx y hy e => hdj hx (e ▸ hy)
  have hoQ : ∀ y ∈ Q, out ≠ y := by
    intro y hy e; subst e; apply ho; simp [hy]
  have hoA : ∀ y ∈ A, out ≠ y := by
    intro y hy e; subst e; apply ho; simp [hy]
  have hfe : (m H).next ≠ entry := (hQA _ heQ _ hfA).symm
  have hoH : out ≠ H := hoQ _ hHQ
  have hoe : out ≠ entry := hoQ _ heQ
  have hof : out ≠ (m H).next := hoA _ hfA
  have hol : out ≠ (m entry).prev := hoA _ hlA
  have hlH : (m entry).prev ≠ H := (hQA _ hHQ _ hlA).symm
  have hm : list_cut_before m out H entry =
      (((((m.setNext out (m H).next).setPrev (m H).next out).setPrev out (m entry).prev).setNext
        (m entry).prev out).setNext H entry).setPrev entry H := by
    simp [list_cut_before, hfe, hfe.symm]
  rw [hm]
  constructor
  · have hnd : ([out] ++ A).Nodup := by
      refine List.nodup_append.mpr ⟨List.nodup_singleton out, (List.nodup_append.mp h.1).2.1, ?_⟩
      intro x hx hxA
      simp at hx; subst hx
      exact hoA x hxA rfl
    refine cyc_join (List.chain'_singleton out) (List.chain'_append.mp h.2.1).2.1 hnd
      (show [out].getLast? = some out from rfl) (show [out].head? = some out from rfl)
      hf hl ?_ ?_ ?_ ?_ ?_ ?_
    · simp [hoH, hol]
    · simp [hfe, hof.symm]
    · simp [hlH]
    · simp [hoe]
    · intro x hx h1 h2
      have hxA : x ∈ A := by simp at hx; tauto
      have hxH : x ≠ H := (hQA H hHQ x hxA).symm
      simp [h1, h2, hxH]
    · intro x hx h1 h2
      have hxA : x ∈ A := by simp at hx; tauto
      have hxe : x ≠ entry := (hQA _ heQ x hxA).symm
      simp [h1, h2, hxe]
  · refine cyc_close (List.chain'_append.mp h.2.1).1 (List.nodup_append.mp h.1).1 he hH
      ?_ ?_ ?_ ?_
    · simp
    · simp
    · intro x hx h1
      have hxl : x ≠ (m entry).prev := hQA x hx _ hlA
      have hxo : x ≠ out := (hoQ x hx).symm
      simp [h1, hxl, hxo]
    · intro x hx h1
      have hxf : x ≠ (m H).next := hQA x hx _ hfA
      have hxo : x ≠ out := (hoQ x hx).symm
      simp [h1, hxf, hxo]

/-! ## Well-formed lists -/

theorem WellFormed.cyc {m : Mem} {H : Nat} {L : List Nat} (h : WellFormed m H L) :
    Cyc m (H :: L) := (wellFormed_iff_cyc m H L).mp h

theorem Cyc.wf {m : Mem} {H : Nat} {L : List Nat} (h : Cyc m (H :: L)) :
    WellFormed m H L := (wellFormed_iff_cyc m H L).mpr h

theorem Cyc.preserved {m : Mem} {H : Nat} {L : List Nat} (h : Cyc m (H :: L)) :
    Preserved m H :=
  ⟨⟨L, h.wf⟩, fun _ hN => wellFormed_reachable_linked h.wf hN⟩

theorem two_members_split {a b : Nat} {L : List Nat} (ha : a ∈ L) (hb : b ∈ L)
    (hab : a ≠ b) :
    (∃ A B C, L = A ++ a :: (B ++ b :: C)) ∨ (∃ A B C, L = A ++ b :: (B ++ a :: C)) := by
  obtain ⟨X, Y, rfl⟩ := List.append_of_mem ha
  simp only [List.mem_append, List.mem_cons] at hb
  rcases hb with hb | hb | hb
  · obtain ⟨P, Q, rfl⟩ := List.append_of_mem hb
    exact Or.inr ⟨P, Q, Y, by simp⟩
  · exact absurd hb.symm hab
  · obtain ⟨P, Q, rfl⟩ := List.append_of_mem hb
    exact Or.inl ⟨X, P, Q, rfl⟩

/-- The four splice functions on two disjoint rings. -/
theorem cyc_list_splice_all {m : Mem} {src dst : Nat} {S D : List Nat}
    (hs : Cyc m (src :: S)) (hd : Cyc m (dst :: D)) (hdj : ∀ x ∈ dst :: D, x ∉ src :: S) :
    Cyc (list_splice m src dst) (dst :: (S ++ D)) ∧
    Cyc (list_splice_init m src dst) (dst :: (S ++ D)) ∧
    Cyc (list_splice_tail m src dst) (dst :: (D ++ S)) ∧
    Cyc (list_splice_tail_init m src dst) (dst :: (D ++ S)) ∧
    Cyc (list_splice_init m src dst) [src] ∧
    Cyc (list_splice_tail_init m src dst) [src] := by
  by_cases hS : S = []
  · have he : list_empty m src = true := (cyc_list_empty hs).mpr hS
    subst hS
    simp only [list_splice, list_splice_init, list_splice_tail, list_splice_tail_init, he]
    simpa using ⟨hd, hs⟩
  · have he : list_empty m src = false := by
      rw [← Bool.not_eq_true, cyc_list_empty hs]; exact hS
    have hne : ∀ x ∈ dst :: D, x ≠ src := fun x hx e => hdj x hx (by simp [e])
    have h1 := cyc_splice_head hs hS hd hdj
    have h2 := cyc_splice_tail hs hS hd hdj
    have hne1 : ∀ x ∈ dst :: (S ++ D), x ≠ src := by
      intro x hx e
      subst e
      have := hs.1
      simp at hx this
      rcases hx with hx | hx | hx
      · exact hne dst (by simp) hx.symm
      · exact this.1 hx
      · exact hne x (by simp [hx]) rfl
    have hne2 : ∀ x ∈ dst :: (D ++ S), x ≠ src := by
      intro x hx; exact hne1 x (by simp at hx ⊢; tauto)
    simp only [list_splice, list_splice_init, list_splice_tail, list_splice_tail_init, he]
    refine ⟨h1, cyc_frame h1 (fun x hx => init_of_ne (hne1 x hx)), h2,
      cyc_frame h2 (fun x hx => init_of_ne (hne2 x hx)), cyc_init _ _, cyc_init _ _⟩

theorem cyc_tail_insert_fold {H : Nat} : ∀ (nodes L : List Nat) (m : Mem),
    Cyc m (H :: L) → (H :: (L ++ nodes)).Nodup →
    Cyc (nodes.foldl (fun m n => list_add_tail m n H) m) (H :: (L ++ nodes))
  | [], L, m, h, _ => by simpa using h
  | x :: xs, L, m, h, hnd => by
    have hx : x ∉ H :: L := by
      simp at hnd ⊢
      have := hnd.2
      rw [List.nodup_append] at this
      refine ⟨fun e => hnd.1.2.1 e.symm, fun hxL => ?_⟩
      exact this.2.2 hxL (by simp)
    have h1 := cyc_list_add_tail h hx
    have := cyc_tail_insert_fold xs (L ++ [x]) (list_add_tail m x H) h1 (by simpa using hnd)
    simpa using this

theorem cyc_tail_insert_all (m : Mem) {H : Nat} {nodes : List Nat} (hnd : (H :: nodes).Nodup) :
    Cyc (tail_insert_all m H nodes) (H :: nodes) :=
  cyc_tail_insert_fold nodes [] (INIT_LIST_HEAD m H) (cyc_init m H) hnd

theorem payloads_of_wf {m : Mem} {H : Nat} {L : List Nat} (h : WellFormed m H L)
    (a : Nat → Int) : payloads a m H L.length = some (L.map a) := by
  have : list_for_each m H L.length = some L := h.1
  simp [payloads, this]

theorem exchange_id {a b : Nat} {X : List Nat} (ha : a ∉ X) (hb : b ∉ X) :
    exchange a b X = X := by
  unfold exchange
  conv_rhs => rw [← List.map_id X]
  apply List.map_congr_left
  intro x hx
  have h1 : x ≠ a := fun e => ha (e ▸ hx)
  have h2 : x ≠ b := fun e => hb (e ▸ hx)
  simp [h1, h2]

theorem exchange_append (a b : Nat) (X Y : List Nat) :
    exchange a b (X ++ Y) = exchange a b X ++ exchange a b Y := by
  simp [exchange]

theorem exchange_fwd {a b : Nat} {A B C : List Nat} (h : (A ++ a :: (B ++ b :: C)).Nodup) :
    exchange a b (A ++ a :: (B ++ b :: C)) = A ++ b :: (B ++ a :: C) := by
  have hab : b ≠ a := by
    rintro rfl
    have := not_mem_of_nodup_mid h
    simp at this
  have ha : a ∉ A ++ (B ++ b :: C) := not_mem_of_nodup_mid h
  have hb : b ∉ (A ++ a :: B) ++ C := by
    apply not_mem_of_nodup_mid (n := b)
    simpa using h
  simp only [List.mem_append, List.mem_cons, not_or] at ha hb
  have e1 : A ++ a :: (B ++ b :: C) = A ++ ([a] ++ (B ++ ([b] ++ C))) := by simp
  rw [e1, exchange_append, exchange_append, exchange_append, exchange_append,
    exchange_id ha.1 hb.1.1, exchange_id ha.2.1 hb.1.2.2, exchange_id ha.2.2.2 hb.2]
  simp [exchange, hab]

theorem exchange_bwd {a b : Nat} {A B C : List Nat} (h : (A ++ b :: (B ++ a :: C)).Nodup) :
    exchange a b (A ++ b :: (B ++ a :: C)) = A ++ a :: (B ++ b :: C) := by
  have hab : b ≠ a := by
    rintro rfl
    have := not_mem_of_nodup_mid h
    simp at this
  have hb : b ∉ A ++ (B ++ a :: C) := not_mem_of_nodup_mid h
  have ha : a ∉ (A ++ b :: B) ++ C := by
    apply not_mem_of_nodup_mid (n := a)
    simpa using h
  simp only [List.mem_append, List.mem_cons, not_or] at ha hb
  have e1 : A ++ b :: (B ++ a :: C) = A ++ ([b] ++ (B ++ ([a] ++ C))) := by simp
  rw [e1, exchange_append, exchange_append, exchange_append, exchange_append,
    exchange_id ha.1.1 hb.1, exchange_id ha.1.2.2 hb.2.1, exchange_id ha.2 hb.2.2.2]
  simp [exchange, hab]

theorem cyc_list_swap {m : Mem} {H a b : Nat} {L : List Nat} (h : Cyc m (H :: L))
    (ha : a ∈ L) (hb : b ∈ L) (hab : a ≠ b) :
    Cyc (list_swap m a b) (H :: exchange a b L) := by
  have hnd := (List.nodup_cons.mp h.1).2
  rcases two_members_split ha hb hab with ⟨A, B, C, rfl⟩ | ⟨A, B, C, rfl⟩
  · rw [exchange_fwd hnd]; exact cyc_list_swap_fwd h
  · rw [exchange_bwd hnd]; exact cyc_list_swap_bwd h

/-- The nodes `__list_cut_position` writes: `list`, `head`, `entry`, the old
first node and the old successor of `entry`. -/
theorem cut_position_frame {m : Mem} {out H entry x : Nat} (h1 : x ≠ out) (h2 : x ≠ H)
    (h3 : x ≠ entry) (h4 : x ≠ (m H).next) (h5 : x ≠ (m entry).next) :
    __list_cut_position m out H entry x = m x := by
  simp [__list_cut_position, Mem.setNext, Mem.setPrev, h1, h2, h3, h4, h5]

theorem cyc_list_cut_position {m : Mem} {H out entry : Nat} {A B : List Nat}
    (h : Cyc m (H :: (A ++ entry :: B))) (ho : out ∉ H :: (A ++ entry :: B)) :
    Cyc (list_cut_position m out H entry) (out :: (A ++ [entry])) ∧
      Cyc (list_cut_position m out H entry) (H :: B) := by
  rw [list_cut_position_member out h]
  exact cyc_cut_position_aux h ho

theorem cyc_list_cut_before {m : Mem} {H out entry a : Nat} {A B : List Nat}
    (h : Cyc m (H :: (a :: A ++ entry :: B))) (ho : out ∉ H :: (a :: A ++ entry :: B)) :
    Cyc (list_cut_before m out H entry) (out :: a :: A) ∧
      Cyc (list_cut_before m out H entry) (H :: entry :: B) := by
  have e0 : H :: (a :: A ++ entry :: B) = (H :: a :: A) ++ (entry :: B) := by simp
  have h1 : Cyc m ((entry :: (B ++ [H])) ++ a :: A) := by
    rw [e0] at h
    have := cyc_rotate h
    simpa using this
  have hH : (entry :: (B ++ [H])).getLast? = some H := by
    rw [← List.cons_append, List.getLast?_concat]
  have := cyc_cut_before_aux h1 (List.cons_ne_nil a A) rfl hH
    (by simp at ho ⊢; tauto)
  refine ⟨this.1, ?_⟩
  have h2 := cyc_rotate (X := entry :: B) (Y := [H]) this.2
  simpa using h2

theorem cyc_list_cut_before_first {m : Mem} {H out entry : Nat} {B : List Nat}
    (h : Cyc m (H :: entry :: B)) (ho : out ∉ H :: entry :: B) :
    list_cut_before m out H entry = INIT_LIST_HEAD m out ∧
      Cyc (list_cut_before m out H entry) [out] ∧
      Cyc (list_cut_before m out H entry) (H :: entry :: B) := by
  have hf : (m H).next = entry := by simpa using (cyc_next_head h).symm
  have e : list_cut_before m out H entry = INIT_LIST_HEAD m out := by
    simp [list_cut_before, hf]
  rw [e]
  refine ⟨rfl, cyc_init m out, cyc_frame h ?_⟩
  intro x hx
  exact init_of_ne (fun e => ho (e ▸ hx))

theorem cyc_list_cut_before_head {m : Mem} {H out : Nat} {L : List Nat}
    (h : Cyc m (H :: L)) (ho : out ∉ H :: L) :
    Cyc (list_cut_before m out H H) (out :: L) ∧ Cyc (list_cut_before m out H H) [H] := by
  rcases L with _ | ⟨a, L⟩
  · have hf : (m H).next = H := by simpa using (cyc_next_head h).symm
    have e : list_cut_before m out H H = INIT_LIST_HEAD m out := by
      simp [list_cut_before, hf]
    rw [e]
    refine ⟨cyc_init m out, cyc_frame h ?_⟩
    intro x hx
    exact init_of_ne (fun e => ho (e ▸ hx))
  · exact cyc_cut_before_aux (Q := [H]) h (List.cons_ne_nil a L) rfl rfl ho

/-! ## The claims -/

/-- C1. In a heap where the ring of head `H` is well-formed, each of `list_add`,
`list_add_tail` (new node not in the ring), `list_del`, `list_del_init`,
`list_move`, `list_move_tail` (a member), `list_swap` (two distinct members),
`list_bulk_move_tail` (a run of members), `list_rotate_left`, `list_splice_init`
and `list_splice_tail_init` (a well-formed source ring disjoint from the ring
of `H`) leaves a heap in which the ring of `H` is again well-formed and every
node reachable from `H` satisfies `N.next.prev == N` and `N.prev.next == N`. -/
theorem C1_invariant_preserved (m : Mem) (H : Nat) (L : List Nat) (hwf : WellFormed m H L) :
    (∀ n, n ∉ H :: L → Preserved (list_add m n H) H ∧ Preserved (list_add_tail m n H) H) ∧
    (∀ n ∈ L, Preserved (list_del m n) H ∧ Preserved (list_del_init m n) H ∧
      Preserved (list_move m n H) H ∧ Preserved (list_move_tail m n H) H) ∧
    (∀ a ∈ L, ∀ b ∈ L, a ≠ b → Preserved (list_swap m a b) H) ∧
    (∀ A R B first last, L = A ++ R ++ B → R.head? = some first → R.getLast? = some last →
      Preserved (list_bulk_move_tail m H first last) H) ∧
    Preserved (list_rotate_left m H) H ∧
    (∀ src S, WellFormed m src S → (∀ x ∈ src :: S, x ∉ H :: L) →
      Preserved (list_splice_init m src H) H ∧ Preserved (list_splice_tail_init m src H) H) := by
  have hc := hwf.cyc
  refine ⟨?_, ?_, ?_, ?_, ?_, ?_⟩
  · intro n hn
    exact ⟨(cyc_list_add hc hn).preserved, (cyc_list_add_tail hc hn).preserved⟩
  · intro n hn
    obtain ⟨A, B, rfl⟩ := List.append_of_mem hn
    have hc' : Cyc m ((H :: A) ++ n :: B) := hc
    exact ⟨Cyc.preserved (L := A ++ B) (cyc_list_del hc' (by simp)),
      Cyc.preserved (L := A ++ B) (cyc_list_del_init hc' (by simp)),
      (cyc_list_move hc).preserved, (cyc_list_move_tail hc).preserved⟩
  · intro a ha b hb hab
    rcases two_members_split ha hb hab with ⟨A, B, C, rfl⟩ | ⟨A, B, C, rfl⟩
    · exact (cyc_list_swap_fwd hc).preserved
    · exact (cyc_list_swap_bwd hc).preserved
  · intro A R B first last hL hf hl
    subst hL
    exact (cyc_list_bulk_move_tail hc hf hl).preserved
  · rcases L with _ | ⟨x, L⟩
    · have he : list_empty m H = true := (cyc_list_empty hc).mpr rfl
      simp only [list_rotate_left, he]
      exact hc.preserved
    · exact (cyc_list_rotate_left hc).preserved
  · intro src S hs hdj
    have hdj' : ∀ x ∈ H :: L, x ∉ src :: S := fun x hx hxs => hdj x hxs hx
    have := cyc_list_splice_all hs.cyc hc hdj'
    exact ⟨this.2.1.preserved, this.2.2.2.1.preserved⟩

theorem C1_invariant_preserved_witness :
    WellFormed two_mem 1 [11, 12, 13, 14, 15] ∧ Preserved (list_add two_mem 16 1) 1 ∧
    Preserved (list_del two_mem 13) 1 ∧ Preserved (list_swap two_mem 12 13) 1 ∧
    Preserved (list_bulk_move_tail two_mem 1 12 13) 1 ∧
    Preserved (list_rotate_left two_mem 1) 1 ∧ Preserved (list_splice_init two_mem 2 1) 1 :=
  have h := C1_invariant_preserved two_mem 1 [11, 12, 13, 14, 15] (by decide)
  ⟨by decide, (h.1 16 (by decide)).1, (h.2.1 13 (by decide)).1,
    h.2.2.1 12 (by decide) 13 (by decide) (by decide),
    h.2.2.2.1 [11] [12, 13] [14, 15] 12 13 rfl rfl rfl, h.2.2.2.2.1,
    (h.2.2.2.2.2 2 [21, 22] (by decide) (by decide)).1⟩

/-- C2. For a well-formed list with head `H` and forward traversal `L` and a
node `n` not in it, `list_add_tail(n, H)` makes the traversal `L ++ [n]` and
`list_add(n, H)` makes it `[n] ++ L`; tail-inserting nodes one by one into an
empty head yields a forward traversal, and hence a payload sequence, in
insertion order. -/
theorem C2_insertion_order (m : Mem) (H : Nat) (L : List Nat) (n : Nat)
    (hwf : WellFormed m H L) (hn : n ∉ H :: L) :
    WellFormed (list_add_tail m n H) H (L ++ [n]) ∧
    WellFormed (list_add m n H) H ([n] ++ L) ∧
    (∀ nodes : List Nat, (H :: nodes).Nodup →
      WellFormed (tail_insert_all m H nodes) H nodes ∧
      ∀ a : Nat → Int,
        payloads a (tail_insert_all m H nodes) H nodes.length = some (nodes.map a)) :=
  ⟨(cyc_list_add_tail hwf.cyc hn).wf, (cyc_list_add hwf.cyc hn).wf,
    fun _ hnd => ⟨(cyc_tail_insert_all m hnd).wf,
      fun a => payloads_of_wf (cyc_tail_insert_all m hnd).wf a⟩⟩

theorem C2_insertion_order_witness :
    (WellFormed pi_mem 1 [11, 12, 13, 14, 15] ∧ 16 ∉ [1, 11, 12, 13, 14, 15]) ∧
    WellFormed (list_add_tail pi_mem 16 1) 1 [11, 12, 13, 14, 15, 16] ∧
    WellFormed (list_add pi_mem 16 1) 1 [16, 11, 12, 13, 14, 15] ∧
    payloads pi_payload (tail_insert_all pi_mem 1 [11, 12, 13, 14, 15]) 1 5
      = some [3, 1, 4, 1, 5] :=
  have h := C2_insertion_order pi_mem 1 [11, 12, 13, 14, 15] 16 (by decide) (by decide)
  ⟨⟨by decide, by decide⟩, h.1, h.2.1, (h.2.2 [11, 12, 13, 14, 15] (by decide)).2 pi_payload⟩

/-- C3. For a well-formed list with head `H` and forward traversal
`A ++ [n] ++ B`, both `list_del(n)` and `list_del_init(n)` make the forward
traversal of `H` exactly `A ++ B` (and the payload sequence the one of
`A ++ B`): `n` is gone and every other node keeps its relative order. -/
theorem C3_removal (m : Mem) (H : Nat) (A : List Nat) (n : Nat) (B : List Nat)
    (hwf : WellFormed m H (A ++ [n] ++ B)) :
    WellFormed (list_del m n) H (A ++ B) ∧ WellFormed (list_del_init m n) H (A ++ B) ∧
    ∀ a : Nat → Int,
      payloads a (list_del m n) H (A ++ B).length = some ((A ++ B).map a) ∧
      payloads a (list_del_init m n) H (A ++ B).length = some ((A ++ B).map a) := by
  have hc : Cyc m ((H :: A) ++ n :: B) := by
    have := hwf.cyc
    simpa using this
  have h1 : WellFormed (list_del m n) H (A ++ B) :=
    Cyc.wf (cyc_list_del hc (by simp))
  have h2 : WellFormed (list_del_init m n) H (A ++ B) :=
    Cyc.wf (cyc_list_del_init hc (by simp))
  exact ⟨h1, h2, fun a => ⟨payloads_of_wf h1 a, payloads_of_wf h2 a⟩⟩

theorem C3_removal_witness :
    WellFormed pi_mem 1 ([11, 12] ++ [13] ++ [14, 15]) ∧
    WellFormed (list_del pi_mem 13) 1 [11, 12, 14, 15] ∧
    WellFormed (list_del_init pi_mem 13) 1 [11, 12, 14, 15] ∧
    payloads pi_payload (list_del pi_mem 13) 1 4 = some [3, 1, 1, 5] ∧
    payloads pi_payload (list_del_init pi_mem 13) 1 4 = some [3, 1, 1, 5] :=
  have h := C3_removal pi_mem 1 [11, 12] 13 [14, 15] (by decide)
  ⟨by decide, h.1, h.2.1, (h.2.2 pi_payload).1, (h.2.2 pi_payload).2⟩

/-- C4. The two removal variants end in two distinct states of the removed node
`n` (a node address, hence not the sentinel `LIST_POISON1`): after `list_del(n)`,
`n.next` is `LIST_POISON1` (0x00100100) and `n.prev` is `LIST_POISON2`
(0x00200200), two distinct non-null values, and `list_empty(n)` is false; after
`list_del_init(n)`, `n.next == n` and `n.prev == n`, so `list_empty(n)` is true. -/
theorem C4_removed_node_state (m : Mem) (n : Nat) (hn : n ≠ LIST_POISON1) :
    ((list_del m n) n).next = LIST_POISON1 ∧ ((list_del m n) n).prev = LIST_POISON2 ∧
    LIST_POISON1 = 0x00100100 ∧ LIST_POISON2 = 0x00200200 ∧
    LIST_POISON1 ≠ LIST_POISON2 ∧ LIST_POISON1 ≠ NULL ∧ LIST_POISON2 ≠ NULL ∧
    list_empty (list_del m n) n = false ∧
    ((list_del_init m n) n).next = n ∧ ((list_del_init m n) n).prev = n ∧
    list_empty (list_del_init m n) n = true := by
  have h1 : ((list_del m n) n).next = LIST_POISON1 := by simp [list_del]
  have h2 : ((list_del_init m n) n).next = n := by simp [list_del_init, INIT_LIST_HEAD]
  refine ⟨h1, by simp [list_del], rfl, rfl, by decide, by decide, by decide, ?_, h2,
    by simp [list_del_init, INIT_LIST_HEAD], ?_⟩
  · simp only [list_empty, h1]
    simpa using hn.symm
  · simp [list_empty, h2]

theorem C4_removed_node_state_witness :
    13 ≠ LIST_POISON1 ∧
    ((list_del pi_mem 13) 13).next = LIST_POISON1 ∧
    ((list_del pi_mem 13) 13).prev = LIST_POISON2 ∧
    list_empty (list_del pi_mem 13) 13 = false ∧
    list_empty (list_del_init pi_mem 13) 13 = true :=
  have h := C4_removed_node_state pi_mem 13 (by decide)
  ⟨by decide, h.1, h.2.1, h.2.2.2.2.2.2.2.1, h.2.2.2.2.2.2.2.2.2.2⟩

/-- C5. For a well-formed list and two distinct non-head members `a` and `b`,
`list_swap(a, b)` yields the list whose forward traversal is the original one
with `a` and `b` exchanged and every other node in its original position; in
particular when `b` is immediately after `a`, and when `a` is immediately after
`b`, each of the two ends up in the position the other held. -/
theorem C5_swap (m : Mem) (H : Nat) (L : List Nat) (a b : Nat) (hwf : WellFormed m H L)
    (ha : a ∈ L) (hb : b ∈ L) (hab : a ≠ b) :
    WellFormed (list_swap m a b) H (exchange a b L) ∧
    (∀ A C, L = A ++ a :: b :: C → WellFormed (list_swap m a b) H (A ++ b :: a :: C)) ∧
    (∀ A C, L = A ++ b :: a :: C → WellFormed (list_swap m a b) H (A ++ a :: b :: C)) := by
  have h := (cyc_list_swap hwf.cyc ha hb hab).wf
  have hnd := (List.nodup_cons.mp hwf.cyc.1).2
  refine ⟨h, ?_, ?_⟩
  · intro A C hL
    subst hL
    have := exchange_fwd (B := []) hnd
    simp only [List.nil_append] at this
    rwa [this] at h
  · intro A C hL
    subst hL
    have := exchange_bwd (B := []) hnd
    simp only [List.nil_append] at this
    rwa [this] at h

theorem C5_swap_witness :
    (WellFormed pi_mem 1 [11, 12, 13, 14, 15] ∧ 12 ∈ [11, 12, 13, 14, 15] ∧
      13 ∈ [11, 12, 13, 14, 15] ∧ 12 ≠ 13) ∧
    WellFormed (list_swap pi_mem 12 13) 1 [11, 13, 12, 14, 15] :=
  ⟨⟨by decide, by decide, by decide, by decide⟩,
    (C5_swap pi_mem 1 [11, 12, 13, 14, 15] 12 13 (by decide) (by decide) (by decide)
      (by decide)).2.1 [11] [14, 15] rfl⟩

/-- C6. For a well-formed list with head `H` and forward traversal
`A ++ R ++ B`, where `R` is the non-empty run from `first` to `last` (which may
coincide), `list_bulk_move_tail(H, first, last)` makes the forward traversal
`A ++ B ++ R`: the run ends up immediately before `H`, in its original order,
and the remaining nodes keep theirs. -/
theorem C6_bulk_move_tail (m : Mem) (H : Nat) (A R B : List Nat) (first last : Nat)
    (hwf : WellFormed m H (A ++ R ++ B)) (hf : R.head? = some first)
    (hl : R.getLast? = some last) :
    WellFormed (list_bulk_move_tail m H first last) H (A ++ B ++ R) :=
  (cyc_list_bulk_move_tail hwf.cyc hf hl).wf

theorem C6_bulk_move_tail_witness :
    (WellFormed pi_mem 1 ([11] ++ [12, 13] ++ [14, 15]) ∧ [12, 13].head? = some 12 ∧
      [12, 13].getLast? = some 13) ∧
    WellFormed (list_bulk_move_tail pi_mem 1 12 13) 1 [11, 14, 15, 12, 13] ∧
    WellFormed (list_bulk_move_tail pi_mem 1 12 12) 1 [11, 13, 14, 15, 12] :=
  ⟨⟨by decide, rfl, rfl⟩,
    C6_bulk_move_tail pi_mem 1 [11] [12, 13] [14, 15] 12 13 (by decide) rfl rfl,
    C6_bulk_move_tail pi_mem 1 [11] [12] [13, 14, 15] 12 12 (by decide) rfl rfl⟩

/-- C7. For two disjoint well-formed lists, `src` with traversal `S` and `dst`
with traversal `D`: `list_splice` and `list_splice_init` make the traversal of
`dst` `S ++ D`, `list_splice_tail` and `list_splice_tail_init` make it `D ++ S`;
when `S` is empty all four leave the whole heap unchanged; after either `_init`
variant `src` is an empty list (`src.next == src` and `src.prev == src`). -/
theorem C7_splice (m : Mem) (src dst : Nat) (S D : List Nat) (hs : WellFormed m src S)
    (hd : WellFormed m dst D) (hdj : ∀ x ∈ src :: S, x ∉ dst :: D) :
    WellFormed (list_splice m src dst) dst (S ++ D) ∧
    WellFormed (list_splice_init m src dst) dst (S ++ D) ∧
    WellFormed (list_splice_tail m src dst) dst (D ++ S) ∧
    WellFormed (list_splice_tail_init m src dst) dst (D ++ S) ∧
    (S = [] → list_splice m src dst = m ∧ list_splice_init m src dst = m ∧
      list_splice_tail m src dst = m ∧ list_splice_tail_init m src dst = m) ∧
    (WellFormed (list_splice_init m src dst) src [] ∧
      ((list_splice_init m src dst) src).next = src ∧
      ((list_splice_init m src dst) src).prev = src) ∧
    (WellFormed (list_splice_tail_init m src dst) src [] ∧
      ((list_splice_tail_init m src dst) src).next = src ∧
      ((list_splice_tail_init m src dst) src).prev = src) := by
  have hdj' : ∀ x ∈ dst :: D, x ∉ src :: S := fun x hx hxs => hdj x hxs hx
  obtain ⟨h1, h2, h3, h4, h5, h6⟩ := cyc_list_splice_all hs.cyc hd.cyc hdj'
  have hself : ∀ {m' : Mem}, Cyc m' [src] → (m' src).next = src ∧ (m' src).prev = src :=
    fun h => h.2.2 src rfl src rfl
  refine ⟨h1.wf, h2.wf, h3.wf, h4.wf, ?_, ⟨h5.wf, hself h5⟩, ⟨h6.wf, hself h6⟩⟩
  intro hS
  have he : list_empty m src = true := (cyc_list_empty hs.cyc).mpr hS
  simp [list_splice, list_splice_init, list_splice_tail, list_splice_tail_init, he]

theorem C7_splice_witness :
    (WellFormed two_mem 2 [21, 22] ∧ WellFormed two_mem 1 [11, 12, 13, 14, 15] ∧
      ∀ x ∈ [2, 21, 22], x ∉ [1, 11, 12, 13, 14, 15]) ∧
    WellFormed (list_splice two_mem 2 1) 1 [21, 22, 11, 12, 13, 14, 15] ∧
    WellFormed (list_splice_tail_init two_mem 2 1) 1 [11, 12, 13, 14, 15, 21, 22] ∧
    WellFormed (list_splice_tail_init two_mem 2 1) 2 [] :=
  have h := C7_splice two_mem 2 1 [21, 22] [11, 12, 13, 14, 15] (by decide) (by decide)
    (by decide)
  ⟨⟨by decide, by decide, by decide⟩, h.1, h.2.2.2.1, h.2.2.2.2.2.2.1⟩

/-- C8. For a well-formed list with head `H` and forward traversal
`A ++ [entry] ++ B` and a node `out` not in that list,
`list_cut_position(out, H, entry)` leaves `out` a well-formed list with
traversal `A ++ [entry]` and `H` a well-formed list with traversal `B` (so `H`
is empty when `entry` was the last element). -/
theorem C8_cut_position (m : Mem) (H : Nat) (A : List Nat) (entry : Nat) (B : List Nat)
    (out : Nat) (hwf : WellFormed m H (A ++ [entry] ++ B))
    (ho : out ∉ H :: (A ++ [entry] ++ B)) :
    WellFormed (list_cut_position m out H entry) out (A ++ [entry]) ∧
    WellFormed (list_cut_position m out H entry) H B ∧
    (B = [] → list_empty (list_cut_position m out H entry) H = true) := by
  have hc : Cyc m (H :: (A ++ entry :: B)) := by
    have := hwf.cyc
    simpa using this
  have h := cyc_list_cut_position hc (by simpa using ho)
  exact ⟨h.1.wf, h.2.wf, fun hB => (cyc_list_empty h.2).mpr hB⟩

theorem C8_cut_position_witness :
    (WellFormed pi_mem 1 ([11, 12] ++ [13] ++ [14, 15]) ∧
      3 ∉ 1 :: ([11, 12] ++ [13] ++ [14, 15])) ∧
    WellFormed (list_cut_position pi_mem 3 1 13) 3 [11, 12, 13] ∧
    WellFormed (list_cut_position pi_mem 3 1 13) 1 [14, 15] :=
  have h := C8_cut_position pi_mem 1 [11, 12] 13 [14, 15] 3 (by decide) (by decide)
  ⟨⟨by decide, by decide⟩, h.1, h.2.1⟩

/-- C9. Round trip: for a non-empty well-formed list `src` with traversal `S`
whose last node is `last`, a well-formed list `dst` with traversal `D` disjoint
from it, and a fresh node `back`, running `list_splice_init(src, dst)` and then
`list_cut_position(back, dst, last)` leaves `back` with traversal exactly `S`,
`dst` with traversal `D`, and `src` empty. -/
theorem C9_splice_cut_round_trip (m : Mem) (src dst back last : Nat) (S D : List Nat)
    (hs : WellFormed m src S) (hl : S.getLast? = some last) (hd : WellFormed m dst D)
    (hdj : ∀ x ∈ src :: S, x ∉ dst :: D) (hb : back ∉ (src :: S) ++ (dst :: D)) :
    WellFormed (list_cut_position (list_splice_init m src dst) back dst last) back S ∧
    WellFormed (list_cut_position (list_splice_init m src dst) back dst last) dst D ∧
    WellFormed (list_cut_position (list_splice_init m src dst) back dst last) src [] := by
  obtain ⟨S', rfl⟩ := List.getLast?_eq_some_iff.mp hl
  have hdj' : ∀ x ∈ dst :: D, x ∉ src :: (S' ++ [last]) := fun x hx hxs => hdj x hxs hx
  obtain ⟨-, h2, -, -, h5, -⟩ := cyc_list_splice_all hs.cyc hd.cyc hdj'
  have h2' : Cyc (list_splice_init m src dst) (dst :: (S' ++ last :: D)) := by
    simpa using h2
  have hb' : back ∉ dst :: (S' ++ last :: D) := by
    simp at hb ⊢; tauto
  have hsrc : src ∉ dst :: (S' ++ last :: D) := by
    have h0 := hdj src (by simp)
    have h1 := hs.cyc.1
    simp at h0 h1 ⊢
    tauto
  have hcut := cyc_list_cut_position h2' hb'
  refine ⟨hcut.1.wf, hcut.2.wf, Cyc.wf (cyc_frame h5 ?_)⟩
  intro x hx
  simp at hx
  subst hx
  rw [list_cut_position_member back h2']
  have hmem : ∀ y ∈ dst :: (S' ++ last :: D), x ≠ y := fun y hy e => hsrc (e ▸ hy)
  refine cut_position_frame ?_ (hmem dst (by simp)) (hmem last (by simp))
    (hmem _ (cyc_next_mem h2' (by simp))) (hmem _ (cyc_next_mem h2' (by simp)))
  rintro rfl
  simp at hb

theorem C9_splice_cut_round_trip_witness :
    (WellFormed two_mem 2 [21, 22] ∧ [21, 22].getLast? = some 22 ∧
      WellFormed two_mem 1 [11, 12, 13, 14, 15] ∧
      (∀ x ∈ [2, 21, 22], x ∉ [1, 11, 12, 13, 14, 15]) ∧
      3 ∉ [2, 21, 22] ++ [1, 11, 12, 13, 14, 15]) ∧
    WellFormed (list_cut_position (list_splice_init two_mem 2 1) 3 1 22) 3 [21, 22] ∧
    WellFormed (list_cut_position (list_splice_init two_mem 2 1) 3 1 22) 1
      [11, 12, 13, 14, 15] ∧
    WellFormed (list_cut_position (list_splice_init two_mem 2 1) 3 1 22) 2 [] :=
  ⟨⟨by decide, rfl, by decide, by decide, by decide⟩,
    C9_splice_cut_round_trip two_mem 2 1 3 22 [21, 22] [11, 12, 13, 14, 15] (by decide) rfl
      (by decide) (by decide) (by decide)⟩

/-- C10. For a well-formed list with head `H` and a node `out` not in it: if
`entry` is a member and the traversal is `A ++ [entry] ++ B`,
`list_cut_before(out, H, entry)` leaves `out` with traversal `A` and `H` with
traversal `[entry] ++ B`; if `entry` is already the first element, `out`
becomes empty and `H` is unchanged; if `entry == H`, every element is moved:
`out` has the whole original traversal and `H` becomes empty. -/
theorem C10_cut_before (m : Mem) (H : Nat) (L : List Nat) (out : Nat)
    (hwf : WellFormed m H L) (ho : out ∉ H :: L) :
    (∀ A entry B, L = A ++ [entry] ++ B →
      WellFormed (list_cut_before m out H entry) out A ∧
      WellFormed (list_cut_before m out H entry) H ([entry] ++ B)) ∧
    (∀ entry B, L = entry :: B →
      WellFormed (list_cut_before m out H entry) out [] ∧
      WellFormed (list_cut_before m out H entry) H L ∧
      ∀ x, x ≠ out → (list_cut_before m out H entry) x = m x) ∧
    (WellFormed (list_cut_before m out H H) out L ∧
      WellFormed (list_cut_before m out H H) H []) := by
  have hc := hwf.cyc
  refine ⟨?_, ?_, ?_⟩
  · intro A entry B hL
    subst hL
    rcases A with _ | ⟨a, A⟩
    · have := cyc_list_cut_before_first (B := B) (by simpa using hc) (by simpa using ho)
      exact ⟨this.2.1.wf, this.2.2.wf⟩
    · have := cyc_list_cut_before (A := A) (B := B) (by simpa using hc) (by simpa using ho)
      exact ⟨this.1.wf, this.2.wf⟩
  · intro entry B hL
    subst hL
    have := cyc_list_cut_before_first hc ho
    refine ⟨this.2.1.wf, this.2.2.wf, ?_⟩
    intro x hx
    rw [this.1]
    exact init_of_ne hx
  · have := cyc_list_cut_before_head hc ho
    exact ⟨this.1.wf, this.2.wf⟩

theorem C10_cut_before_witness :
    (WellFormed pi_mem 1 [11, 12, 13, 14, 15] ∧ 3 ∉ [1, 11, 12, 13, 14, 15]) ∧
    (WellFormed (list_cut_before pi_mem 3 1 13) 3 [11, 12] ∧
      WellFormed (list_cut_before pi_mem 3 1 13) 1 [13, 14, 15]) ∧
    WellFormed (list_cut_before pi_mem 3 1 11) 3 [] ∧
    (WellFormed (list_cut_before pi_mem 3 1 1) 3 [11, 12, 13, 14, 15] ∧
      WellFormed (list_cut_before pi_mem 3 1 1) 1 []) :=
  have h := C10_cut_before pi_mem 1 [11, 12, 13, 14, 15] 3 (by decide) (by decide)
  ⟨⟨by decide, by decide⟩, h.1 [11, 12] 13 [14, 15] rfl, (h.2.1 11 [12, 13, 14, 15] rfl).1,
    h.2.2⟩

/-- C11. Degenerate-input policy of `list_cut_position(out, H, entry)` on a
well-formed list `H`: if `H` is empty the whole heap is unchanged; if `H` has
exactly one element and `entry` is neither that element nor `H` the whole heap
is unchanged; if `H` is non-empty and `entry == H`, `out` becomes an empty list
(`out.next == out.prev == out`) and nothing but `out` is written, so the list
of `H` (of which `out` is not a node) is unchanged. -/
theorem C11_cut_position_degenerate (m : Mem) (H : Nat) (L : List Nat) (out : Nat)
    (hwf : WellFormed m H L) :
    (L = [] → ∀ entry, list_cut_position m out H entry = m) ∧
    (∀ x entry, L = [x] → entry ≠ x → entry ≠ H → list_cut_position m out H entry = m) ∧
    (L ≠ [] →
      ((list_cut_position m out H H) out).next = out ∧
      ((list_cut_position m out H H) out).prev = out ∧
      (∀ y, y ≠ out → (list_cut_position m out H H) y = m y) ∧
      (out ∉ H :: L → WellFormed (list_cut_position m out H H) H L)) := by
  have hc := hwf.cyc
  refine ⟨?_, ?_, ?_⟩
  · intro hL entry
    have he : list_empty m H = true := (cyc_list_empty hc).mpr hL
    simp [list_cut_position, he]
  · intro x entry hL hx hH
    subst hL
    have hn : (m H).next = x := by simpa using (cyc_next_head hc).symm
    have hp : (m H).prev = x := by simpa using (cyc_prev_head hc).symm
    have hxH : x ≠ H := by
      have := hc.1
      simp at this
      exact fun e => this e.symm
    simp [list_cut_position, list_empty, list_is_singular, hn, hp, hxH, Ne.symm hx,
      Ne.symm hH]
  · intro hL
    have he : list_empty m H = false := by
      rw [← Bool.not_eq_true, cyc_list_empty hc]; exact hL
    have e : list_cut_position m out H H = INIT_LIST_HEAD m out := by
      simp [list_cut_position, he]
    rw [e]
    refine ⟨by simp [INIT_LIST_HEAD], by simp [INIT_LIST_HEAD], fun y hy => init_of_ne hy, ?_⟩
    intro ho
    exact Cyc.wf (cyc_frame hc (fun y hy => init_of_ne (fun e => ho (e ▸ hy))))

theorem C11_cut_position_degenerate_witness :
    WellFormed pi_mem 1 [11, 12, 13, 14, 15] ∧
    ((list_cut_position pi_mem 3 1 1) 3).next = 3 ∧
    ((list_cut_position pi_mem 3 1 1) 3).prev = 3 ∧
    WellFormed (list_cut_position pi_mem 3 1 1) 1 [11, 12, 13, 14, 15] :=
  have h := (C11_cut_position_degenerate pi_mem 1 [11, 12, 13, 14, 15] 3 (by decide)).2.2
    (by decide)
  ⟨by decide, h.1, h.2.1, h.2.2.2 (by decide)⟩

/-- C12. For a well-formed list with head `H` and forward traversal `L`,
`list_empty(H)` is true iff `L` has length 0 and `list_is_singular(H)` is true
iff `L` has length exactly 1; `INIT_LIST_HEAD(H)` makes `list_empty(H)` true. -/
theorem C12_empty_singular (m : Mem) (H : Nat) (L : List Nat) (hwf : WellFormed m H L) :
    (list_empty m H = true ↔ L.length = 0) ∧
    (list_is_singular m H = true ↔ L.length = 1) ∧
    (∀ (m0 : Mem) (H0 : Nat), list_empty (INIT_LIST_HEAD m0 H0) H0 = true) := by
  have hc := hwf.cyc
  refine ⟨?_, ?_, ?_⟩
  · rw [cyc_list_empty hc, List.length_eq_zero]
  · rcases L with _ | ⟨x, L⟩
    · have he : list_empty m H = true := (cyc_list_empty hc).mpr rfl
      simp [list_is_singular, he]
    · have he : list_empty m H = false := by
        rw [← Bool.not_eq_true, cyc_list_empty hc]; simp
      have hn : (m H).next = x := by simpa using (cyc_next_head hc).symm
      have hp := cyc_prev_head hc
      rcases L with _ | ⟨y, L⟩
      · have hp' : (m H).prev = x := by simpa using hp.symm
        simp [list_is_singular, he, hn, hp']
      · have hmem : (m H).prev ∈ y :: L := by
          rw [List.getLast?_cons_cons, List.getLast?_cons_cons] at hp
          exact List.mem_of_mem_getLast? hp
        have hne : x ≠ (m H).prev := by
          intro e
          have := hc.1
          rw [← e] at hmem
          simp at this hmem
          tauto
        simp [list_is_singular, he, hn, hne]
  · intro m0 H0
    simp [list_empty, INIT_LIST_HEAD]

theorem C12_empty_singular_witness :
    WellFormed pi_mem 1 [11, 12, 13, 14, 15] ∧ list_empty pi_mem 1 = false ∧
    list_is_singular pi_mem 1 = false ∧
    list_is_singular (tail_insert_all Mem.zero 9 [8]) 9 = true :=
  have h := C12_empty_singular pi_mem 1 [11, 12, 13, 14, 15] (by decide)
  ⟨by decide, by simpa using h.1, by simpa using h.2.1,
    (C12_empty_singular (tail_insert_all Mem.zero 9 [8]) 9 [8] (by decide)).2.1.mpr rfl⟩

theorem cyc_list_rotate_to_front {m : Mem} {H x : Nat} {A B : List Nat}
    (h : Cyc m (H :: (A ++ x :: B))) :
    Cyc (list_rotate_to_front m x H) (H :: x :: (B ++ A)) := by
  have h1 : Cyc (__list_del_entry m H) (A ++ x :: B) := cyc_del_entry h (by simp)
  have h2 : Cyc (__list_del_entry m H) (x :: (B ++ A)) := cyc_rotate h1
  have hH : H ∉ x :: (B ++ A) := by
    have := h.1
    simp at this ⊢
    tauto
  have h3 := cyc_list_add_tail h2 hH
  have h4 := cyc_rotate (X := x :: (B ++ A)) (Y := [H]) h3
  simpa [list_rotate_to_front, list_move_tail] using h4

/-- C14. For a well-formed list with head `H` and forward traversal
`[x1, ..., xn]`, `list_rotate_left(H)` makes the traversal `[x2, ..., xn, x1]`
when the list is not empty and changes nothing when it is; for a member `xk`,
`list_rotate_to_front(xk, H)` makes the traversal
`[xk, ..., xn, x1, ..., x(k-1)]`. -/
theorem C14_rotate (m : Mem) (H : Nat) (L : List Nat) (hwf : WellFormed m H L) :
    (∀ x rest, L = x :: rest → WellFormed (list_rotate_left m H) H (rest ++ [x])) ∧
    (L = [] → list_rotate_left m H = m) ∧
    (∀ A x B, L = A ++ [x] ++ B →
      WellFormed (list_rotate_to_front m x H) H ([x] ++ B ++ A)) := by
  have hc := hwf.cyc
  refine ⟨?_, ?_, ?_⟩
  · intro x rest hL
    subst hL
    exact (cyc_list_rotate_left hc).wf
  · intro hL
    have he : list_empty m H = true := (cyc_list_empty hc).mpr hL
    simp [list_rotate_left, he]
  · intro A x B hL
    subst hL
    have hc' : Cyc m (H :: (A ++ x :: B)) := by simpa using hc
    have := (cyc_list_rotate_to_front hc').wf
    simpa using this

theorem C14_rotate_witness :
    WellFormed pi_mem 1 [11, 12, 13, 14, 15] ∧
    WellFormed (list_rotate_left pi_mem 1) 1 [12, 13, 14, 15, 11] ∧
    WellFormed (list_rotate_to_front pi_mem 13 1) 1 [13, 14, 15, 11, 12] :=
  have h := C14_rotate pi_mem 1 [11, 12, 13, 14, 15] (by decide)
  ⟨by decide, h.1 11 [12, 13, 14, 15] rfl, h.2.2 [11, 12] 13 [14, 15] rfl⟩

/-- C15. For a well-formed list with head `H` and forward traversal
`A ++ [old] ++ B` and a node `new` not in the list, `list_replace(old, new)`
and `list_replace_init(old, new)` make the traversal of `H` `A ++ [new] ++ B`,
the list still well-formed; after `list_replace_init`, `old` is an empty
singleton (`old.next == old.prev == old`). -/
theorem C15_replace (m : Mem) (H : Nat) (A : List Nat) (old : Nat) (B : List Nat)
    (new_node : Nat) (hwf : WellFormed m H (A ++ [old] ++ B))
    (hn : new_node ∉ H :: (A ++ [old] ++ B)) :
    WellFormed (list_replace m old new_node) H (A ++ [new_node] ++ B) ∧
    WellFormed (list_replace_init m old new_node) H (A ++ [new_node] ++ B) ∧
    WellFormed (list_replace_init m old new_node) old [] ∧
    ((list_replace_init m old new_node) old).next = old ∧
    ((list_replace_init m old new_node) old).prev = old := by
  have hc : Cyc m ((H :: A) ++ old :: B) := by
    have := hwf.cyc
    simpa using this
  have h1 := cyc_list_replace_mid hc (by simp) (by simpa using hn)
  have ho : old ∉ (H :: A) ++ new_node :: B := by
    have := not_mem_of_nodup_mid hc.1
    simp at this hn ⊢
    tauto
  have h2 : Cyc (list_replace_init m old new_node) ((H :: A) ++ new_node :: B) :=
    cyc_frame h1 (fun x hx => init_of_ne (fun e => ho (e ▸ hx)))
  have h3 : Cyc (list_replace_init m old new_node) [old] := cyc_init _ _
  refine ⟨Cyc.wf (by simpa using h1), Cyc.wf (by simpa using h2), h3.wf, ?_, ?_⟩
  · simp [list_replace_init, INIT_LIST_HEAD]
  · simp [list_replace_init, INIT_LIST_HEAD]

theorem C15_replace_witness :
    (WellFormed pi_mem 1 ([11, 12] ++ [13] ++ [14, 15]) ∧
      3 ∉ 1 :: ([11, 12] ++ [13] ++ [14, 15])) ∧
    WellFormed (list_replace pi_mem 13 3) 1 [11, 12, 3, 14, 15] ∧
    WellFormed (list_replace_init pi_mem 13 3) 1 [11, 12, 3, 14, 15] ∧
    WellFormed (list_replace_init pi_mem 13 3) 13 [] :=
  have h := C15_replace pi_mem 1 [11, 12] 13 [14, 15] 3 (by decide) (by decide)
  ⟨⟨by decide, by decide⟩, h.1, h.2.1, h.2.2.1⟩

/-- C16 (as stated, refuted). On the list `[11, 12, 13, 14, 15]` of head 1,
`list_replace(13, 3)` leaves `13.next == 14` and `13.prev == 12`: the replaced
node is not poisoned. -/
theorem C16_replace_poison_counterexample :
    WellFormed pi_mem 1 [11, 12, 13, 14, 15] ∧ 3 ∉ [1, 11, 12, 13, 14, 15] ∧
    ((list_replace pi_mem 13 3) 13).next = 14 ∧ ((list_replace pi_mem 13 3) 13).prev = 12 ∧
    ¬ (((list_replace pi_mem 13 3) 13).next = LIST_POISON1 ∧
      ((list_replace pi_mem 13 3) 13).prev = LIST_POISON2) := by
  decide

/-- C16 (amended). After the plain `list_replace(old, new)` on a member `old`
of a well-formed list, `old` is left untouched, not poisoned: `old.next` and
`old.prev` keep their values, the former successor and predecessor of `old`,
which are still nodes of the list. -/
theorem C16_replace_leaves_old (m : Mem) (H : Nat) (A : List Nat) (old : Nat)
    (B : List Nat) (new_node : Nat) (hwf : WellFormed m H (A ++ [old] ++ B))
    (hn : new_node ∉ H :: (A ++ [old] ++ B)) :
    (list_replace m old new_node) old = m old ∧
    (m old).next ∈ H :: (A ++ [new_node] ++ B) ∧
    (m old).prev ∈ H :: (A ++ [new_node] ++ B) := by
  have hc : Cyc m (old :: (B ++ H :: A)) := by
    have h0 : Cyc m ((H :: A) ++ old :: B) := by
      have := hwf.cyc
      simpa using this
    have := cyc_rotate h0
    simpa using this
  have hM : B ++ H :: A ≠ [] := by simp
  have hp := cyc_prev_of_head (R := [old]) hc hM (show [old].head? = some old from rfl)
  have hq := cyc_next_of_last (R := [old]) hc hM (show [old].getLast? = some old from rfl)
  have hpM := List.mem_of_mem_getLast? hp
  have hqM := List.mem_of_mem_head? hq
  have hoM : old ∉ B ++ H :: A := (List.nodup_cons.mp hc.1).1
  have h1 : old ≠ (m old).next := fun e => hoM (e ▸ hqM)
  have h2 : old ≠ (m old).prev := fun e => hoM (e ▸ hpM)
  have h3 : old ≠ new_node := by
    rintro rfl
    simp at hn
  refine ⟨?_, ?_, ?_⟩
  · simp [list_replace, Mem.setNext, Mem.setPrev, h1, h2, h3]
  · simp at hqM ⊢; tauto
  · simp at hpM ⊢; tauto

theorem C16_replace_leaves_old_witness :
    (WellFormed pi_mem 1 ([11, 12] ++ [13] ++ [14, 15]) ∧
      3 ∉ 1 :: ([11, 12] ++ [13] ++ [14, 15])) ∧
    (list_replace pi_mem 13 3) 13 = pi_mem 13 :=
  ⟨⟨by decide, by decide⟩,
    (C16_replace_leaves_old pi_mem 1 [11, 12] 13 [14, 15] 3 (by decide) (by decide)).1⟩

/-- The cells `list_bulk_move_tail` can write. -/
theorem bulk_move_tail_frame (m : Mem) (H first last x : Nat) (h1 : x ≠ H) (h2 : x ≠ first)
    (h3 : x ≠ last) (h4 : x ≠ (m first).prev) (h5 : x ≠ (m last).next)
    (h6 : x ≠ (m H).prev) : (list_bulk_move_tail m H first last) x = m x := by
  have e1 : ((m.setNext (m first).prev (m last).next) last).next = (m last).next := by
    by_cases h : last = (m first).prev <;> simp [h]
  simp only [list_bulk_move_tail, e1, setNext_prev, setPrev_prev]
  rw [setPrev_of_ne h1, setNext_of_ne h3, setPrev_of_ne h2, setNext_of_ne, setPrev_of_ne h5,
    setNext_of_ne h4]
  by_cases h : H = (m last).next
  · simp [h]; exact h4
  · simp [h]; exact h6

/-- C18. `list_bulk_move_tail(H, first, last)` rewrites only boundary links:
every node other than `H`, `first`, `last`, the old predecessor of `first`, the
old successor of `last` and the old last element of the list of `H` keeps both
its `next` and its `prev`; in particular the nodes strictly inside the run are
not written, whatever the length of the run. -/
theorem C18_bulk_move_tail_frame (m : Mem) (H first last : Nat) :
    (∀ x, x ≠ H → x ≠ first → x ≠ last → x ≠ (m first).prev → x ≠ (m last).next →
      x ≠ (m H).prev → (list_bulk_move_tail m H first last) x = m x) ∧
    (∀ A mid B, WellFormed m H (A ++ [first] ++ mid ++ [last] ++ B) →
      ∀ x ∈ mid, (list_bulk_move_tail m H first last) x = m x) := by
  refine ⟨fun x => bulk_move_tail_frame m H first last x, ?_⟩
  intro A mid B hwf x hx
  have hc : Cyc m ((H :: A) ++ ((first :: (mid ++ [last])) ++ B)) := by
    have := hwf.cyc
    simpa using this
  have h0 : Cyc m ((first :: (mid ++ [last])) ++ (B ++ H :: A)) := by
    have := cyc_rotate hc
    rwa [List.append_assoc] at this
  have hM0 : B ++ H :: A ≠ [] := by simp
  have ha := List.mem_of_mem_getLast? (cyc_prev_of_head h0 hM0 rfl)
  have hb := List.mem_of_mem_head? (cyc_next_of_last h0 hM0
    (show (first :: (mid ++ [last])).getLast? = some last by
      rw [← List.cons_append, List.getLast?_concat]))
  have ht : (m H).prev ∈ last :: B := by
    have h1 := cyc_prev_head (l := A ++ ((first :: (mid ++ [last])) ++ B)) hc
    have e : H :: (A ++ ((first :: (mid ++ [last])) ++ B))
        = (H :: (A ++ first :: mid)) ++ last :: B := by simp
    rw [e, List.getLast?_append_cons] at h1
    exact List.mem_of_mem_getLast? h1
  have hnd := h0.1
  have hxM : x ∉ B ++ H :: A := by
    intro h
    exact List.disjoint_of_nodup_append hnd (by simp [hx]) h
  have hxf : x ≠ first := by
    rintro rfl
    simp [hx] at hnd
  have hxl : x ≠ last := by
    rintro rfl
    have := (List.nodup_cons.mp (List.nodup_append.mp hnd).1).2
    exact List.disjoint_of_nodup_append this hx (by simp)
  have hxH : x ≠ H := fun e => hxM (by simp [e])
  have hxB : x ∉ last :: B := by
    simp only [List.mem_cons, not_or]
    exact ⟨hxl, fun h => hxM (by simp [h])⟩
  exact bulk_move_tail_frame m H first last x hxH hxf hxl (fun e => hxM (e ▸ ha))
    (fun e => hxM (e ▸ hb)) (fun e => hxB (e ▸ ht))

theorem C18_bulk_move_tail_frame_witness :
    WellFormed pi_mem 1 ([11] ++ [12] ++ [13] ++ [14] ++ [15]) ∧
    (list_bulk_move_tail pi_mem 1 12 14) 13 = pi_mem 13 :=
  ⟨by decide, (C18_bulk_move_tail_frame pi_mem 1 12 14).2 [11] [13] [15] (by decide) 13
    (by decide)⟩

/-- C19 (as stated, refuted). In the scenario (head 1, nodes 11, ..., 15 with
payloads 3, 1, 4, 1, 5 tail-inserted, the third node removed), moving the first
node with payload 1 by `list_bulk_move_tail(H, n, n)` changes the payload
sequence: it is `[3, 1, 5, 1]`, not `[3, 1, 1, 5]`. -/
theorem C19_bulk_move_scenario_counterexample :
    payloads pi_payload (list_del pi_mem 13) 1 4 = some [3, 1, 1, 5] ∧
    payloads pi_payload (list_bulk_move_tail (list_del pi_mem 13) 1 12 12) 1 4
      ≠ some [3, 1, 1, 5] ∧
    payloads pi_payload (list_bulk_move_tail (list_del_init pi_mem 13) 1 12 12) 1 4
      ≠ some [3, 1, 1, 5] := by
  decide

/-- C19 (amended). In the same scenario, `list_bulk_move_tail(H, n, n)` on the
first node with payload 1 moves that node to the tail, the payloads becoming
`[3, 1, 5, 1]`; the call reorders nothing (payloads still `[3, 1, 1, 5]`) when
the run already ends at the tail of the list, as for the node with payload 5,
and in general for every run `R` at the end of a well-formed list. -/
theorem C19_bulk_move_scenario :
    payloads pi_payload (list_bulk_move_tail (list_del pi_mem 13) 1 12 12) 1 4
      = some [3, 1, 5, 1] ∧
    payloads pi_payload (list_bulk_move_tail (list_del_init pi_mem 13) 1 12 12) 1 4
      = some [3, 1, 5, 1] ∧
    payloads pi_payload (list_bulk_move_tail (list_del pi_mem 13) 1 15 15) 1 4
      = some [3, 1, 1, 5] ∧
    payloads pi_payload (list_bulk_move_tail (list_del_init pi_mem 13) 1 15 15) 1 4
      = some [3, 1, 1, 5] ∧
    (∀ (m : Mem) (H : Nat) (A R : List Nat) (first last : Nat),
      WellFormed m H (A ++ R) → R.head? = some first → R.getLast? = some last →
      WellFormed (list_bulk_move_tail m H first last) H (A ++ R)) := by
  refine ⟨by decide, by decide, by decide, by decide, ?_⟩
  intro m H A R first last hwf hf hl
  have hc : Cyc m (H :: (A ++ R ++ [])) := by simpa using hwf.cyc
  have := (cyc_list_bulk_move_tail hc hf hl).wf
  simpa using this

theorem traversal_unique {m : Mem} {H : Nat} {L L' : List Nat} (h : Traversal m H L)
    (h' : Traversal m H L') : L = L' := by
  have h1 := ((traversal_iff_fuel m H L).mp h).2 (max L.length L'.length) (le_max_left _ _)
  have h2 := ((traversal_iff_fuel m H L').mp h').2 (max L.length L'.length) (le_max_right _ _)
  rw [h1] at h2
  exact Option.some.inj h2

theorem list_add_frame {m : Mem} {new_node prev next x : Nat} (h1 : x ≠ new_node)
    (h2 : x ≠ prev) (h3 : x ≠ next) : __list_add m new_node prev next x = m x := by
  simp [__list_add, setNext_of_ne h2, setPrev_of_ne h1, setNext_of_ne h1, setPrev_of_ne h3]

theorem list_del_frame {m : Mem} {prev next x : Nat} (h1 : x ≠ prev) (h2 : x ≠ next) :
    __list_del m prev next x = m x := by
  simp [__list_del, setNext_of_ne h1, setPrev_of_ne h2]

/-- Moving a member `n` of the ring of `G` into a disjoint ring of head `H`. -/
theorem cyc_list_move_other {m : Mem} {G H n : Nat} {A B L : List Nat}
    (hG : Cyc m (G :: (A ++ n :: B))) (hH : Cyc m (H :: L))
    (hdj : ∀ x ∈ H :: L, x ∉ G :: (A ++ n :: B)) :
    Cyc (list_move m n H) (H :: n :: L) ∧ Cyc (list_move m n H) (G :: (A ++ B)) ∧
    Cyc (list_move_tail m n H) (H :: (L ++ [n])) ∧
    Cyc (list_move_tail m n H) (G :: (A ++ B)) := by
  have hnG : n ∈ G :: (A ++ n :: B) := by simp
  have hG1 : Cyc (__list_del_entry m n) (G :: (A ++ B)) :=
    cyc_del_entry_mid (X := G :: A) hG (by simp)
  have hH1 : Cyc (__list_del_entry m n) (H :: L) := by
    refine cyc_frame hH ?_
    intro x hx
    exact list_del_frame (fun e => hdj x hx (e ▸ cyc_prev_mem hG hnG))
      (fun e => hdj x hx (e ▸ cyc_next_mem hG hnG))
  have hn : n ∉ H :: L := fun h => hdj n h hnG
  have hnG1 : n ∉ G :: (A ++ B) := not_mem_of_nodup_mid (X := G :: A) hG.1
  have hsub : ∀ x ∈ G :: (A ++ B), x ∈ G :: (A ++ n :: B) := by
    intro x hx; simp at hx ⊢; tauto
  have hne : ∀ x ∈ G :: (A ++ B), ∀ y ∈ H :: L, x ≠ y :=
    fun x hx y hy e => hdj y hy (e ▸ hsub x hx)
  refine ⟨cyc_list_add hH1 hn, cyc_frame hG1 ?_, cyc_list_add_tail hH1 hn, cyc_frame hG1 ?_⟩
  · intro x hx
    exact list_add_frame (fun e => hnG1 (e ▸ hx)) (hne x hx H (by simp))
      (hne x hx _ (cyc_next_mem hH1 (by simp)))
  · intro x hx
    exact list_add_frame (fun e => hnG1 (e ▸ hx)) (hne x hx _ (cyc_prev_mem hH1 (by simp)))
      (hne x hx H (by simp))

theorem erase_mid {n : Nat} {A B : List Nat} (h : (A ++ n :: B).Nodup) :
    (A ++ n :: B).erase n = A ++ B := by
  have hA : n ∉ A := by
    have := not_mem_of_nodup_mid h
    simp at this
    exact this.1
  rw [List.erase_append_right _ hA, List.erase_cons_head]

/-- C13. For a member `n` of a well-formed list `G` and a well-formed list with
head `H` and traversal `L`, the list of `H` being `G` itself or disjoint from
it: `list_move(n, H)` makes the traversal of `H` `[n] ++ (L without n)` and
`list_move_tail(n, H)` makes it `(L without n) ++ [n]`; when the list of `G` is
a different one, its traversal afterwards is its original one without `n`. -/
theorem C13_move (m : Mem) (G H n : Nat) (LG L : List Nat) (hG : WellFormed m G LG)
    (hn : n ∈ LG) (hH : WellFormed m H L)
    (hrel : H = G ∨ ∀ x ∈ H :: L, x ∉ G :: LG) :
    WellFormed (list_move m n H) H ([n] ++ L.erase n) ∧
    WellFormed (list_move_tail m n H) H (L.erase n ++ [n]) ∧
    ((∀ x ∈ H :: L, x ∉ G :: LG) →
      WellFormed (list_move m n H) G (LG.erase n) ∧
      WellFormed (list_move_tail m n H) G (LG.erase n)) := by
  obtain ⟨A, B, rfl⟩ := List.append_of_mem hn
  have hcG := hG.cyc
  have hnd := (List.nodup_cons.mp hcG.1).2
  have hother : (∀ x ∈ H :: L, x ∉ G :: (A ++ n :: B)) →
      (WellFormed (list_move m n H) H ([n] ++ L.erase n) ∧
        WellFormed (list_move_tail m n H) H (L.erase n ++ [n])) ∧
      WellFormed (list_move m n H) G ((A ++ n :: B).erase n) ∧
      WellFormed (list_move_tail m n H) G ((A ++ n :: B).erase n) := by
    intro hdj
    have hnL : n ∉ L := fun h => hdj n (by simp [h]) (by simp)
    obtain ⟨h1, h2, h3, h4⟩ := cyc_list_move_other hcG hH.cyc hdj
    rw [List.erase_of_not_mem hnL, erase_mid hnd]
    exact ⟨⟨h1.wf, h3.wf⟩, h2.wf, h4.wf⟩
  refine ⟨?_, ?_, fun hdj => (hother hdj).2⟩
  · rcases hrel with rfl | hdj
    · have := traversal_unique hH.1 hG.1
      subst this
      rw [erase_mid hnd]
      exact (cyc_list_move hcG).wf
    · exact (hother hdj).1.1
  · rcases hrel with rfl | hdj
    · have := traversal_unique hH.1 hG.1
      subst this
      rw [erase_mid hnd]
      exact (cyc_list_move_tail hcG).wf
    · exact (hother hdj).1.2

theorem C13_move_witness :
    (WellFormed two_mem 2 [21, 22] ∧ 21 ∈ [21, 22] ∧
      WellFormed two_mem 1 [11, 12, 13, 14, 15] ∧
      ∀ x ∈ [1, 11, 12, 13, 14, 15], x ∉ [2, 21, 22]) ∧
    WellFormed (list_move two_mem 21 1) 1 [21, 11, 12, 13, 14, 15] ∧
    WellFormed (list_move_tail two_mem 21 1) 1 [11, 12, 13, 14, 15, 21] ∧
    WellFormed (list_move two_mem 21 1) 2 [22] ∧
    WellFormed (list_move two_mem 13 1) 1 [13, 11, 12, 14, 15] :=
  have h := C13_move two_mem 2 1 21 [21, 22] [11, 12, 13, 14, 15] (by decide) (by decide)
    (by decide) (Or.inr (by decide))
  ⟨⟨by decide, by decide, by decide, by decide⟩, h.1, h.2.1, (h.2.2 (by decide)).1,
    (C13_move two_mem 1 1 13 [11, 12, 13, 14, 15] [11, 12, 13, 14, 15] (by decide)
      (by decide) (by decide) (Or.inl rfl)).1⟩

/-- In a ring `H, x, rest`, the successor of `x` is the next node of `rest`, or
`H` when `rest` is empty. -/
theorem cyc_next_second {m : Mem} {H x : Nat} {rest : List Nat}
    (h : Cyc m (H :: x :: rest)) : (rest ++ [H]).head? = some (m x).next := by
  have h1 : Cyc m (x :: (rest ++ [H])) := cyc_rotate (X := [H]) h
  have := cyc_next_head h1
  rw [← this]
  cases rest <;> simp

/-- The safe loop with a body that unlinks the current node visits the whole
list and leaves it empty. -/
theorem for_each_safe_removal {body : Mem → Nat → Mem} {H : Nat}
    (hbody : ∀ (m : Mem) (x : Nat) (rest : List Nat), Cyc m (H :: x :: rest) →
      Cyc (body m x) (H :: rest)) :
    ∀ (L : List Nat) (m : Mem) (fuel : Nat), Cyc m (H :: L) → L.length ≤ fuel →
      ∃ m', list_for_each_safe_from body H fuel m (m H).next (m (m H).next).next
        = some (m', L) ∧ Cyc m' [H]
  | [], m, fuel, h, _ => by
    have hn : (m H).next = H := by simpa using (cyc_next_head h).symm
    refine ⟨m, ?_, h⟩
    cases fuel <;> simp [list_for_each_safe_from, hn]
  | x :: rest, m, 0, _, hle => by simp at hle
  | x :: rest, m, fuel + 1, h, hle => by
    have hn : (m H).next = x := by simpa using (cyc_next_head h).symm
    have hxH : x ≠ H := by
      have := h.1
      simp at this
      exact fun e => this.1.1 e.symm
    have h1 := hbody m x rest h
    have hcache : (m x).next = (body m x H).next := by
      have e1 := cyc_next_second h
      have e2 := cyc_next_head h1
      rw [e1] at e2
      exact Option.some.inj e2
    obtain ⟨m', hm', hc'⟩ := for_each_safe_removal hbody rest (body m x) fuel h1
      (by simpa using hle)
    refine ⟨m', ?_, hc'⟩
    simp only [list_for_each_safe_from, hn, hxH, if_false, hcache, hm', Option.map_some']

/-- C17. For a well-formed list with head `H` and traversal `[x1, ..., xn]`,
the `list_for_each_safe` loop whose body removes the current node (`list_del`
or `list_del_init`) terminates (within `n` iterations, and with the same result
for every larger bound), runs its body exactly once on each of `x1, ..., xn`
in that order and on no other node, and leaves `H` an empty well-formed list. -/
theorem C17_for_each_safe_removal (m : Mem) (H : Nat) (L : List Nat)
    (hwf : WellFormed m H L) (fuel : Nat) (hfuel : L.length ≤ fuel) :
    (∃ m', list_for_each_safe list_del m H fuel = some (m', L) ∧ WellFormed m' H []) ∧
    (∃ m', list_for_each_safe list_del_init m H fuel = some (m', L) ∧
      WellFormed m' H []) := by
  constructor
  · obtain ⟨m', h1, h2⟩ := for_each_safe_removal
      (fun m x rest h => cyc_list_del (X := [H]) (Y := rest) h (by simp)) L m fuel hwf.cyc hfuel
    exact ⟨m', h1, h2.wf⟩
  · obtain ⟨m', h1, h2⟩ := for_each_safe_removal
      (fun m x rest h => cyc_list_del_init (X := [H]) (Y := rest) h (by simp)) L m fuel
      hwf.cyc hfuel
    exact ⟨m', h1, h2.wf⟩

theorem C17_for_each_safe_removal_witness :
    (WellFormed pi_mem 1 [11, 12, 13, 14, 15] ∧ [11, 12, 13, 14, 15].length ≤ 5) ∧
    (∃ m', list_for_each_safe list_del pi_mem 1 5 = some (m', [11, 12, 13, 14, 15]) ∧
      WellFormed m' 1 []) ∧
    (∃ m', list_for_each_safe list_del_init pi_mem 1 5 = some (m', [11, 12, 13, 14, 15]) ∧
      WellFormed m' 1 []) :=
  ⟨⟨by decide, by decide⟩,
    C17_for_each_safe_removal pi_mem 1 [11, 12, 13, 14, 15] (by decide) 5 (by decide)⟩

/-- C27. When `old` is an empty list head (`old.next == old.prev == old`) and
`new` is a different node, `list_replace_init(old, new)` leaves `new` an empty
list (`new.next == new`, `new.prev == new`) and `old` an empty list; after the
plain `list_replace(old, new)`, `new.next == new` and `new.prev == new` while
`old.prev == new`.  (Of the two conditions on `old`, the code only reads
`old.next == old`; `old.prev` is overwritten before it is read.) -/
theorem C27_replace_empty (m : Mem) (old new_node : Nat) (hnext : (m old).next = old)
    (hne : new_node ≠ old) :
    (((list_replace_init m old new_node) new_node).next = new_node ∧
      ((list_replace_init m old new_node) new_node).prev = new_node ∧
      ((list_replace_init m old new_node) old).next = old ∧
      ((list_replace_init m old new_node) old).prev = old ∧
      WellFormed (list_replace_init m old new_node) new_node [] ∧
      WellFormed (list_replace_init m old new_node) old []) ∧
    (((list_replace m old new_node) new_node).next = new_node ∧
      ((list_replace m old new_node) new_node).prev = new_node ∧
      ((list_replace m old new_node) old).prev = new_node) := by
  have h1 : ((list_replace m old new_node) new_node).next = new_node := by
    simp [list_replace, hnext, hne, Ne.symm hne]
  have h2 : ((list_replace m old new_node) new_node).prev = new_node := by
    simp [list_replace, hnext, hne, Ne.symm hne]
  have h3 : ((list_replace m old new_node) old).prev = new_node := by
    simp [list_replace, hnext, hne, Ne.symm hne]
  have h4 : ((list_replace_init m old new_node) new_node).next = new_node := by
    simp [list_replace_init, INIT_LIST_HEAD, hne, h1]
  have h5 : ((list_replace_init m old new_node) new_node).prev = new_node := by
    simp [list_replace_init, INIT_LIST_HEAD, hne, h2]
  have h6 : ((list_replace_init m old new_node) old).next = old := by
    simp [list_replace_init, INIT_LIST_HEAD]
  have h7 : ((list_replace_init m old new_node) old).prev = old := by
    simp [list_replace_init, INIT_LIST_HEAD]
  refine ⟨⟨h4, h5, h6, h7, ?_, ?_⟩, h1, h2, h3⟩
  · simp [WellFormed, Traversal, list_for_each, list_for_each_from, Linked, h4, h5]
  · simp [WellFormed, Traversal, list_for_each, list_for_each_from, Linked, h6, h7]

theorem C27_replace_empty_witness :
    (((INIT_LIST_HEAD Mem.zero 1) 1).next = 1 ∧ ((INIT_LIST_HEAD Mem.zero 1) 1).prev = 1 ∧
      2 ≠ 1) ∧
    ((list_replace_init (INIT_LIST_HEAD Mem.zero 1) 1 2) 2).next = 2 ∧
    ((list_replace (INIT_LIST_HEAD Mem.zero 1) 1 2) 1).prev = 2 :=
  have h := C27_replace_empty (INIT_LIST_HEAD Mem.zero 1) 1 2 (by decide) (by decide)
  ⟨⟨by decide, by decide, by decide⟩, h.1.1, h.2.2.2⟩


/-! ## hlist: memory updates and chains -/

@[simp] theorem store_next (m : HMem) (s v x : Nat) :
    (m.store s v x).next = if x = s then v else (m x).next := by
  unfold HMem.store; split <;> rfl

@[simp] theorem store_pprev (m : HMem) (s v x : Nat) :
    (m.store s v x).pprev = (m x).pprev := by
  unfold HMem.store; split <;> rfl

@[simp] theorem setPprev_next (m : HMem) (n v x : Nat) :
    (m.setPprev n v x).next = (m x).next := by
  unfold HMem.setPprev; split <;> rfl

@[simp] theorem setPprev_pprev (m : HMem) (n v x : Nat) :
    (m.setPprev n v x).pprev = if x = n then v else (m x).pprev := by
  unfold HMem.setPprev; split <;> rfl

@[simp] theorem toMem_next (m : HMem) (x : Nat) : (m.toMem x).next = (m x).next := rfl

@[simp] theorem toMem_prev (m : HMem) (x : Nat) : (m.toMem x).prev = (m x).pprev := rfl

@[simp] theorem addr_next_eq (n : Nat) : addr_next n = n := rfl

@[simp] theorem addr_first_eq (h : Nat) : addr_first h = h := rfl

theorem store_of_ne {m : HMem} {s v x : Nat} (h : x ≠ s) : m.store s v x = m x := by
  simp [HMem.store, h]

theorem setPprev_of_ne {m : HMem} {n v x : Nat} (h : x ≠ n) : m.setPprev n v x = m x := by
  simp [HMem.setPprev, h]

/-- Frame rule for a segment of an hlist chain. -/
theorem hchain'_frame {m m' : HMem} {l : List Nat} (h : List.Chain' (Link m.toMem) l)
    (hn : ∀ x ∈ l.dropLast, (m' x).next = (m x).next)
    (hp : ∀ y ∈ l.tail, (m' y).pprev = (m y).pprev) : List.Chain' (Link m'.toMem) l :=
  chain'_frame h hn hp

/-- The `pprev` of a member is the address of the cell before it. -/
theorem hchain_pprev {m : HMem} {h n : Nat} {A B : List Nat}
    (hc : HChain m h (A ++ n :: B)) : (h :: A).getLast? = some (m n).pprev := by
  have hch := hc.2.2.1
  have e : h :: (A ++ n :: B) = (h :: A) ++ n :: B := by simp
  rw [e, List.chain'_append] at hch
  obtain ⟨a, ha⟩ : ∃ a, (h :: A).getLast? = some a := by
    rw [List.getLast?_eq_getLast _ (List.cons_ne_nil h A)]; exact ⟨_, rfl⟩
  have := hch.2.2 a ha n (by simp)
  rw [ha, ← this.2]
  rfl

/-- The `next` of a member is the node after it, or null at the end. -/
theorem hchain_next {m : HMem} {h n : Nat} {A B : List Nat}
    (hc : HChain m h (A ++ n :: B)) :
    (∀ y ∈ B.head?, (m n).next = y) ∧ (B = [] → (m n).next = NULL) := by
  obtain ⟨_, _, hch, hterm⟩ := hc
  have e : h :: (A ++ n :: B) = (h :: A) ++ n :: B := by simp
  rw [e, List.chain'_append] at hch
  constructor
  · intro y hy
    have := (List.chain'_cons'.mp hch.2.1).1 y hy
    exact this.1
  · rintro rfl
    exact hterm n (by rw [e, List.getLast?_append_cons]; rfl)

/-- The `first` of the head is the first node, or null for an empty chain. -/
theorem hchain_first {m : HMem} {h : Nat} {L : List Nat} (hc : HChain m h L) :
    (∀ y ∈ L.head?, (m h).next = y) ∧ (L = [] → (m h).next = NULL) := by
  obtain ⟨_, _, hch, hterm⟩ := hc
  constructor
  · intro y hy
    exact ((List.chain'_cons'.mp hch).1 y hy).1
  · rintro rfl
    exact hterm h rfl

/-- Linking a new node `n` after the cell `a` (the head or a member) of a
chain. -/
theorem hchain_insert {m m' : HMem} {h n a : Nat} {X Y : List Nat}
    (hc : HChain m h (X ++ Y)) (ha : (h :: X).getLast? = some a)
    (hn : n ∉ h :: (X ++ Y)) (hn0 : n ≠ NULL)
    (h1 : (m' a).next = n) (h2 : (m' n).pprev = a) (h3 : (m' n).next = (m a).next)
    (h4 : ∀ y ∈ Y.head?, (m' y).pprev = n)
    (hnx : ∀ x ∈ h :: (X ++ Y), x ≠ a → (m' x).next = (m x).next)
    (hpv : ∀ x ∈ h :: (X ++ Y), x ∉ Y.head? → (m' x).pprev = (m x).pprev) :
    HChain m' h (X ++ n :: Y) := by
  obtain ⟨hnd, h0, hch, hterm⟩ := hc
  have e : h :: (X ++ Y) = (h :: X) ++ Y := by simp
  have e' : h :: (X ++ n :: Y) = (h :: X) ++ n :: Y := by simp
  have hnd' : ((h :: X) ++ Y).Nodup := by rw [← e]; exact hnd
  have hndX := (List.nodup_append.mp hnd').1
  have hndY := (List.nodup_append.mp hnd').2.1
  have hdj := List.disjoint_of_nodup_append hnd'
  have haX : a ∈ h :: X := List.mem_of_mem_getLast? ha
  rw [e, List.chain'_append] at hch
  obtain ⟨hX, hY, hXY⟩ := hch
  have hmemX : ∀ x ∈ h :: X, x ∈ h :: (X ++ Y) := by
    intro x hx; rw [e]; exact List.mem_append_left _ hx
  have hmemY : ∀ x ∈ Y, x ∈ h :: (X ++ Y) := by
    intro x hx; rw [e]; exact List.mem_append_right _ hx
  have hYne : ∀ x ∈ Y, x ≠ a := fun x hx e => hdj haX (e ▸ hx)
  have hcY : List.Chain' (Link m'.toMem) Y := by
    refine hchain'_frame hY ?_ ?_
    · intro x hx
      have hxY := List.mem_of_mem_dropLast hx
      exact hnx x (hmemY x hxY) (hYne x hxY)
    · intro y hy
      refine hpv y (hmemY y (List.mem_of_mem_tail hy)) ?_
      intro hh
      exact ne_head_of_mem_tail hndY hh hy rfl
  refine ⟨?_, ?_, ?_, ?_⟩
  · rw [e', List.nodup_append]
    refine ⟨hndX, List.nodup_cons.mpr ⟨fun h' => hn (hmemY n h'), hndY⟩, ?_⟩
    intro x hx hx'
    rcases List.mem_cons.mp hx' with rfl | hx'
    · exact hn (hmemX x hx)
    · exact hdj hx hx'
  · intro hmem
    rcases List.mem_append.mp hmem with hmem | hmem
    · exact h0 (List.mem_append_left _ hmem)
    · rcases List.mem_cons.mp hmem with hmem | hmem
      · exact hn0 hmem.symm
      · exact h0 (List.mem_append_right _ hmem)
  · rw [e', List.chain'_append]
    refine ⟨?_, ?_, ?_⟩
    · refine hchain'_frame hX ?_ ?_
      · intro x hx
        exact hnx x (hmemX x (List.mem_of_mem_dropLast hx)) (ne_last_of_mem_dropLast hndX ha hx)
      · intro y hy
        have hyX : y ∈ h :: X := List.mem_of_mem_tail hy
        refine hpv y (hmemX y hyX) ?_
        intro hh
        exact hdj hyX (List.mem_of_mem_head? hh)
    · rw [List.chain'_cons']
      refine ⟨?_, hcY⟩
      intro y hy
      have := hXY a ha y hy
      exact ⟨by rw [toMem_next, h3]; exact this.1, h4 y hy⟩
    · intro x hx y hy
      rw [ha] at hx
      simp at hx hy
      subst hx hy
      exact ⟨h1, h2⟩
  · intro p hp
    rw [e', List.getLast?_append_cons] at hp
    rcases Y with _ | ⟨y, Y⟩
    · simp at hp
      subst hp
      rw [h3]
      exact hterm a (by simpa using ha)
    · rw [List.getLast?_cons_cons] at hp
      have hpY : p ∈ y :: Y := List.mem_of_mem_getLast? hp
      rw [hnx p (hmemY p hpY) (hYne p hpY)]
      exact hterm p (by rw [e, List.getLast?_append_cons]; exact hp)

/-- Unlinking a member `n` of a chain; `a` is the cell before it. -/
theorem hchain_remove {m m' : HMem} {h n a : Nat} {A B : List Nat}
    (hc : HChain m h (A ++ n :: B)) (ha : (h :: A).getLast? = some a)
    (h1 : (m' a).next = (m n).next) (h2 : ∀ y ∈ B.head?, (m' y).pprev = a)
    (hnx : ∀ x ∈ h :: (A ++ B), x ≠ a → (m' x).next = (m x).next)
    (hpv : ∀ x ∈ h :: (A ++ B), x ∉ B.head? → (m' x).pprev = (m x).pprev) :
    HChain m' h (A ++ B) := by
  have hnext := hchain_next hc
  obtain ⟨hnd, h0, hch, hterm⟩ := hc
  have e : h :: (A ++ n :: B) = (h :: A) ++ n :: B := by simp
  have e' : h :: (A ++ B) = (h :: A) ++ B := by simp
  have hnd' : ((h :: A) ++ B).Nodup := by
    rw [e] at hnd
    exact (List.nodup_append.mpr ⟨(List.nodup_append.mp hnd).1,
      (List.nodup_cons.mp (List.nodup_append.mp hnd).2.1).2,
      fun x hx hx' => List.disjoint_of_nodup_append hnd hx (List.mem_cons_of_mem _ hx')⟩)
  have hndA := (List.nodup_append.mp hnd').1
  have hndB := (List.nodup_append.mp hnd').2.1
  have hdj := List.disjoint_of_nodup_append hnd'
  have haA : a ∈ h :: A := List.mem_of_mem_getLast? ha
  rw [e, List.chain'_append] at hch
  obtain ⟨hA, hnB, -⟩ := hch
  have hB : List.Chain' (Link m.toMem) B := List.Chain'.tail hnB
  have hmemA : ∀ x ∈ h :: A, x ∈ h :: (A ++ B) := by
    intro x hx; rw [e']; exact List.mem_append_left _ hx
  have hmemB : ∀ x ∈ B, x ∈ h :: (A ++ B) := by
    intro x hx; rw [e']; exact List.mem_append_right _ hx
  have hBne : ∀ x ∈ B, x ≠ a := fun x hx e => hdj haA (e ▸ hx)
  refine ⟨by rw [e']; exact hnd', ?_, ?_, ?_⟩
  · intro hmem
    apply h0
    simp at hmem ⊢
    tauto
  · rw [e', List.chain'_append]
    refine ⟨?_, ?_, ?_⟩
    · refine hchain'_frame hA ?_ ?_
      · intro x hx
        exact hnx x (hmemA x (List.mem_of_mem_dropLast hx)) (ne_last_of_mem_dropLast hndA ha hx)
      · intro y hy
        have hyA : y ∈ h :: A := List.mem_of_mem_tail hy
        exact hpv y (hmemA y hyA) (fun hh => hdj hyA (List.mem_of_mem_head? hh))
    · refine hchain'_frame hB ?_ ?_
      · intro x hx
        have hxB := List.mem_of_mem_dropLast hx
        exact hnx x (hmemB x hxB) (hBne x hxB)
      · intro y hy
        exact hpv y (hmemB y (List.mem_of_mem_tail hy))
          (fun hh => ne_head_of_mem_tail hndB hh hy rfl)
    · intro x hx y hy
      rw [ha] at hx
      simp at hx
      subst hx
      exact ⟨by rw [toMem_next, h1]; exact hnext.1 y hy, h2 y hy⟩
  · intro p hp
    rw [e'] at hp
    rcases B with _ | ⟨b, B⟩
    · rw [List.append_nil, ha] at hp
      simp at hp
      subst hp
      rw [h1]
      exact hnext.2 rfl
    · rw [List.getLast?_append_cons] at hp
      have hpB : p ∈ b :: B := List.mem_of_mem_getLast? hp
      rw [hnx p (hmemB p hpB) (hBne p hpB)]
      exact hterm p (by
        rw [e, List.getLast?_append_cons, List.getLast?_cons_cons]; exact hp)

theorem hchain_frame {m m' : HMem} {h : Nat} {L : List Nat} (hc : HChain m h L)
    (hm : ∀ x ∈ h :: L, m' x = m x) : HChain m' h L := by
  obtain ⟨hnd, h0, hch, hterm⟩ := hc
  refine ⟨hnd, h0, hchain'_frame hch ?_ ?_, ?_⟩
  · intro x hx; rw [hm x (List.mem_of_mem_dropLast hx)]
  · intro y hy; rw [hm y (List.mem_of_mem_tail hy)]
  · intro p hp
    rw [hm p (List.mem_of_mem_getLast? hp)]
    exact hterm p hp

/-- The cell before a member points at it. -/
theorem hchain_pprev_next {m : HMem} {h n : Nat} {A B : List Nat}
    (hc : HChain m h (A ++ n :: B)) : (m (m n).pprev).next = n := by
  have ha := hchain_pprev hc
  have hch := hc.2.2.1
  have e : h :: (A ++ n :: B) = (h :: A) ++ n :: B := by simp
  rw [e, List.chain'_append] at hch
  exact (hch.2.2 _ ha n (by simp)).1

theorem hchain_add_head {m : HMem} {h n : Nat} {L : List Nat} (hc : HChain m h L)
    (hn : n ∉ h :: L) (hn0 : n ≠ NULL) : HChain (hlist_add_head m n h) h (n :: L) := by
  have hfirst := hchain_first hc
  have hnh : n ≠ h := fun e => hn (by simp [e])
  rcases L with _ | ⟨y, L⟩
  · have hf : (m h).next = NULL := hfirst.2 rfl
    refine hchain_insert (X := []) (Y := []) hc (show [h].getLast? = some h from rfl) hn hn0
      ?_ ?_ ?_ ?_ ?_ ?_
    · simp [hlist_add_head, hf]
    · simp [hlist_add_head, hf]
    · simp [hlist_add_head, hf, hnh]
    · intro y hy; simp at hy
    · intro x hx h1; simp at hx; exact absurd hx h1
    · intro x hx _
      simp at hx; subst hx
      simp [hlist_add_head, hf, Ne.symm hnh]
  · have hf : (m h).next = y := hfirst.1 y rfl
    have hy0 : y ≠ NULL := fun e => hc.2.1 (by simp [e])
    have hny : n ≠ y := fun e => hn (by simp [e])
    refine hchain_insert (X := []) (Y := y :: L) hc (show [h].getLast? = some h from rfl) hn
      hn0 ?_ ?_ ?_ ?_ ?_ ?_
    · simp [hlist_add_head, hf, hy0]
    · simp [hlist_add_head, hf, hy0]
    · simp [hlist_add_head, hf, hy0, hnh]
    · intro y' hy'
      simp at hy'; subst hy'
      simp [hlist_add_head, hf, hy0, Ne.symm hny]
    · intro x hx h1
      have hxn : x ≠ n := fun e => hn (e ▸ hx)
      simp [hlist_add_head, hf, hy0, h1, hxn]
    · intro x hx h1
      have hxn : x ≠ n := fun e => hn (e ▸ hx)
      have hxy : x ≠ y := fun e => h1 (by simp [e])
      simp [hlist_add_head, hf, hy0, hxy, hxn]

theorem hchain_add_before {m : HMem} {h n x : Nat} {A B : List Nat}
    (hc : HChain m h (A ++ x :: B)) (hn : n ∉ h :: (A ++ x :: B)) (hn0 : n ≠ NULL) :
    HChain (hlist_add_before m n x) h (A ++ n :: x :: B) := by
  have ha := hchain_pprev hc
  have hax := hchain_pprev_next hc
  have haM : (m x).pprev ∈ h :: (A ++ x :: B) := by
    have := List.mem_of_mem_getLast? ha
    simp at this ⊢; tauto
  have hna : n ≠ (m x).pprev := fun e => hn (e ▸ haM)
  have hnx : n ≠ x := fun e => hn (by simp [e])
  refine hchain_insert (X := A) (Y := x :: B) hc ha hn hn0 ?_ ?_ ?_ ?_ ?_ ?_
  · simp [hlist_add_before, hnx]
  · simp [hlist_add_before, hnx]
  · simp [hlist_add_before, hnx, hna, hax]
  · intro y hy
    simp at hy; subst hy
    simp [hlist_add_before, hnx]
  · intro y hy h1
    have hyn : y ≠ n := fun e => hn (e ▸ hy)
    simp [hlist_add_before, hnx, h1, hyn]
  · intro y hy h1
    have hyn : y ≠ n := fun e => hn (e ▸ hy)
    have hyx : y ≠ x := fun e => h1 (by simp [e])
    simp [hlist_add_before, hyx, hyn]

theorem hchain_add_behind {m : HMem} {h n x : Nat} {A B : List Nat}
    (hc : HChain m h (A ++ x :: B)) (hn : n ∉ h :: (A ++ x :: B)) (hn0 : n ≠ NULL) :
    HChain (hlist_add_behind m n x) h (A ++ x :: n :: B) := by
  have hnext := hchain_next hc
  have hnx : n ≠ x := fun e => hn (by simp [e])
  have e : A ++ x :: B = (A ++ [x]) ++ B := by simp
  have e' : A ++ x :: n :: B = (A ++ [x]) ++ n :: B := by simp
  have hlast : (h :: (A ++ [x])).getLast? = some x := by
    rw [← List.cons_append, List.getLast?_concat]
  rw [e] at hc hn
  rw [e']
  rcases B with _ | ⟨y, B⟩
  · have hf : (m x).next = NULL := hnext.2 rfl
    refine hchain_insert (Y := []) hc hlast hn hn0 ?_ ?_ ?_ ?_ ?_ ?_
    · simp [hlist_add_behind, hf, hnx]
    · simp [hlist_add_behind, hf, hnx]
    · simp [hlist_add_behind, hf, hnx]
    · intro y hy; simp at hy
    · intro z hz h1
      have hzn : z ≠ n := fun e => hn (e ▸ hz)
      simp [hlist_add_behind, hf, hnx, h1, hzn]
    · intro z hz _
      have hzn : z ≠ n := fun e => hn (e ▸ hz)
      simp [hlist_add_behind, hf, hnx, hzn]
  · have hf : (m x).next = y := hnext.1 y rfl
    have hy0 : y ≠ NULL := fun e => hc.2.1 (by simp [e])
    have hny : n ≠ y := fun e => hn (by simp [e])
    refine hchain_insert (Y := y :: B) hc hlast hn hn0 ?_ ?_ ?_ ?_ ?_ ?_
    · simp [hlist_add_behind, hf, hnx, hy0]
    · simp [hlist_add_behind, hf, hnx, hy0, hny]
    · simp [hlist_add_behind, hf, hnx, hy0]
    · intro y' hy'
      simp at hy'; subst hy'
      simp [hlist_add_behind, hf, hnx, hy0]
    · intro z hz h1
      have hzn : z ≠ n := fun e => hn (e ▸ hz)
      simp [hlist_add_behind, hf, hnx, hy0, h1, hzn]
    · intro z hz h1
      have hzn : z ≠ n := fun e => hn (e ▸ hz)
      have hzy : z ≠ y := fun e => h1 (by simp [e])
      simp [hlist_add_behind, hf, hnx, hy0, hzn, hzy]

theorem hchain___hlist_del {m : HMem} {h n : Nat} {A B : List Nat}
    (hc : HChain m h (A ++ n :: B)) : HChain (__hlist_del m n) h (A ++ B) := by
  have ha := hchain_pprev hc
  have hnext := hchain_next hc
  rcases B with _ | ⟨y, B⟩
  · have hf : (m n).next = NULL := hnext.2 rfl
    refine hchain_remove hc ha ?_ ?_ ?_ ?_
    · simp [__hlist_del, hf]
    · intro y hy; simp at hy
    · intro x _ h1; simp [__hlist_del, hf, h1]
    · intro x _ _; simp [__hlist_del, hf]
  · have hf : (m n).next = y := hnext.1 y rfl
    have hy0 : y ≠ NULL := fun e => hc.2.1 (by simp [e])
    refine hchain_remove hc ha ?_ ?_ ?_ ?_
    · simp [__hlist_del, hf, hy0]
    · intro y' hy'
      simp at hy'; subst hy'
      simp [__hlist_del, hf, hy0]
    · intro x _ h1; simp [__hlist_del, hf, hy0, h1]
    · intro x _ h1
      have hxy : x ≠ y := fun e => h1 (by simp [e])
      simp [__hlist_del, hf, hy0, hxy]

theorem hchain_not_mem_mid {m : HMem} {h n : Nat} {A B : List Nat}
    (hc : HChain m h (A ++ n :: B)) : n ∉ h :: (A ++ B) :=
  not_mem_of_nodup_mid (X := h :: A) hc.1

theorem hchain_hlist_del {m : HMem} {h n : Nat} {A B : List Nat}
    (hc : HChain m h (A ++ n :: B)) : HChain (hlist_del m n) h (A ++ B) := by
  refine hchain_frame (hchain___hlist_del hc) ?_
  intro x hx
  have hxn : x ≠ n := fun e => hchain_not_mem_mid hc (e ▸ hx)
  simp [hlist_del, setPprev_of_ne hxn, store_of_ne hxn]

/-- A member of a chain whose head is not null has a non-null `pprev`. -/
theorem hchain_pprev_ne_null {m : HMem} {h n : Nat} {A B : List Nat}
    (hc : HChain m h (A ++ n :: B)) (hh : h ≠ NULL) : (m n).pprev ≠ NULL := by
  have ha := List.mem_of_mem_getLast? (hchain_pprev hc)
  intro e
  rw [e] at ha
  rcases List.mem_cons.mp ha with h1 | h1
  · exact hh h1.symm
  · exact hc.2.1 (List.mem_append_left _ h1)

theorem hchain_hlist_del_init {m : HMem} {h n : Nat} {A B : List Nat}
    (hc : HChain m h (A ++ n :: B)) (hh : h ≠ NULL) :
    HChain (hlist_del_init m n) h (A ++ B) := by
  have hp := hchain_pprev_ne_null hc hh
  refine hchain_frame (hchain___hlist_del hc) ?_
  intro x hx
  have hxn : x ≠ n := fun e => hchain_not_mem_mid hc (e ▸ hx)
  simp [hlist_del_init, hlist_unhashed, hp, INIT_HLIST_NODE, setPprev_of_ne hxn,
    store_of_ne hxn]

theorem hchain_move_list {m : HMem} {old new_node : Nat} {L : List Nat}
    (hc : HChain m old L) (hn : new_node ∉ old :: L) :
    HChain (hlist_move_list m old new_node) new_node L ∧
      HChain (hlist_move_list m old new_node) old [] := by
  have hfirst := hchain_first hc
  obtain ⟨hnd, h0, hch, hterm⟩ := hc
  have hno : new_node ≠ old := fun e => hn (by simp [e])
  have hnL : new_node ∉ L := fun h => hn (by simp [h])
  have holdL : old ∉ L := (List.nodup_cons.mp hnd).1
  have hndL := (List.nodup_cons.mp hnd).2
  constructor
  · rcases L with _ | ⟨y, L⟩
    · have hf : (m old).next = NULL := hfirst.2 rfl
      refine ⟨by simp, h0, List.chain'_singleton _, ?_⟩
      intro p hp
      simp at hp; subst hp
      simp [hlist_move_list, hf, hno]
    · have hf : (m old).next = y := hfirst.1 y rfl
      have hy0 : y ≠ NULL := fun e => h0 (by simp [e])
      have hyo : y ≠ old := fun e => holdL (by simp [← e])
      have hyn : y ≠ new_node := fun e => hnL (by simp [← e])
      refine ⟨List.nodup_cons.mpr ⟨hnL, hndL⟩, h0, ?_, ?_⟩
      · rw [List.chain'_cons]
        refine ⟨⟨?_, ?_⟩, ?_⟩
        · simp [hlist_move_list, hf, hy0, hno]
        · simp [hlist_move_list, hf, hy0]
        · refine hchain'_frame (List.Chain'.tail hch) ?_ ?_
          · intro x hx
            have hxL : x ∈ y :: L := List.mem_of_mem_dropLast hx
            have hxo : x ≠ old := fun e => holdL (e ▸ hxL)
            have hxn : x ≠ new_node := fun e => hnL (e ▸ hxL)
            simp [hlist_move_list, hf, hy0, hxo, hxn]
          · intro x hx
            have hxy : x ≠ y := ne_head_of_mem_tail hndL rfl hx
            simp [hlist_move_list, hf, hy0, hxy]
      · intro p hp
        rw [List.getLast?_cons_cons] at hp
        have hpL : p ∈ y :: L := List.mem_of_mem_getLast? hp
        have hpo : p ≠ old := fun e => holdL (e ▸ hpL)
        have hpn : p ≠ new_node := fun e => hnL (e ▸ hpL)
        have := hterm p (by rw [List.getLast?_cons_cons]; exact hp)
        simp [hlist_move_list, hf, hy0, hpo, hpn, this]
  · refine ⟨by simp, by simp, List.chain'_singleton _, ?_⟩
    intro p hp
    simp at hp; subst hp
    simp [hlist_move_list]

/-! ## hlist: the traversal loop and the chain predicate -/

theorem hlist_for_each_from_eq (m : HMem) : ∀ (fuel pos : Nat),
    hlist_for_each_from m fuel pos = list_for_each_from m.toMem NULL fuel pos
  | 0, pos => by simp [hlist_for_each_from, list_for_each_from]
  | fuel + 1, pos => by
    simp [hlist_for_each_from, list_for_each_from, hlist_for_each_from_eq m fuel]

theorem htraversal_iff (m : HMem) (h : Nat) (L : List Nat) :
    HTraversal m h L ↔ NULL ∉ L ∧ List.Chain (NextLink m.toMem) h (L ++ [NULL]) := by
  unfold HTraversal hlist_for_each
  rw [hlist_for_each_from_eq, list_for_each_from_iff]
  have : List.Chain (NextLink m.toMem) h (L ++ [NULL]) ↔
      List.Chain' (NextLink m.toMem) (h :: (L ++ [NULL])) := Iff.rfl
  rw [this, List.chain'_cons']
  constructor
  · rintro ⟨h1, h2, h3⟩
    exact ⟨h1, fun y hy => by rw [h2] at hy; simpa [NextLink, eq_comm] using hy, h3⟩
  · rintro ⟨h1, h2, h3⟩
    refine ⟨h1, ?_, h3⟩
    rcases L with _ | ⟨y, ys⟩
    · have := h2 NULL (by simp)
      simp [NextLink] at this
      simp [this]
    · have := h2 y (by simp)
      simp [NextLink] at this
      simp [this]

theorem hlink_chain {m : HMem} : ∀ (l : List Nat) (a : Nat),
    List.Chain (NextLink m.toMem) a l → (∀ y ∈ l.head?, (m y).pprev = a) →
    (∀ N ∈ l, (m N).next ∈ l → (m (m N).next).pprev = N) → List.Chain (Link m.toMem) a l
  | [], _, _, _, _ => List.Chain.nil
  | b :: l, a, hch, hanch, hlk => by
    simp only [List.chain_cons, NextLink] at hch
    refine List.Chain.cons ⟨hch.1, hanch b rfl⟩ (hlink_chain l b hch.2 ?_ ?_)
    · intro y hy
      rcases l with _ | ⟨c, l⟩
      · simp at hy
      · simp at hy; subst hy
        have hbc : (m b).next = c := (List.chain_cons.mp hch.2).1
        have := hlk b (by simp) (by rw [hbc]; simp)
        rwa [hbc] at this
    · intro N hN hNl
      exact hlk N (List.mem_cons_of_mem _ hN) (List.mem_cons_of_mem _ hNl)

theorem hchain_of_wf {m : HMem} {h : Nat} {L : List Nat} (hw : HWellFormed m h L) :
    HChain m h L := by
  obtain ⟨htr, hanch, hlk⟩ := hw
  rw [htraversal_iff] at htr
  obtain ⟨h0, hch⟩ := htr
  have hcL : List.Chain (NextLink m.toMem) h L := chain_left hch
  refine ⟨List.nodup_cons.mpr ⟨?_, nextLink_nodup L h hch h0⟩, h0, ?_, ?_⟩
  · intro hh
    obtain ⟨p, q, rfl⟩ := List.append_of_mem hh
    have hq : List.Chain (NextLink m.toMem) h (q ++ [NULL]) := by
      have := hch
      rw [List.append_assoc, List.cons_append, List.chain_split] at this
      exact this.2
    exact h0 (nextLink_overrun q (p ++ h :: q) h NULL hq hcL (by simp; omega))
  · refine hlink_chain L h hcL hanch ?_
    intro N hN hNl
    exact (hlk N hN).2 (fun e => h0 (e ▸ hNl))
  · intro p hp
    have h1 : List.Chain' (NextLink m.toMem) ((h :: L) ++ [NULL]) := hch
    rw [List.chain'_append] at h1
    exact h1.2.2 p hp NULL rfl

theorem wf_of_hchain {m : HMem} {h : Nat} {L : List Nat} (hc : HChain m h L) :
    HWellFormed m h L := by
  have hfirst := hchain_first hc
  refine ⟨?_, ?_, ?_⟩
  · rw [htraversal_iff]
    refine ⟨hc.2.1, ?_⟩
    have h1 : List.Chain' (NextLink m.toMem) ((h :: L) ++ [NULL]) := by
      rw [List.chain'_append]
      refine ⟨hc.2.2.1.imp (fun _ _ hl => hl.1), List.chain'_singleton _, ?_⟩
      intro x hx y hy
      simp at hy; subst hy
      exact hc.2.2.2 x hx
    exact h1
  · intro y hy
    exact ((List.chain'_cons'.mp hc.2.2.1).1 y hy).2
  · intro N hN
    obtain ⟨A, B, rfl⟩ := List.append_of_mem hN
    refine ⟨hchain_pprev_next hc, ?_⟩
    intro hne
    have hnext := hchain_next hc
    rcases B with _ | ⟨y, B⟩
    · exact absurd (hnext.2 rfl) hne
    · have hch := hc.2.2.1
      have e : h :: (A ++ N :: y :: B) = (h :: A) ++ N :: y :: B := by simp
      rw [e, List.chain'_append, List.chain'_cons] at hch
      have := hch.2.1.1
      rw [hnext.1 y rfl]
      exact this.2

theorem hwellFormed_iff_hchain (m : HMem) (h : Nat) (L : List Nat) :
    HWellFormed m h L ↔ HChain m h L :=
  ⟨hchain_of_wf, wf_of_hchain⟩

theorem htraversal_unique {m : HMem} {h : Nat} {L L' : List Nat} (h1 : HTraversal m h L)
    (h2 : HTraversal m h L') : L = L' := by
  unfold HTraversal hlist_for_each at h1 h2
  rw [hlist_for_each_from_eq] at h1 h2
  have e1 := list_for_each_from_fuel _ _ L (max L.length L'.length) _ h1 (le_max_left _ _)
  have e2 := list_for_each_from_fuel _ _ L' (max L.length L'.length) _ h2 (le_max_right _ _)
  rw [e1] at e2
  exact Option.some.inj e2

theorem HWellFormed.chain {m : HMem} {h : Nat} {L : List Nat} (hw : HWellFormed m h L) :
    HChain m h L := hchain_of_wf hw

theorem HChain.hwf {m : HMem} {h : Nat} {L : List Nat} (hc : HChain m h L) :
    HWellFormed m h L := wf_of_hchain hc

/-- C20 (as stated, refuted). In `shared_mem` every node of the chain `11, 12`
of head 1 satisfies the two stated conditions (the slot `11.pprev` points at is
the `first` of head 2, which holds 11), yet after `hlist_del_init(11)` the chain
of head 1 still starts with 11, whose `pprev` is now null: no forward sequence
of head 1 has all its nodes satisfying the two conditions. -/
theorem C20_hlist_invariant_counterexample :
    HNodesLinked shared_mem 1 [11, 12] ∧ 11 ∈ [11, 12] ∧
    ¬ ∃ L, HNodesLinked (hlist_del_init shared_mem 11) 1 L := by
  refine ⟨by decide, by decide, ?_⟩
  rintro ⟨L, htr, hlk⟩
  have h1 : HTraversal (hlist_del_init shared_mem 11) 1 [11] := by decide
  have := htraversal_unique htr h1
  subst this
  have h2 : ¬ HLinked (hlist_del_init shared_mem 11) 11 := by decide
  exact h2 (hlk 11 (by simp))

/-- C20 (amended). In a heap where the chain of hlist head `h` is well-formed
(the `pprev` of the first node is the address of `h.first`; for every node `N`
on the chain the slot `N.pprev` points at holds `N`, and if `N.next` is non-null
then `N.next.pprev` is the address of `N.next`), each of `hlist_add_head`,
`hlist_add_before`, `hlist_add_behind` (with a new node not on the chain),
`hlist_del`, `hlist_del_init` (of a node on the chain) and `hlist_move_list`
(into a distinct head) leaves a well-formed chain: every node on the resulting
chain satisfies the same conditions. -/
theorem C20_hlist_invariant_preserved (m : HMem) (h : Nat) (L : List Nat)
    (hwf : HWellFormed m h L) (hh : h ≠ NULL) :
    (∀ n, n ∉ h :: L → n ≠ NULL →
      (∃ L', HWellFormed (hlist_add_head m n h) h L') ∧
      ∀ x ∈ L, (∃ L', HWellFormed (hlist_add_before m n x) h L') ∧
        (∃ L', HWellFormed (hlist_add_behind m n x) h L')) ∧
    (∀ n ∈ L, (∃ L', HWellFormed (hlist_del m n) h L') ∧
      (∃ L', HWellFormed (hlist_del_init m n) h L')) ∧
    (∀ new_node, new_node ∉ h :: L →
      (∃ L', HWellFormed (hlist_move_list m h new_node) new_node L') ∧
      (∃ L', HWellFormed (hlist_move_list m h new_node) h L')) := by
  have hc := hwf.chain
  refine ⟨?_, ?_, ?_⟩
  · intro n hn hn0
    refine ⟨⟨_, (hchain_add_head hc hn hn0).hwf⟩, ?_⟩
    intro x hx
    obtain ⟨A, B, rfl⟩ := List.append_of_mem hx
    exact ⟨⟨_, (hchain_add_before hc hn hn0).hwf⟩, ⟨_, (hchain_add_behind hc hn hn0).hwf⟩⟩
  · intro n hn
    obtain ⟨A, B, rfl⟩ := List.append_of_mem hn
    exact ⟨⟨_, (hchain_hlist_del hc).hwf⟩, ⟨_, (hchain_hlist_del_init hc hh).hwf⟩⟩
  · intro new_node hn
    have := hchain_move_list hc hn
    exact ⟨⟨_, this.1.hwf⟩, ⟨_, this.2.hwf⟩⟩

theorem C20_hlist_invariant_preserved_witness :
    (HWellFormed h_mem 1 [11, 12, 13] ∧ 1 ≠ NULL) ∧
    (∃ L', HWellFormed (hlist_add_head h_mem 14 1) 1 L') ∧
    (∃ L', HWellFormed (hlist_del_init h_mem 11) 1 L') ∧
    (∃ L', HWellFormed (hlist_move_list h_mem 1 2) 2 L') :=
  have h := C20_hlist_invariant_preserved h_mem 1 [11, 12, 13] (by decide) (by decide)
  ⟨⟨by decide, by decide⟩, (h.1 14 (by decide) (by decide)).1, (h.2.1 11 (by decide)).2,
    (h.2.2 2 (by decide)).1⟩

/-- C21. For a well-formed hlist chain at head `h` with forward sequence `L`
and a node `n` not on it, `hlist_add_head(n, h)` makes the sequence `[n] ++ L`
with `n.pprev` pointing at `h.first`; for a member `x` with `L = A ++ [x] ++ B`,
`hlist_add_before(n, x)` makes it `A ++ [n, x] ++ B` and `hlist_add_behind(n, x)`
makes it `A ++ [x, n] ++ B`, neither of the two taking `h` as an argument. -/
theorem C21_hlist_add (m : HMem) (h : Nat) (L : List Nat) (n : Nat)
    (hwf : HWellFormed m h L) (hn : n ∉ h :: L) (hn0 : n ≠ NULL) :
    HWellFormed (hlist_add_head m n h) h ([n] ++ L) ∧
    ((hlist_add_head m n h) n).pprev = addr_first h ∧
    (∀ A x B, L = A ++ [x] ++ B →
      HWellFormed (hlist_add_before m n x) h (A ++ [n, x] ++ B) ∧
      HWellFormed (hlist_add_behind m n x) h (A ++ [x, n] ++ B)) := by
  have hc := hwf.chain
  refine ⟨(hchain_add_head hc hn hn0).hwf, by simp [hlist_add_head], ?_⟩
  intro A x B hL
  subst hL
  have hc' : HChain m h (A ++ x :: B) := by simpa using hc
  have hn' : n ∉ h :: (A ++ x :: B) := by simpa using hn
  have h1 := (hchain_add_before hc' hn' hn0).hwf
  have h2 := (hchain_add_behind hc' hn' hn0).hwf
  exact ⟨by simpa using h1, by simpa using h2⟩

theorem C21_hlist_add_witness :
    (HWellFormed h_mem 1 [11, 12, 13] ∧ 14 ∉ [1, 11, 12, 13] ∧ 14 ≠ NULL) ∧
    HWellFormed (hlist_add_head h_mem 14 1) 1 [14, 11, 12, 13] ∧
    HWellFormed (hlist_add_before h_mem 14 12) 1 [11, 14, 12, 13] ∧
    HWellFormed (hlist_add_behind h_mem 14 12) 1 [11, 12, 14, 13] :=
  have h := C21_hlist_add h_mem 1 [11, 12, 13] 14 (by decide) (by decide) (by decide)
  ⟨⟨by decide, by decide, by decide⟩, h.1, (h.2.2 [11] 12 [13] rfl).1,
    (h.2.2 [11] 12 [13] rfl).2⟩

/-- After a removal that leaves the chain `A ++ B`, the first node of `B` has
the old `pprev` of the removed node, and `h.first` is the old `next` of the
removed node when `A` is empty. -/
theorem hchain_removed_links {m m' : HMem} {h n : Nat} {A B : List Nat}
    (hc : HChain m h (A ++ n :: B)) (hc' : HChain m' h (A ++ B)) :
    (∀ y ∈ B.head?, (m' y).pprev = (m n).pprev) ∧ (A = [] → (m' h).next = (m n).next) := by
  have hp := hchain_pprev hc
  have hnext := hchain_next hc
  constructor
  · intro y hy
    rcases B with _ | ⟨b, B⟩
    · simp at hy
    · simp at hy; subst hy
      have hp' := hchain_pprev hc'
      rw [hp] at hp'
      exact (Option.some.inj hp').symm
  · rintro rfl
    have hf := hchain_first hc'
    rcases B with _ | ⟨b, B⟩
    · rw [hf.2 rfl, hnext.2 rfl]
    · rw [hf.1 b rfl, hnext.1 b rfl]

/-- C22. For a well-formed hlist chain at head `h` with forward sequence
`A ++ [n] ++ B`, `hlist_del(n)` and `hlist_del_init(n)` make the forward
sequence of `h` exactly `A ++ B`: `h.first` is updated when `A` is empty, the
first node of `B`, if any, gets the old `pprev` of `n`, and every other node
keeps its relative order. -/
theorem C22_hlist_del (m : HMem) (h : Nat) (A : List Nat) (n : Nat) (B : List Nat)
    (hwf : HWellFormed m h (A ++ [n] ++ B)) (hh : h ≠ NULL) :
    (HWellFormed (hlist_del m n) h (A ++ B) ∧
      (∀ y ∈ B.head?, ((hlist_del m n) y).pprev = (m n).pprev) ∧
      (A = [] → ((hlist_del m n) (addr_first h)).next = (m n).next)) ∧
    (HWellFormed (hlist_del_init m n) h (A ++ B) ∧
      (∀ y ∈ B.head?, ((hlist_del_init m n) y).pprev = (m n).pprev) ∧
      (A = [] → ((hlist_del_init m n) (addr_first h)).next = (m n).next)) := by
  have hc : HChain m h (A ++ n :: B) := by simpa using hwf.chain
  have h1 := hchain_hlist_del hc
  have h2 := hchain_hlist_del_init hc hh
  exact ⟨⟨h1.hwf, hchain_removed_links hc h1⟩, ⟨h2.hwf, hchain_removed_links hc h2⟩⟩

theorem C22_hlist_del_witness :
    (HWellFormed h_mem 1 ([11] ++ [12] ++ [13]) ∧ 1 ≠ NULL) ∧
    HWellFormed (hlist_del h_mem 12) 1 [11, 13] ∧
    HWellFormed (hlist_del_init h_mem 12) 1 [11, 13] ∧
    HWellFormed (hlist_del_init h_mem 11) 1 [12, 13] :=
  have h := C22_hlist_del h_mem 1 [11] 12 [13] (by decide) (by decide)
  ⟨⟨by decide, by decide⟩, h.1.1, h.2.1,
    (C22_hlist_del h_mem 1 [] 11 [12, 13] (by decide) (by decide)).2.1⟩

/-- C23. After removing a linked node `n` from a well-formed hlist chain: with
`hlist_del_init(n)`, `n.next` and `n.pprev` are both null and
`hlist_unhashed(n)` is true; with `hlist_del(n)`, `hlist_unhashed(n)` is false,
`n.next` is `LIST_POISON1` (0x00100100) and `n.pprev` is `LIST_POISON2`
(0x00200200), two distinct non-null values.  `INIT_HLIST_NODE(n)` makes
`hlist_unhashed(n)` true, and `hlist_unhashed(n)` is true exactly when
`n.pprev` is null. -/
theorem C23_hlist_removed_state (m : HMem) (h : Nat) (A : List Nat) (n : Nat)
    (B : List Nat) (hwf : HWellFormed m h (A ++ [n] ++ B)) (hh : h ≠ NULL) :
    (((hlist_del_init m n) n).next = NULL ∧ ((hlist_del_init m n) n).pprev = NULL ∧
      hlist_unhashed (hlist_del_init m n) n = true) ∧
    (hlist_unhashed (hlist_del m n) n = false ∧
      ((hlist_del m n) n).next = LIST_POISON1 ∧ ((hlist_del m n) n).pprev = LIST_POISON2 ∧
      LIST_POISON1 = 0x00100100 ∧ LIST_POISON2 = 0x00200200 ∧
      LIST_POISON1 ≠ LIST_POISON2 ∧ LIST_POISON1 ≠ NULL ∧ LIST_POISON2 ≠ NULL) ∧
    (∀ (m0 : HMem) (n0 : Nat), hlist_unhashed (INIT_HLIST_NODE m0 n0) n0 = true) ∧
    (∀ (m0 : HMem) (n0 : Nat), hlist_unhashed m0 n0 = true ↔ (m0 n0).pprev = NULL) := by
  have hc : HChain m h (A ++ n :: B) := by simpa using hwf.chain
  have hp := hchain_pprev_ne_null hc hh
  have e1 : ((hlist_del_init m n) n).next = NULL := by
    simp [hlist_del_init, hlist_unhashed, hp, INIT_HLIST_NODE]
  have e2 : ((hlist_del_init m n) n).pprev = NULL := by
    simp [hlist_del_init, hlist_unhashed, hp, INIT_HLIST_NODE]
  have e3 : ((hlist_del m n) n).pprev = LIST_POISON2 := by simp [hlist_del]
  refine ⟨⟨e1, e2, by simp [hlist_unhashed, e2]⟩, ⟨?_, by simp [hlist_del], e3, rfl, rfl,
    by decide, by decide, by decide⟩, ?_, ?_⟩
  · simp only [hlist_unhashed, e3]
    decide
  · intro m0 n0
    simp [hlist_unhashed, INIT_HLIST_NODE]
  · intro m0 n0
    simp [hlist_unhashed]

theorem C23_hlist_removed_state_witness :
    (HWellFormed h_mem 1 ([11] ++ [12] ++ [13]) ∧ 1 ≠ NULL) ∧
    hlist_unhashed (hlist_del_init h_mem 12) 12 = true ∧
    hlist_unhashed (hlist_del h_mem 12) 12 = false ∧
    ((hlist_del h_mem 12) 12).next = LIST_POISON1 :=
  have h := C23_hlist_removed_state h_mem 1 [11] 12 [13] (by decide) (by decide)
  ⟨⟨by decide, by decide⟩, h.1.2.2, h.2.1.1, h.2.1.2.1⟩

/-- C24. For a well-formed hlist chain at head `old` with forward sequence `L`
and a distinct head `new`, `hlist_move_list(old, new)` makes the forward
sequence of `new` exactly `L`, makes `old` empty (`old.first == null`) and,
when `L` is non-empty, sets the `pprev` of the first node of `L` to the address
of `new.first`; when `L` is empty, `new` is empty too. -/
theorem C24_hlist_move_list (m : HMem) (old new_node : Nat) (L : List Nat)
    (hwf : HWellFormed m old L) (hn : new_node ∉ old :: L) :
    HWellFormed (hlist_move_list m old new_node) new_node L ∧
    HWellFormed (hlist_move_list m old new_node) old [] ∧
    ((hlist_move_list m old new_node) (addr_first old)).next = NULL ∧
    hlist_empty (hlist_move_list m old new_node) old = true ∧
    (∀ y ∈ L.head?, ((hlist_move_list m old new_node) y).pprev = addr_first new_node) ∧
    (L = [] → hlist_empty (hlist_move_list m old new_node) new_node = true) := by
  have h := hchain_move_list hwf.chain hn
  have e1 : ((hlist_move_list m old new_node) (addr_first old)).next = NULL := by
    simp [hlist_move_list]
  refine ⟨h.1.hwf, h.2.hwf, e1, by simpa [hlist_empty] using e1, h.1.hwf.2.1, ?_⟩
  intro hL
  have := (hchain_first h.1).2 hL
  simp [hlist_empty, this]

theorem C24_hlist_move_list_witness :
    (HWellFormed h_mem 1 [11, 12, 13] ∧ 2 ∉ [1, 11, 12, 13]) ∧
    HWellFormed (hlist_move_list h_mem 1 2) 2 [11, 12, 13] ∧
    HWellFormed (hlist_move_list h_mem 1 2) 1 [] ∧
    ((hlist_move_list h_mem 1 2) 11).pprev = addr_first 2 :=
  have h := C24_hlist_move_list h_mem 1 2 [11, 12, 13] (by decide) (by decide)
  ⟨⟨by decide, by decide⟩, h.1, h.2.1, h.2.2.2.2.1 11 rfl⟩

/-- Removal of a self-referential node with a null `next`. -/
theorem hlist_fake_removal (m1 : HMem) (n : Nat) (hp : (m1 n).pprev = n)
    (hx : (m1 n).next = NULL) (hn0 : n ≠ NULL) :
    ((∀ x, x ≠ n → (hlist_del_init m1 n) x = m1 x) ∧
      hlist_unhashed (hlist_del_init m1 n) n = true ∧
      ((hlist_del_init m1 n) n).next = NULL) ∧
    ((∀ x, x ≠ n → (hlist_del m1 n) x = m1 x) ∧
      ((hlist_del m1 n) n).next = LIST_POISON1 ∧
      ((hlist_del m1 n) n).pprev = LIST_POISON2) := by
  have hun : hlist_unhashed m1 n = false := by
    simp [hlist_unhashed, hp, hn0]
  have hdel : __hlist_del m1 n = m1.store n NULL := by
    simp [__hlist_del, hp, hx]
  refine ⟨⟨?_, ?_, ?_⟩, ⟨?_, ?_, ?_⟩⟩
  · intro x hxn
    simp only [hlist_del_init, hun, hdel, INIT_HLIST_NODE, addr_next_eq]
    simp [store_of_ne hxn, setPprev_of_ne hxn]
  · simp only [hlist_del_init, hun, hdel, INIT_HLIST_NODE, addr_next_eq]
    simp [hlist_unhashed]
  · simp only [hlist_del_init, hun, hdel, INIT_HLIST_NODE, addr_next_eq]
    simp
  · intro x hxn
    simp only [hlist_del, hdel, addr_next_eq]
    simp [store_of_ne hxn, setPprev_of_ne hxn]
  · simp [hlist_del]
  · simp [hlist_del]

/-- C25. For a node `n` put in the unhashed state by `INIT_HLIST_NODE`: after
`hlist_add_fake(n)`, `hlist_fake(n)` is true and `hlist_unhashed(n)` is false;
removal then works without any head: `hlist_del_init(n)` writes no memory
outside `n` and leaves `n` unhashed, and `hlist_del(n)` writes no memory outside
`n` and leaves `n` with the poison values.  `hlist_fake` is false for every node
linked on a well-formed chain of a real head. -/
theorem C25_hlist_fake (m : HMem) (n : Nat) (hn0 : n ≠ NULL) :
    (hlist_fake (hlist_add_fake (INIT_HLIST_NODE m n) n) n = true ∧
      hlist_unhashed (hlist_add_fake (INIT_HLIST_NODE m n) n) n = false) ∧
    ((∀ x, x ≠ n → (hlist_del_init (hlist_add_fake (INIT_HLIST_NODE m n) n) n) x
        = (hlist_add_fake (INIT_HLIST_NODE m n) n) x) ∧
      hlist_unhashed (hlist_del_init (hlist_add_fake (INIT_HLIST_NODE m n) n) n) n = true ∧
      ((hlist_del_init (hlist_add_fake (INIT_HLIST_NODE m n) n) n) n).next = NULL) ∧
    ((∀ x, x ≠ n → (hlist_del (hlist_add_fake (INIT_HLIST_NODE m n) n) n) x
        = (hlist_add_fake (INIT_HLIST_NODE m n) n) x) ∧
      ((hlist_del (hlist_add_fake (INIT_HLIST_NODE m n) n) n) n).next = LIST_POISON1 ∧
      ((hlist_del (hlist_add_fake (INIT_HLIST_NODE m n) n) n) n).pprev = LIST_POISON2) ∧
    (∀ (m0 : HMem) (h : Nat) (L : List Nat) (x : Nat), HWellFormed m0 h L → x ∈ L →
      hlist_fake m0 x = false) := by
  have hp : ((hlist_add_fake (INIT_HLIST_NODE m n) n) n).pprev = n := by
    simp [hlist_add_fake]
  have hx : ((hlist_add_fake (INIT_HLIST_NODE m n) n) n).next = NULL := by
    simp [hlist_add_fake, INIT_HLIST_NODE]
  have hun : hlist_unhashed (hlist_add_fake (INIT_HLIST_NODE m n) n) n = false := by
    simp [hlist_unhashed, hp, hn0]
  have hrem := hlist_fake_removal (hlist_add_fake (INIT_HLIST_NODE m n) n) n hp hx hn0
  refine ⟨⟨by simp [hlist_fake, hp], hun⟩, hrem.1, hrem.2, ?_⟩
  · intro m0 h L x hwf hxL
    obtain ⟨A, B, rfl⟩ := List.append_of_mem hxL
    have hc := hwf.chain
    have hp := List.mem_of_mem_getLast? (hchain_pprev hc)
    have hnot := hchain_not_mem_mid hc
    have hne : (m0 x).pprev ≠ x := by
      intro e
      rw [e] at hp
      apply hnot
      simp at hp ⊢
      tauto
    simp [hlist_fake, hne]

theorem C25_hlist_fake_witness :
    5 ≠ NULL ∧
    hlist_fake (hlist_add_fake (INIT_HLIST_NODE h_mem 5) 5) 5 = true ∧
    hlist_unhashed (hlist_add_fake (INIT_HLIST_NODE h_mem 5) 5) 5 = false ∧
    hlist_unhashed (hlist_del_init (hlist_add_fake (INIT_HLIST_NODE h_mem 5) 5) 5) 5 = true ∧
    hlist_fake h_mem 12 = false :=
  have h := C25_hlist_fake h_mem 5 (by decide)
  ⟨by decide, h.1.1, h.1.2, h.2.1.2.1, h.2.2.2 h_mem 1 [11, 12, 13] 12 (by decide) (by decide)⟩

/-- C26. For a well-formed hlist chain at head `h` and a node `n` linked on
some well-formed chain, `hlist_is_singular_node(n, h)` is true iff `n.next` is
null and `n.pprev` is the address of `h.first`, which holds iff the forward
sequence of `h` is exactly `[n]`. -/
theorem C26_hlist_singular (m : HMem) (h : Nat) (L : List Nat) (n g : Nat)
    (Lg : List Nat) (hwf : HWellFormed m h L) (hg : HWellFormed m g Lg) (hn : n ∈ Lg) :
    (hlist_is_singular_node m n h = true ↔
      (m n).next = NULL ∧ (m n).pprev = addr_first h) ∧
    ((m n).next = NULL ∧ (m n).pprev = addr_first h ↔ L = [n]) := by
  refine ⟨by simp [hlist_is_singular_node], ?_⟩
  constructor
  · rintro ⟨h1, h2⟩
    have hn0 : n ≠ NULL := fun e => hg.chain.2.1 (e ▸ hn)
    have hslot : (m (m n).pprev).next = n := (hg.2.2 n hn).1
    rw [h2] at hslot
    have hslot' : (m h).next = n := by simpa using hslot
    have htr : HTraversal m h [n] := by
      simp [HTraversal, hlist_for_each, hlist_for_each_from, hslot', hn0, h1]
    exact htraversal_unique hwf.1 htr
  · rintro rfl
    have hc := hwf.chain
    exact ⟨hc.2.2.2 n (by simp), hwf.2.1 n (by simp)⟩

theorem C26_hlist_singular_witness :
    (HWellFormed (hlist_del (hlist_del h_mem 12) 13) 1 [11] ∧ 11 ∈ [11]) ∧
    hlist_is_singular_node (hlist_del (hlist_del h_mem 12) 13) 11 1 = true ∧
    (HWellFormed h_mem 1 [11, 12, 13] ∧ hlist_is_singular_node h_mem 11 1 = false) :=
  have h := C26_hlist_singular (hlist_del (hlist_del h_mem 12) 13) 1 [11] 11 1 [11]
    (by decide) (by decide) (by decide)
  ⟨⟨by decide, by decide⟩, h.1.mpr (h.2.mpr rfl), by decide, by decide⟩

end CBase
